import Mathlib

/-!
Shallow embedding of the incremental JSON parser of vscode_rainbow_json
(tokenizer, object-grouping pass, pushdown-automaton structural parser and
the `parse_json_objects` entry point), together with theorems settling the
specification claims about it.

Strings are modelled as `List Char`, line numbers and columns as `Nat`, and
the JavaScript exception channel as `Except JsonError`.  Error messages are
not modelled (only the error class and the reported line/column, which is
all the behaviour the claims mention).  Node trees are built functionally:
a child node is attached to its parent when its frame is popped, which
yields the same final tree as the in-place mutation of the source.
-/

namespace RainbowJson

/-- The error classes thrown by the parser.  `assertionFailed` models the
`assert` in `parse_json_objects`; `internalError` models the JavaScript
`TypeError` that would arise from writing to a `null` record there. -/
inductive JsonError where
  | tokenizerError (line_num : Nat) (position : Nat)
  | syntaxError (line_num : Nat) (position : Nat)
  | incompleteError
  | assertionFailed
  | internalError
deriving DecidableEq, Repr

/-- Lexical classes of the five tokenizer patterns. -/
inductive TokKind where
  | ws
  | const
  | str
  | num
  | punct
deriving DecidableEq, BEq, Repr

/-- `JsonToken`: literal text, source line/column, and the four type flags. -/
structure JsonToken where
  value : List Char
  line_num : Nat
  position : Nat
  constant : Bool
  string : Bool
  number : Bool
  punctuation : Bool
deriving DecidableEq, Repr

def JsonToken.brace_open (t : JsonToken) : Bool := t.value == ['{']
def JsonToken.brace_close (t : JsonToken) : Bool := t.value == ['}']
def JsonToken.bracket_open (t : JsonToken) : Bool := t.value == ['[']
def JsonToken.bracket_close (t : JsonToken) : Bool := t.value == [']']
def JsonToken.colon (t : JsonToken) : Bool := t.value == [':']
def JsonToken.comma (t : JsonToken) : Bool := t.value == [',']

def JsonToken.isContainerOpen (t : JsonToken) : Bool :=
  t.brace_open || t.bracket_open

def JsonToken.isContainerClose (t : JsonToken) : Bool :=
  t.brace_close || t.bracket_close

def JsonToken.isContainerDelim (t : JsonToken) : Bool :=
  t.brace_open || t.brace_close || t.bracket_open || t.bracket_close

def JsonToken.isMatchingClose (t openToken : JsonToken) : Bool :=
  (t.brace_close && openToken.brace_open) || (t.bracket_close && openToken.bracket_open)

/-- The character class of the JavaScript regex `\s`
(ECMAScript WhiteSpace and LineTerminator characters). -/
def isJsWhitespace (c : Char) : Bool :=
  let n := c.toNat
  n = 32 || n = 9 || n = 10 || n = 13 || n = 11 || n = 12 ||
  n = 0xa0 || n = 0x1680 || (0x2000 ≤ n && n ≤ 0x200a) ||
  n = 0x2028 || n = 0x2029 || n = 0x202f || n = 0x205f || n = 0x3000 || n = 0xfeff

/-- Line terminators, which the `.` of the string regex does not match. -/
def isLineTerminator (c : Char) : Bool :=
  let n := c.toNat
  n = 10 || n = 13 || n = 0x2028 || n = 0x2029

/-- Sticky match of `\s+`: matched text and remainder. -/
def matchWhitespace : List Char → Option (List Char × List Char)
  | [] => none
  | c :: cs =>
    if isJsWhitespace c then
      some (c :: cs.takeWhile isJsWhitespace, cs.dropWhile isJsWhitespace)
    else none

/-- Sticky match of a fixed literal. -/
def matchLit (lit : List Char) (cs : List Char) : Option (List Char × List Char) :=
  if cs.take lit.length = lit then some (lit, cs.drop lit.length) else none

/-- Sticky match of `true|false|null` (ordered alternation). -/
def matchConstant (cs : List Char) : Option (List Char × List Char) :=
  match matchLit ("true".toList) cs with
  | some r => some r
  | none =>
    match matchLit ("false".toList) cs with
    | some r => some r
    | none => matchLit ("null".toList) cs

/-- Scan of `(?:[^"\\]|\\.)*"` after the opening quote: returns the matched
body (with the closing quote) and the remainder.  The greedy loop is
deterministic, so it stops at the first unescaped quote. -/
def scanStringBody : List Char → Option (List Char × List Char)
  | [] => none
  | c :: rest =>
    if c = '"' then some (['"'], rest)
    else if c = '\\' then
      match rest with
      | [] => none
      | d :: rest2 =>
        if isLineTerminator d then none
        else
          match scanStringBody rest2 with
          | some (b, r) => some (c :: d :: b, r)
          | none => none
    else
      match scanStringBody rest with
      | some (b, r) => some (c :: b, r)
      | none => none

/-- Sticky match of `"(?:[^"\\]|\\.)*"`. -/
def matchString : List Char → Option (List Char × List Char)
  | '"' :: rest =>
    match scanStringBody rest with
    | some (b, r) => some ('"' :: b, r)
    | none => none
  | _ => none

def isDigitChar (c : Char) : Bool := '0' ≤ c && c ≤ '9'

/-- Sticky match of `0|[1-9]\d*` (ordered alternation, `0` first). -/
def matchIntPart : List Char → Option (List Char × List Char)
  | [] => none
  | c :: cs =>
    if c = '0' then some (['0'], cs)
    else if '1' ≤ c && c ≤ '9' then
      some (c :: cs.takeWhile isDigitChar, cs.dropWhile isDigitChar)
    else none

/-- Sticky match of `(?:\.\d+)?`; the empty match is taken when `\.\d+` fails. -/
def matchFracPart : List Char → List Char × List Char
  | '.' :: cs =>
    match cs.takeWhile isDigitChar with
    | [] => ([], '.' :: cs)
    | d => ('.' :: d, cs.dropWhile isDigitChar)
  | cs => ([], cs)

/-- Helper for the exponent: `\d+` after `[eE]` and an optional sign;
falls back to the empty match (backtracking of the optional group). -/
def matchExpDigits (e : Char) (sign : List Char) (cs : List Char) (orig : List Char) :
    List Char × List Char :=
  match cs.takeWhile isDigitChar with
  | [] => ([], orig)
  | d => (e :: (sign ++ d), cs.dropWhile isDigitChar)

/-- Sticky match of `(?:[eE][+-]?\d+)?`. -/
def matchExpPart : List Char → List Char × List Char
  | [] => ([], [])
  | e :: cs =>
    if e = 'e' || e = 'E' then
      match cs with
      | [] => ([], [e])
      | s :: cs2 =>
        if s = '+' || s = '-' then matchExpDigits e [s] cs2 (e :: s :: cs2)
        else matchExpDigits e [] (s :: cs2) (e :: s :: cs2)
    else ([], e :: cs)

/-- Sticky match of `-?(?:0|[1-9]\d*)(?:\.\d+)?(?:[eE][+-]?\d+)?`. -/
def matchNumber (cs : List Char) : Option (List Char × List Char) :=
  match cs with
  | '-' :: cs2 =>
    match matchIntPart cs2 with
    | some (i, r) =>
      some ('-' :: (i ++ (matchFracPart r).1 ++ (matchExpPart (matchFracPart r).2).1),
        (matchExpPart (matchFracPart r).2).2)
    | none => none
  | _ =>
    match matchIntPart cs with
    | some (i, r) =>
      some (i ++ (matchFracPart r).1 ++ (matchExpPart (matchFracPart r).2).1,
        (matchExpPart (matchFracPart r).2).2)
    | none => none

def isPunctChar (c : Char) : Bool :=
  c = '{' || c = '}' || c = '[' || c = ']' || c = ':' || c = ','

/-- Sticky match of `[{}[\]:,]`. -/
def matchPunct : List Char → Option (List Char × List Char)
  | [] => none
  | c :: cs => if isPunctChar c then some ([c], cs) else none

/-- Try the five patterns at the cursor, in the priority order of the source:
whitespace, constant, string, number, punctuation. -/
def matchAt (cs : List Char) : Option (TokKind × List Char × List Char) :=
  match matchWhitespace cs with
  | some (m, r) => some (TokKind.ws, m, r)
  | none =>
  match matchConstant cs with
  | some (m, r) => some (TokKind.const, m, r)
  | none =>
  match matchString cs with
  | some (m, r) => some (TokKind.str, m, r)
  | none =>
  match matchNumber cs with
  | some (m, r) => some (TokKind.num, m, r)
  | none =>
  match matchPunct cs with
  | some (m, r) => some (TokKind.punct, m, r)
  | none => none

/-- Build a token with the flag of its lexical class set. -/
def mkToken (k : TokKind) (v : List Char) (ln pos : Nat) : JsonToken :=
  { value := v, line_num := ln, position := pos,
    constant := k == TokKind.const, string := k == TokKind.str,
    number := k == TokKind.num, punctuation := k == TokKind.punct }

/-- The scanning loop of `tokenize_json_line_in_place`: at each cursor
position try the patterns in order; skip whitespace, emit other matches,
and fail with the line number and current cursor column when nothing
matches.  The `while cursor < length` loop is embedded with a structural
fuel counter; every successful match consumes at least one character
(`matchAt_rest_lt`), so starting from `fuel = cs.length` the fuel-out
branch is unreachable (`tokenize_go_fuel_irrelevant`). -/
def tokenize_go (line_num : Nat) : Nat → List Char → Nat → List JsonToken →
    Except JsonError (List JsonToken)
  | fuel, cs, pos, acc =>
    match matchAt cs with
    | none =>
      if cs.isEmpty then .ok acc else .error (.tokenizerError line_num pos)
    | some (k, m, r) =>
      match fuel with
      | 0 => .error .internalError
      | fuel2 + 1 =>
        tokenize_go line_num fuel2 r (pos + m.length)
          (if k = TokKind.ws then acc else acc ++ [mkToken k m line_num pos])

/-- `tokenize_json_line_in_place(line, line_num, dst_tokens)`. -/
def tokenize_json_line_in_place (line : List Char) (line_num : Nat)
    (dst_tokens : List JsonToken) : Except JsonError (List JsonToken) :=
  tokenize_go line_num line.length line 0 dst_tokens

/-- `tokenize_json_line(line, line_num)`. -/
def tokenize_json_line (line : List Char) (line_num : Nat) :
    Except JsonError (List JsonToken) :=
  tokenize_json_line_in_place line line_num []

/-- A (line, character) source position. -/
structure Position where
  line : Nat
  character : Nat
deriving DecidableEq, Repr

inductive NodeType where
  | OBJECT
  | ARRAY
  | SCALAR
deriving DecidableEq, Repr

/-- `RainbowJsonNode`, with the fields of the source constructor.
`end_position`, `value` and `relative_depth` start as `null` there and are
assigned later; here nodes are immutable values and the updates are the
functions below. -/
inductive RainbowJsonNode where
  | mk (node_type : NodeType) (parent_key : Option (List Char))
       (parent_key_position : Option Position) (parent_array_index : Option Nat)
       (start_position : Position) (end_position : Option Position)
       (children : List RainbowJsonNode) (value : Option (List Char))
       (relative_depth : Option Nat)
deriving Repr

def RainbowJsonNode.node_type : RainbowJsonNode → NodeType
  | .mk nt _ _ _ _ _ _ _ _ => nt

def RainbowJsonNode.parent_key : RainbowJsonNode → Option (List Char)
  | .mk _ pk _ _ _ _ _ _ _ => pk

def RainbowJsonNode.parent_key_position : RainbowJsonNode → Option Position
  | .mk _ _ pkp _ _ _ _ _ _ => pkp

def RainbowJsonNode.parent_array_index : RainbowJsonNode → Option Nat
  | .mk _ _ _ pai _ _ _ _ _ => pai

def RainbowJsonNode.start_position : RainbowJsonNode → Position
  | .mk _ _ _ _ sp _ _ _ _ => sp

def RainbowJsonNode.end_position : RainbowJsonNode → Option Position
  | .mk _ _ _ _ _ ep _ _ _ => ep

def RainbowJsonNode.children : RainbowJsonNode → List RainbowJsonNode
  | .mk _ _ _ _ _ _ ch _ _ => ch

def RainbowJsonNode.value : RainbowJsonNode → Option (List Char)
  | .mk _ _ _ _ _ _ _ v _ => v

def RainbowJsonNode.relative_depth : RainbowJsonNode → Option Nat
  | .mk _ _ _ _ _ _ _ _ rd => rd

/-- `node.end_position = pos`. -/
def RainbowJsonNode.withEndPosition : RainbowJsonNode → Position → RainbowJsonNode
  | .mk nt pk pkp pai sp _ ch v rd, p => .mk nt pk pkp pai sp (some p) ch v rd

/-- `node.children.push(child)`. -/
def RainbowJsonNode.pushChild : RainbowJsonNode → RainbowJsonNode → RainbowJsonNode
  | .mk nt pk pkp pai sp ep ch v rd, c => .mk nt pk pkp pai sp ep (ch ++ [c]) v rd

/-- `node.relative_depth = d`. -/
def RainbowJsonNode.withRelativeDepth : RainbowJsonNode → Nat → RainbowJsonNode
  | .mk nt pk pkp pai sp ep ch v _, d => .mk nt pk pkp pai sp ep ch v (some d)

/-- The six automata states (the `AutomataState` handler table). -/
inductive PState where
  | expect_key
  | expect_colon
  | expect_value
  | expect_comma
  | expect_object_end
  | expect_array_end
deriving DecidableEq, Repr

/-- `PDAStackFrame`.  The node under construction is held in its frame; a
finished child is attached to the parent frame's node when popped, which
gives the same trees as the in-place child push of the source. -/
structure PDAFrame where
  node : RainbowJsonNode
  current_nfa_states : List PState
  current_array_index : Nat
  current_key : Option (List Char)
  current_key_position : Option Position
deriving Repr

/-- Result of one handler on the stack `(top, rest)`: not accepted, a new
nonempty stack, or the completed root when the last frame was popped. -/
inductive HandleResult where
  | reject
  | cont (top : PDAFrame) (rest : List PDAFrame)
  | complete (root : RainbowJsonNode)
deriving Repr

def handle_key_token (top : PDAFrame) (rest : List PDAFrame) (token : JsonToken) :
    HandleResult :=
  if !token.string then .reject
  else
    .cont { top with current_key := some token.value,
                     current_key_position := some ⟨token.line_num, token.position⟩,
                     current_nfa_states := [PState.expect_colon] } rest

def handle_colon_token (top : PDAFrame) (rest : List PDAFrame) (token : JsonToken) :
    HandleResult :=
  if !token.colon then .reject
  else .cont { top with current_nfa_states := [PState.expect_value] } rest

def handle_scalar_value (top : PDAFrame) (rest : List PDAFrame) (token : JsonToken) :
    HandleResult :=
  if !token.string && !token.number && !token.constant then .reject
  else
    let scalar_key := if top.node.node_type = NodeType.OBJECT then top.current_key else none
    let scalar_key_position :=
      if top.node.node_type = NodeType.OBJECT then top.current_key_position else none
    let scalar_index :=
      if top.node.node_type = NodeType.ARRAY then some top.current_array_index else none
    let scalar_node := RainbowJsonNode.mk NodeType.SCALAR scalar_key scalar_key_position
      scalar_index ⟨token.line_num, token.position⟩
      (some ⟨token.line_num, token.position + token.value.length⟩) [] (some token.value) none
    .cont { top with
            node := top.node.pushChild scalar_node,
            current_nfa_states :=
              if top.node.node_type = NodeType.OBJECT then
                [PState.expect_comma, PState.expect_object_end]
              else
                [PState.expect_comma, PState.expect_array_end] } rest

def handle_open_brace (top : PDAFrame) (rest : List PDAFrame) (token : JsonToken) :
    HandleResult :=
  if !token.brace_open then .reject
  else
    let child_key := if top.node.node_type = NodeType.OBJECT then top.current_key else none
    let child_key_position :=
      if top.node.node_type = NodeType.OBJECT then top.current_key_position else none
    let child_index :=
      if top.node.node_type = NodeType.ARRAY then some top.current_array_index else none
    let child_node := RainbowJsonNode.mk NodeType.OBJECT child_key child_key_position
      child_index ⟨token.line_num, token.position⟩ none [] none none
    let parent := { top with
                    current_nfa_states :=
                      if top.node.node_type = NodeType.OBJECT then
                        [PState.expect_comma, PState.expect_object_end]
                      else
                        [PState.expect_comma, PState.expect_array_end] }
    .cont { node := child_node,
            current_nfa_states := [PState.expect_key, PState.expect_object_end],
            current_array_index := 0, current_key := none, current_key_position := none }
      (parent :: rest)

def handle_open_bracket (top : PDAFrame) (rest : List PDAFrame) (token : JsonToken) :
    HandleResult :=
  if !token.bracket_open then .reject
  else
    let child_key := if top.node.node_type = NodeType.OBJECT then top.current_key else none
    let child_key_position :=
      if top.node.node_type = NodeType.OBJECT then top.current_key_position else none
    let child_index :=
      if top.node.node_type = NodeType.ARRAY then some top.current_array_index else none
    let child_node := RainbowJsonNode.mk NodeType.ARRAY child_key child_key_position
      child_index ⟨token.line_num, token.position⟩ none [] none none
    let parent := { top with
                    current_nfa_states :=
                      if top.node.node_type = NodeType.OBJECT then
                        [PState.expect_comma, PState.expect_object_end]
                      else
                        [PState.expect_comma, PState.expect_array_end] }
    .cont { node := child_node,
            current_nfa_states := [PState.expect_value, PState.expect_array_end],
            current_array_index := 0, current_key := none, current_key_position := none }
      (parent :: rest)

def handle_comma (top : PDAFrame) (rest : List PDAFrame) (token : JsonToken) :
    HandleResult :=
  if !token.comma then .reject
  else if top.node.node_type = NodeType.OBJECT then
    .cont { top with current_nfa_states := [PState.expect_key] } rest
  else
    .cont { top with current_array_index := top.current_array_index + 1,
                     current_nfa_states := [PState.expect_value] } rest

def handle_object_end (top : PDAFrame) (rest : List PDAFrame) (token : JsonToken) :
    HandleResult :=
  if !token.brace_close then .reject
  else if top.node.node_type ≠ NodeType.OBJECT then .reject
  else
    let closed := top.node.withEndPosition ⟨token.line_num, token.position⟩
    match rest with
    | [] => .complete closed
    | parent :: rest2 => .cont { parent with node := parent.node.pushChild closed } rest2

def handle_array_end (top : PDAFrame) (rest : List PDAFrame) (token : JsonToken) :
    HandleResult :=
  if !token.bracket_close then .reject
  else if top.node.node_type ≠ NodeType.ARRAY then .reject
  else
    let closed := top.node.withEndPosition ⟨token.line_num, token.position⟩
    match rest with
    | [] => .complete closed
    | parent :: rest2 => .cont { parent with node := parent.node.pushChild closed } rest2

def handle_value (top : PDAFrame) (rest : List PDAFrame) (token : JsonToken) :
    HandleResult :=
  match handle_scalar_value top rest token with
  | .reject =>
    match handle_open_brace top rest token with
    | .reject => handle_open_bracket top rest token
    | r => r
  | r => r

/-- The handler function of each automata state. -/
def runState : PState → PDAFrame → List PDAFrame → JsonToken → HandleResult
  | .expect_key, top, rest, token => handle_key_token top rest token
  | .expect_colon, top, rest, token => handle_colon_token top rest token
  | .expect_value, top, rest, token => handle_value top rest token
  | .expect_comma, top, rest, token => handle_comma top rest token
  | .expect_object_end, top, rest, token => handle_object_end top rest token
  | .expect_array_end, top, rest, token => handle_array_end top rest token

/-- Try the current frame's candidate states in order; the first handler
that accepts the token wins. -/
def tryStates : List PState → PDAFrame → List PDAFrame → JsonToken → HandleResult
  | [], _, _, _ => .reject
  | s :: more, top, rest, token =>
    match runState s top rest token with
    | .reject => tryStates more top rest token
    | r => r

/-- The token loop of `consume_json_record`, over the remaining suffix of
the token list.  `idx` is the absolute index of the head token.  Running
out of tokens with frames still open is the `JsonIncompleteError`; an
unhandled token is a `JsonSyntaxError` at that token's position. -/
def consume_loop : List JsonToken → Nat → PDAFrame → List PDAFrame →
    Except JsonError (RainbowJsonNode × Nat)
  | [], _, _, _ => .error .incompleteError
  | token :: more, idx, top, rest =>
    match tryStates top.current_nfa_states top rest token with
    | .reject => .error (.syntaxError token.line_num token.position)
    | .cont top2 rest2 => consume_loop more (idx + 1) top2 rest2
    | .complete root => .ok (root, idx + 1)

/-- `consume_json_record(tokens, token_idx)`: returns `[null, token_idx]`
past the end of input, otherwise requires an opening bracket and runs the
pushdown automaton until the root closes. -/
def consume_json_record (tokens : List JsonToken) (token_idx : Nat) :
    Except JsonError (Option RainbowJsonNode × Nat) :=
  if h : token_idx < tokens.length then
    let start_token := tokens.get ⟨token_idx, h⟩
    if !start_token.isContainerOpen then
      .error (.syntaxError start_token.line_num start_token.position)
    else
      let root_node_type :=
        if start_token.brace_open then NodeType.OBJECT else NodeType.ARRAY
      let root := RainbowJsonNode.mk root_node_type none none none
        ⟨start_token.line_num, start_token.position⟩ none [] none none
      let init_states :=
        if start_token.brace_open then [PState.expect_key, PState.expect_object_end]
        else [PState.expect_value, PState.expect_array_end]
      match consume_loop (tokens.drop (token_idx + 1)) (token_idx + 1)
          { node := root, current_nfa_states := init_states,
            current_array_index := 0, current_key := none,
            current_key_position := none } [] with
      | .ok (r, i) => .ok (some r, i)
      | .error e => .error e
  else .ok (none, token_idx)

structure CompleteObjectTokenGroup where
  first_token_idx : Nat
  last_token_idx : Nat
  relative_depth : Nat
deriving DecidableEq, Repr

structure ObjectGroupStackFrame where
  first_token_idx : Nat
  complete_children_groups : List CompleteObjectTokenGroup
deriving DecidableEq, Repr

/-- Placeholder for out-of-range token reads (never reached on the indices
the grouping pass stores, which always point at scanned opener tokens). -/
def defaultToken : JsonToken :=
  { value := [], line_num := 0, position := 0,
    constant := false, string := false, number := false, punctuation := false }

/-- `group.relative_depth += 1`. -/
def bumpDepth (g : CompleteObjectTokenGroup) : CompleteObjectTokenGroup :=
  { g with relative_depth := g.relative_depth + 1 }

/-- The scanning loop of `group_tokens_into_full_object_groups` over the
enumerated remaining tokens.  The stack is kept top-first (the source's
array keeps the top at the end). -/
def group_go (tokens : List JsonToken) :
    List (Nat × JsonToken) → List CompleteObjectTokenGroup →
    List ObjectGroupStackFrame →
    Except JsonError (List CompleteObjectTokenGroup × List ObjectGroupStackFrame)
  | [], result, stack => .ok (result, stack)
  | (token_idx, token) :: rest, result, stack =>
    if !token.isContainerDelim then group_go tokens rest result stack
    else if token.isContainerOpen then
      group_go tokens rest result
        ({ first_token_idx := token_idx, complete_children_groups := [] } :: stack)
    else
      match stack with
      | [] =>
        -- Closer with empty stack: bump the depth of every span already in
        -- the top-level result list.
        group_go tokens rest (result.map bumpDepth) []
      | top :: stack2 =>
        if !token.isMatchingClose (tokens.getD top.first_token_idx defaultToken) then
          .error (.syntaxError token.line_num token.position)
        else
          let last_complete_object : CompleteObjectTokenGroup :=
            { first_token_idx := top.first_token_idx, last_token_idx := token_idx,
              relative_depth := stack2.length }
          match stack2 with
          | [] => group_go tokens rest (result ++ [last_complete_object]) []
          | parent :: stack3 =>
            group_go tokens rest result
              ({ parent with complete_children_groups :=
                  parent.complete_children_groups ++ [last_complete_object] } :: stack3)

/-- `group_tokens_into_full_object_groups(tokens)`: scan, then flush the
accumulated complete children of every still-open frame, outermost frame
first (the source iterates its stack array from the bottom). -/
def group_tokens_into_full_object_groups (tokens : List JsonToken) :
    Except JsonError (List CompleteObjectTokenGroup) :=
  match group_go tokens (List.enumFrom 0 tokens) [] [] with
  | .error e => .error e
  | .ok (result, stack) =>
    .ok (result ++ (stack.reverse.map (fun f => f.complete_children_groups)).flatten)

/-- The tokenizing loop of `parse_json_objects`: tokenize every line in
place into one shared token list. -/
def tokenize_lines : List (List Char × Nat) → List JsonToken →
    Except JsonError (List JsonToken)
  | [], tokens => .ok tokens
  | (line, line_num) :: rest, tokens =>
    match tokenize_json_line_in_place line line_num tokens with
    | .error e => .error e
    | .ok tokens2 => tokenize_lines rest tokens2

/-- The record loop of `parse_json_objects`: parse each group from its
first token, assert the parser stopped right after the group's last token,
attach the group's relative depth and collect the record. -/
def parse_records (tokens : List JsonToken) :
    List CompleteObjectTokenGroup → List RainbowJsonNode →
    Except JsonError (List RainbowJsonNode)
  | [], records => .ok records
  | g :: rest, records =>
    match consume_json_record tokens g.first_token_idx with
    | .error e => .error e
    | .ok (current_record, token_idx) =>
      if token_idx = g.last_token_idx + 1 then
        match current_record with
        | some r =>
          parse_records tokens rest (records ++ [r.withRelativeDepth g.relative_depth])
        | none => .error .internalError
      else .error .assertionFailed

/-- `parse_json_objects(lines, line_nums)`.  The two arrays are parallel
(the caller contract); they are zipped here. -/
def parse_json_objects (lines : List (List Char)) (line_nums : List Nat) :
    Except JsonError (List RainbowJsonNode) :=
  match tokenize_lines (lines.zip line_nums) [] with
  | .error e => .error e
  | .ok tokens =>
    match group_tokens_into_full_object_groups tokens with
    | .error e => .error e
    | .ok token_object_groups => parse_records tokens token_object_groups []

-- Verification infrastructure -----------------------------------------

/-- `group.relative_depth += k`. -/
def addDepth (k : Nat) (g : CompleteObjectTokenGroup) : CompleteObjectTokenGroup :=
  { g with relative_depth := g.relative_depth + k }

/-- A punctuation token as the tokenizer would produce it on line 0. -/
def punctTok (c : Char) (pos : Nat) : JsonToken := mkToken TokKind.punct [c] 0 pos

/-- A hand-built token whose value is a closing brace but whose `string`
flag is set: constructible with the source's `JsonToken` class, never
produced by the tokenizer. -/
def strFlaggedCloseBrace : JsonToken :=
  { value := ['}'], line_num := 0, position := 1,
    constant := false, string := true, number := false, punctuation := false }

/-- Flag consistency: a bracket-valued token carries none of the scalar
type flags.  Every tokenizer-produced token satisfies this. -/
def flagsOk (t : JsonToken) : Bool :=
  !t.isContainerDelim || (!t.string && !t.number && !t.constant)

mutual

/-- Every node of the tree has its `end_position` set, scalar nodes end at
start column plus literal length, and recursively so for all children. -/
def closedOk : RainbowJsonNode → Bool
  | .mk nt _ _ _ sp ep ch v _ =>
    ep.isSome &&
    (if nt = NodeType.SCALAR then
      (match v, ep with
       | some vv, some e => decide (e = Position.mk sp.line (sp.character + vv.length))
       | _, _ => false)
     else true) &&
    closedOkList ch

/-- `closedOk` for every node in a list. -/
def closedOkList : List RainbowJsonNode → Bool
  | [] => true
  | n :: ns => closedOk n && closedOkList ns

end

/-- Balanced interior token sequences (the Dyck language over the four
bracket tokens, with arbitrary non-bracket tokens interleaved). -/
inductive Inner : List JsonToken → Prop where
  | nil : Inner []
  | plain (t : JsonToken) (ts : List JsonToken) :
      t.isContainerDelim = false → Inner ts → Inner (t :: ts)
  | grp (o : JsonToken) (mid : List JsonToken) (c : JsonToken) (ts : List JsonToken) :
      o.isContainerOpen = true → c.isMatchingClose o = true →
      Inner mid → Inner ts → Inner (o :: (mid ++ c :: ts))

/-- `seg` is exactly the tokens of positions `[i, j)`. -/
def Between (tokens : List JsonToken) (i j : Nat) (seg : List JsonToken) : Prop :=
  tokens.drop i = seg ++ tokens.drop j ∧ i + seg.length = j

/-- A well-formed complete span: an opener at `first_token_idx`, a balanced
interior, and a matching closer at `last_token_idx`. -/
def GoodGroup (tokens : List JsonToken) (g : CompleteObjectTokenGroup) : Prop :=
  ∃ o mid c,
    tokens.drop g.first_token_idx =
      o :: (mid ++ c :: tokens.drop (g.last_token_idx + 1)) ∧
    g.last_token_idx = g.first_token_idx + mid.length + 1 ∧
    o.isContainerOpen = true ∧ c.isMatchingClose o = true ∧ Inner mid

/-- Spans listed in source order without overlap. -/
def SpanOrd (gs : List CompleteObjectTokenGroup) : Prop :=
  gs.Pairwise (fun a b => a.last_token_idx < b.first_token_idx)

/-- All spans lie within `[lo, hi)` and are nondegenerate. -/
def SpanBounds (lo hi : Nat) (gs : List CompleteObjectTokenGroup) : Prop :=
  ∀ g ∈ gs, lo ≤ g.first_token_idx ∧ g.first_token_idx < g.last_token_idx ∧
    g.last_token_idx < hi

/-- Invariant of the grouping stack (top first), with `hi` the number of
tokens scanned so far: each frame's opener is a scanned opener token, the
tokens strictly between a frame's opener and the frame above (or the scan
front) form a balanced interior, and its accumulated child groups are
well-formed, ordered spans inside that interior. -/
inductive StackInv (tokens : List JsonToken) : Nat → List ObjectGroupStackFrame → Prop where
  | nil (hi : Nat) (hle : hi ≤ tokens.length) : StackInv tokens hi []
  | cons (hi : Nat) (f : ObjectGroupStackFrame) (fs : List ObjectGroupStackFrame)
      (o : JsonToken) (seg : List JsonToken)
      (htok : tokens[f.first_token_idx]? = some o)
      (hopen : o.isContainerOpen = true)
      (hbetween : Between tokens (f.first_token_idx + 1) hi seg)
      (hinner : Inner seg)
      (hord : SpanOrd f.complete_children_groups)
      (hbounds : SpanBounds (f.first_token_idx + 1) hi f.complete_children_groups)
      (hgood : ∀ g ∈ f.complete_children_groups, GoodGroup tokens g)
      (hrest : StackInv tokens f.first_token_idx fs) :
      StackInv tokens hi (f :: fs)

/-- Index of the bottom (outermost, earliest-pushed) frame's opener, or the
default when the stack is empty. -/
def stackLowBound (stack : List ObjectGroupStackFrame) (dflt : Nat) : Nat :=
  match stack.getLast? with
  | some f => f.first_token_idx
  | none => dflt

/-- The groups flushed from still-open frames at the end of the scan,
outermost frame first. -/
def flushList (stack : List ObjectGroupStackFrame) : List CompleteObjectTokenGroup :=
  (stack.reverse.map (fun f => f.complete_children_groups)).flatten

/-- Invariant of the whole grouping scan after `n` tokens. -/
def GroupInv (tokens : List JsonToken) (n : Nat) (result : List CompleteObjectTokenGroup)
    (stack : List ObjectGroupStackFrame) : Prop :=
  SpanOrd result ∧ SpanBounds 0 (stackLowBound stack n) result ∧
  (∀ g ∈ result, GoodGroup tokens g) ∧ StackInv tokens n stack ∧ n ≤ tokens.length

/-- The common effect of the two closing handlers once their checks pass:
set the end position, pop the frame, and either attach the finished node to
the parent frame or complete the record. -/
def popStep (top : PDAFrame) (rest : List PDAFrame) (token : JsonToken) : HandleResult :=
  match rest with
  | [] => .complete (top.node.withEndPosition ⟨token.line_num, token.position⟩)
  | parent :: rest2 =>
    .cont { parent with node :=
        parent.node.pushChild (top.node.withEndPosition ⟨token.line_num, token.position⟩) }
      rest2

-- Single-line document embedding -------------------------------------

/-- One item of a JSON string body: a plain character or an escape pair. -/
inductive StrItem where
  | norm (c : Char)
  | esc (c : Char)

def itemChars : StrItem → List Char
  | .norm c => [c]
  | .esc c => ['\\', c]

/-- The character classes of the string pattern `(?:[^"\\]|\\.)*`. -/
def strItemOk : StrItem → Bool
  | .norm c => !(c == '"') && !(c == '\\') && !isLineTerminator c
  | .esc c => !isLineTerminator c

def bodyChars (items : List StrItem) : List Char :=
  (items.map itemChars).flatten

/-- The exponent of a number literal: `[eE][+-]?\d+` by parts. -/
structure ExpLit where
  echar : Char
  sign : List Char
  digits : List Char

/-- A number literal `-?(?:0|[1-9]\d*)(?:\.\d+)?(?:[eE][+-]?\d+)?` by
parts; an empty `fracDigits` means no fraction part. -/
structure NumLit where
  neg : Bool
  intDigits : List Char
  fracDigits : List Char
  exp : Option ExpLit

def intDigitsOk (ds : List Char) : Bool :=
  ds == ['0'] ||
    (match ds with
     | c :: rest => ('1' ≤ c && c ≤ '9') && rest.all isDigitChar
     | [] => false)

def expOk (e : ExpLit) : Bool :=
  (e.echar == 'e' || e.echar == 'E') &&
  (e.sign == ([] : List Char) || e.sign == ['+'] || e.sign == ['-']) &&
  !e.digits.isEmpty && e.digits.all isDigitChar

def numOk (n : NumLit) : Bool :=
  intDigitsOk n.intDigits && n.fracDigits.all isDigitChar &&
  (match n.exp with | none => true | some e => expOk e)

def renderNum (n : NumLit) : List Char :=
  (if n.neg then ['-'] else []) ++ n.intDigits ++
  (if n.fracDigits.isEmpty then [] else '.' :: n.fracDigits) ++
  (match n.exp with | none => [] | some e => e.echar :: (e.sign ++ e.digits))

mutual

/-- A single-line JSON document (canonical whitespace-free form). -/
inductive JVal where
  | jstr (items : List StrItem)
  | jnum (lit : NumLit)
  | jtrue
  | jfalse
  | jnull
  | jobj (entries : JEntries)
  | jarr (elems : JElems)

inductive JEntries where
  | enil
  | econs (key : List StrItem) (v : JVal) (rest : JEntries)

inductive JElems where
  | anil
  | acons (v : JVal) (rest : JElems)

end

def isContainer : JVal → Bool
  | .jobj _ => true
  | .jarr _ => true
  | _ => false

def keyText (k : List StrItem) : List Char := '"' :: (bodyChars k ++ ['"'])

mutual

/-- The (kind, text) pairs of the tokens of a document, in source order. -/
def valTexts : JVal → List (TokKind × List Char)
  | .jstr items => [(TokKind.str, '"' :: (bodyChars items ++ ['"']))]
  | .jnum nl => [(TokKind.num, renderNum nl)]
  | .jtrue => [(TokKind.const, "true".toList)]
  | .jfalse => [(TokKind.const, "false".toList)]
  | .jnull => [(TokKind.const, "null".toList)]
  | .jobj es => (TokKind.punct, ['{']) :: (entriesTexts es ++ [(TokKind.punct, ['}'])])
  | .jarr vs => (TokKind.punct, ['[']) :: (elemsTexts vs ++ [(TokKind.punct, [']'])])

def entriesTexts : JEntries → List (TokKind × List Char)
  | .enil => []
  | .econs k v rest =>
    (TokKind.str, keyText k) :: (TokKind.punct, [':']) ::
      (valTexts v ++
       (match rest with | .enil => [] | .econs _ _ _ => [(TokKind.punct, [','])]) ++
       entriesTexts rest)

def elemsTexts : JElems → List (TokKind × List Char)
  | .anil => []
  | .acons v rest =>
    valTexts v ++
      (match rest with | .anil => [] | .acons _ _ => [(TokKind.punct, [','])]) ++
      elemsTexts rest

end

def catTexts : List (TokKind × List Char) → List Char
  | [] => []
  | (_, s) :: ps => s ++ catTexts ps

/-- Whitespace-free serialization of a document. -/
def renderVal (v : JVal) : List Char := catTexts (valTexts v)

/-- The token objects the tokenizer builds for a list of texts starting at
column `pos` of line `ln`. -/
def emitToks (ln : Nat) : List (TokKind × List Char) → Nat → List JsonToken
  | [], _ => []
  | (k, s) :: ps, pos => mkToken k s ln pos :: emitToks ln ps (pos + s.length)

mutual

/-- Well-formedness: every scalar literal is exactly one token of the
corresponding lexical class. -/
def wfVal : JVal → Bool
  | .jstr items => items.all strItemOk
  | .jnum nl => numOk nl
  | .jtrue => true
  | .jfalse => true
  | .jnull => true
  | .jobj es => wfEntries es
  | .jarr vs => wfElems vs

def wfEntries : JEntries → Bool
  | .enil => true
  | .econs k v rest => k.all strItemOk && wfVal v && wfEntries rest

def wfElems : JElems → Bool
  | .anil => true
  | .acons v rest => wfVal v && wfElems rest

end

mutual

/-- The node the structural parser builds for a document starting at
column `pos` of line `ln`, as a child with the given parent key / index
context. -/
def valNode : JVal → Nat → Nat → Option (List Char) → Option Position →
    Option Nat → RainbowJsonNode
  | .jstr items, ln, pos, key, kpos, aidx =>
    .mk NodeType.SCALAR key kpos aidx ⟨ln, pos⟩
      (some ⟨ln, pos + ('"' :: (bodyChars items ++ ['"'])).length⟩) []
      (some ('"' :: (bodyChars items ++ ['"']))) none
  | .jnum nl, ln, pos, key, kpos, aidx =>
    .mk NodeType.SCALAR key kpos aidx ⟨ln, pos⟩
      (some ⟨ln, pos + (renderNum nl).length⟩) [] (some (renderNum nl)) none
  | .jtrue, ln, pos, key, kpos, aidx =>
    .mk NodeType.SCALAR key kpos aidx ⟨ln, pos⟩
      (some ⟨ln, pos + ("true".toList).length⟩) [] (some ("true".toList)) none
  | .jfalse, ln, pos, key, kpos, aidx =>
    .mk NodeType.SCALAR key kpos aidx ⟨ln, pos⟩
      (some ⟨ln, pos + ("false".toList).length⟩) [] (some ("false".toList)) none
  | .jnull, ln, pos, key, kpos, aidx =>
    .mk NodeType.SCALAR key kpos aidx ⟨ln, pos⟩
      (some ⟨ln, pos + ("null".toList).length⟩) [] (some ("null".toList)) none
  | .jobj es, ln, pos, key, kpos, aidx =>
    .mk NodeType.OBJECT key kpos aidx ⟨ln, pos⟩
      (some ⟨ln, pos + 1 + (catTexts (entriesTexts es)).length⟩)
      (entriesNodes es ln (pos + 1)) none none
  | .jarr vs, ln, pos, key, kpos, aidx =>
    .mk NodeType.ARRAY key kpos aidx ⟨ln, pos⟩
      (some ⟨ln, pos + 1 + (catTexts (elemsTexts vs)).length⟩)
      (elemsNodes vs ln (pos + 1) 0) none none

def entriesNodes : JEntries → Nat → Nat → List RainbowJsonNode
  | .enil, _, _ => []
  | .econs k v rest, ln, pos =>
    valNode v ln (pos + (keyText k).length + 1) (some (keyText k))
        (some ⟨ln, pos⟩) none ::
      entriesNodes rest ln (pos + (keyText k).length + 1 +
        (catTexts (valTexts v)).length +
        (match rest with | .enil => 0 | .econs _ _ _ => 1))

def elemsNodes : JElems → Nat → Nat → Nat → List RainbowJsonNode
  | .anil, _, _, _ => []
  | .acons v rest, ln, pos, i =>
    valNode v ln pos none none (some i) ::
      elemsNodes rest ln (pos + (catTexts (valTexts v)).length +
        (match rest with | .anil => 0 | .acons _ _ => 1)) (i + 1)

end

mutual

/-- Rebuild the document text from a parsed tree: scalars print their
literal, objects print their children keyed by each child's `parent_key`,
arrays print their children checking each child's `parent_array_index`
against its actual position. -/
def unparse : RainbowJsonNode → Option (List Char)
  | .mk NodeType.SCALAR _ _ _ _ _ _ v _ => v
  | .mk NodeType.OBJECT _ _ _ _ _ ch _ _ =>
    match unparseEntries ch with
    | some s => some ('{' :: (s ++ ['}']))
    | none => none
  | .mk NodeType.ARRAY _ _ _ _ _ ch _ _ =>
    match unparseElems ch 0 with
    | some s => some ('[' :: (s ++ [']']))
    | none => none

def unparseEntries : List RainbowJsonNode → Option (List Char)
  | [] => some []
  | c :: cs =>
    match c.parent_key, unparse c, unparseEntries cs with
    | some k, some s, some srest =>
      some (k ++ [':'] ++ s ++ (match cs with | [] => [] | _ :: _ => [',']) ++ srest)
    | _, _, _ => none

def unparseElems : List RainbowJsonNode → Nat → Option (List Char)
  | [], _ => some []
  | c :: cs, i =>
    if c.parent_array_index = some i then
      match unparse c, unparseElems cs (i + 1) with
      | some s, some srest =>
        some (s ++ (match cs with | [] => [] | _ :: _ => [',']) ++ srest)
      | _, _ => none
    else none

end

/-- The candidate states of a frame after one of its values completed. -/
def afterValueStates (nt : NodeType) : List PState :=
  if nt = NodeType.OBJECT then [PState.expect_comma, PState.expect_object_end]
  else [PState.expect_comma, PState.expect_array_end]

/-- The `parent_key` a handler gives to a new child of a node of type `nt`. -/
def cKey (nt : NodeType) (ck : Option (List Char)) : Option (List Char) :=
  if nt = NodeType.OBJECT then ck else none

def cKeyPos (nt : NodeType) (ckp : Option Position) : Option Position :=
  if nt = NodeType.OBJECT then ckp else none

def cIdx (nt : NodeType) (ai : Nat) : Option Nat :=
  if nt = NodeType.ARRAY then some ai else none

/-- Append children one at a time, as the handlers do. -/
def pushAll (n : RainbowJsonNode) : List RainbowJsonNode → RainbowJsonNode
  | [] => n
  | c :: cs => pushAll (n.pushChild c) cs

/-- The frame states after processing an object interior that started from
`expect_key :: krest`. -/
def entriesOutStates (es : JEntries) (krest : List PState) : List PState :=
  match es with
  | .enil => PState.expect_key :: krest
  | .econs _ _ _ => [PState.expect_comma, PState.expect_object_end]

/-- The frame states after processing an array interior that started from
`expect_value :: vrest`. -/
def elemsOutStates (vs : JElems) (vrest : List PState) : List PState :=
  match vs with
  | .anil => PState.expect_value :: vrest
  | .acons _ _ => [PState.expect_comma, PState.expect_array_end]

/-- Each text of the list, followed by the remaining texts and `out`, is
matched by `matchAt` as exactly one token of its kind. -/
def TokStreamRel : List (TokKind × List Char) → List Char → Prop
  | [], _ => True
  | (k, s) :: ps, out =>
    s ≠ [] ∧ k ≠ TokKind.ws ∧
    matchAt (s ++ (catTexts ps ++ out)) = some (k, s, catTexts ps ++ out) ∧
    TokStreamRel ps out

/-- The continuation starts (if at all) with a token separator that stops
a number match. -/
def stopHead (out : List Char) : Prop :=
  ∀ y, out.head? = some y → y = ',' ∨ y = '}' ∨ y = ']'

-- ===================================================================
-- Theorems
-- ===================================================================

theorem length_dropWhile_le (p : Char → Bool) (l : List Char) :
    (l.dropWhile p).length ≤ l.length := by
  induction l with
  | nil => simp [List.dropWhile]
  | cons c cs ih =>
    rw [List.dropWhile]
    cases h : p c
    · simp
    · simpa using Nat.le_succ_of_le ih

/-- Splitting property of the string-body scanner: the matched body is a
nonempty prefix. -/
theorem scanStringBody_eq :
    ∀ (cs b r : List Char), scanStringBody cs = some (b, r) → cs = b ++ r ∧ b ≠ []
  | [], b, r => by simp [scanStringBody]
  | c :: rest, b, r => by
    rw [scanStringBody.eq_def]
    by_cases hq : c = '"'
    · subst hq
      simp only [if_pos rfl]
      intro h
      injection h with h
      injection h with h1 h2
      subst h1; subst h2
      simp
    · by_cases hb : c = '\\'
      · subst hb
        simp only [hq, if_neg, ite_false, if_pos rfl]
        cases rest with
        | nil => simp
        | cons d rest2 =>
          cases hlt : isLineTerminator d with
          | true => simp [hlt]
          | false =>
            cases hsc : scanStringBody rest2 with
            | none => simp [hlt, hsc]
            | some br =>
              obtain ⟨b', r'⟩ := br
              have ih := scanStringBody_eq rest2 b' r' hsc
              simp only [hlt, hsc, Bool.false_eq_true, ite_false]
              intro h
              injection h with h
              injection h with h1 h2
              subst h1; subst h2
              simp [ih.1]
      · simp only [hq, hb, if_neg, ite_false]
        cases hsc : scanStringBody rest with
        | none => simp [hsc]
        | some br =>
          obtain ⟨b', r'⟩ := br
          have ih := scanStringBody_eq rest b' r' hsc
          simp only [hsc]
          intro h
          injection h with h
          injection h with h1 h2
          subst h1; subst h2
          simp [ih.1]
theorem matchWhitespace_split (cs m r : List Char) :
    matchWhitespace cs = some (m, r) → cs = m ++ r ∧ m ≠ [] := by
  cases cs with
  | nil => simp [matchWhitespace]
  | cons c cs =>
    rw [matchWhitespace]
    cases h : isJsWhitespace c with
    | false => simp [h]
    | true =>
      simp only [h, ite_true]
      intro hsome
      injection hsome with hsome
      injection hsome with h1 h2
      subst h1; subst h2
      constructor
      · simp
      · simp

theorem matchLit_split (lit cs m r : List Char) :
    matchLit lit cs = some (m, r) → cs = m ++ r ∧ m = lit := by
  rw [matchLit]
  by_cases h : cs.take lit.length = lit
  · simp only [h, ite_true]
    intro hsome
    injection hsome with hsome
    injection hsome with h1 h2
    subst h1; subst h2
    refine ⟨?_, rfl⟩
    conv_lhs => rw [← List.take_append_drop lit.length cs]
    rw [h]
  · simp [h]

theorem matchConstant_split (cs m r : List Char) :
    matchConstant cs = some (m, r) →
      cs = m ++ r ∧ (m = "true".toList ∨ m = "false".toList ∨ m = "null".toList) := by
  rw [matchConstant]
  cases h1 : matchLit ("true".toList) cs with
  | some v =>
    obtain ⟨m1, r1⟩ := v
    intro hsome
    injection hsome with hsome
    injection hsome with e1 e2
    subst e1; subst e2
    have := matchLit_split _ _ _ _ h1
    exact ⟨this.1, Or.inl this.2⟩
  | none =>
    cases h2 : matchLit ("false".toList) cs with
    | some v =>
      obtain ⟨m1, r1⟩ := v
      intro hsome
      injection hsome with hsome
      injection hsome with e1 e2
      subst e1; subst e2
      have := matchLit_split _ _ _ _ h2
      exact ⟨this.1, Or.inr (Or.inl this.2)⟩
    | none =>
      intro hsome
      have := matchLit_split _ _ _ _ hsome
      exact ⟨this.1, Or.inr (Or.inr this.2)⟩

theorem matchString_split (cs m r : List Char) :
    matchString cs = some (m, r) → cs = m ++ r ∧ ∃ b, m = '"' :: b := by
  rw [matchString.eq_def]
  split
  · rename_i rest
    cases hsc : scanStringBody rest with
    | none => simp [hsc]
    | some br =>
      obtain ⟨b, r2⟩ := br
      simp only [hsc]
      intro hsome
      injection hsome with hsome
      injection hsome with h1 h2
      subst h1; subst h2
      have hse := scanStringBody_eq rest b r2 hsc
      constructor
      · simp [hse.1]
      · exact ⟨b, rfl⟩
  · simp

theorem matchIntPart_split (cs m r : List Char) :
    matchIntPart cs = some (m, r) → cs = m ++ r ∧ m ≠ [] := by
  cases cs with
  | nil => simp [matchIntPart]
  | cons c cs =>
    rw [matchIntPart]
    by_cases h0 : c = '0'
    · simp only [h0, ite_true]
      intro hsome
      injection hsome with hsome
      injection hsome with h1 h2
      subst h1; subst h2
      simp
    · by_cases h19 : ('1' ≤ c && c ≤ '9') = true
      · simp only [h0, h19, ite_true, ite_false]
        intro hsome
        injection hsome with hsome
        injection hsome with h1 h2
        subst h1; subst h2
        constructor
        · simp
        · simp
      · simp [h0, h19]

theorem matchFracPart_split (cs : List Char) :
    cs = (matchFracPart cs).1 ++ (matchFracPart cs).2 := by
  rw [matchFracPart.eq_def]
  split
  · rename_i cs2
    cases h : cs2.takeWhile isDigitChar with
    | nil => simp [h]
    | cons d ds =>
      simp only [h]
      have hsplit : cs2.takeWhile isDigitChar ++ cs2.dropWhile isDigitChar = cs2 := by simp
      conv_lhs => rw [← hsplit, h]
      simp
  · simp

theorem matchExpDigits_split (e : Char) (sign cs orig : List Char)
    (horig : orig = e :: (sign ++ cs)) :
    orig = (matchExpDigits e sign cs orig).1 ++ (matchExpDigits e sign cs orig).2 := by
  rw [matchExpDigits.eq_def]
  cases h : cs.takeWhile isDigitChar with
  | nil => simp [h]
  | cons d ds =>
    simp only [h]
    have hsplit : cs.takeWhile isDigitChar ++ cs.dropWhile isDigitChar = cs := by simp
    rw [horig]
    conv_lhs => rw [← hsplit, h]
    simp

theorem matchExpPart_split (cs : List Char) :
    cs = (matchExpPart cs).1 ++ (matchExpPart cs).2 := by
  cases cs with
  | nil => simp [matchExpPart]
  | cons e cs =>
    rw [matchExpPart.eq_def]
    dsimp only
    by_cases he : (e = 'e' || e = 'E') = true
    · rw [if_pos he]
      cases cs with
      | nil => simp
      | cons s cs2 =>
        dsimp only
        by_cases hs : (s = '+' || s = '-') = true
        · rw [if_pos hs]
          exact matchExpDigits_split e [s] cs2 _ (by simp)
        · rw [if_neg hs]
          exact matchExpDigits_split e [] (s :: cs2) _ (by simp)
    · rw [if_neg he]
      simp

theorem matchNumber_split (cs m r : List Char) :
    matchNumber cs = some (m, r) → cs = m ++ r ∧ m ≠ [] := by
  rw [matchNumber.eq_def]
  split
  · rename_i cs2
    cases hint : matchIntPart cs2 with
    | none => simp [hint]
    | some v =>
      obtain ⟨i, ri⟩ := v
      simp only [hint]
      intro hsome
      injection hsome with hsome
      injection hsome with h1 h2
      subst h1; subst h2
      have hi := matchIntPart_split cs2 i ri hint
      have hf := matchFracPart_split ri
      have hx := matchExpPart_split (matchFracPart ri).2
      constructor
      · simp only [List.cons_append, List.append_assoc]
        rw [← hx, ← hf, ← hi.1]
      · simp
  · cases hint : matchIntPart cs with
    | none => simp [hint]
    | some v =>
      obtain ⟨i, ri⟩ := v
      simp only [hint]
      intro hsome
      injection hsome with hsome
      injection hsome with h1 h2
      subst h1; subst h2
      have hi := matchIntPart_split cs i ri hint
      have hf := matchFracPart_split ri
      have hx := matchExpPart_split (matchFracPart ri).2
      constructor
      · simp only [List.append_assoc]
        rw [← hx, ← hf, ← hi.1]
      · intro hcon
        rcases List.append_eq_nil.mp hcon with ⟨h12, _⟩
        rcases List.append_eq_nil.mp h12 with ⟨hi0, _⟩
        exact hi.2 hi0

theorem matchPunct_split (cs m r : List Char) :
    matchPunct cs = some (m, r) → cs = m ++ r ∧ m ≠ [] := by
  cases cs with
  | nil => simp [matchPunct]
  | cons c cs =>
    rw [matchPunct]
    by_cases h : isPunctChar c = true
    · simp only [h, ite_true]
      intro hsome
      injection hsome with hsome
      injection hsome with h1 h2
      subst h1; subst h2
      simp
    · simp [h]

/-- The matched text of any successful pattern is a nonempty prefix of the
input at the cursor. -/
theorem matchAt_split (cs : List Char) (k : TokKind) (m r : List Char) :
    matchAt cs = some (k, m, r) → cs = m ++ r ∧ m ≠ [] := by
  rw [matchAt]
  cases h1 : matchWhitespace cs with
  | some v =>
    obtain ⟨m1, r1⟩ := v
    intro hsome
    injection hsome with hsome
    injection hsome with e1 e2
    injection e2 with e2 e3
    subst e2; subst e3
    exact matchWhitespace_split _ _ _ h1
  | none =>
  cases h2 : matchConstant cs with
  | some v =>
    obtain ⟨m1, r1⟩ := v
    intro hsome
    injection hsome with hsome
    injection hsome with e1 e2
    injection e2 with e2 e3
    subst e2; subst e3
    have := matchConstant_split _ _ _ h2
    refine ⟨this.1, ?_⟩
    rcases this.2 with h | h | h <;> simp [h]
  | none =>
  cases h3 : matchString cs with
  | some v =>
    obtain ⟨m1, r1⟩ := v
    intro hsome
    injection hsome with hsome
    injection hsome with e1 e2
    injection e2 with e2 e3
    subst e2; subst e3
    have := matchString_split _ _ _ h3
    refine ⟨this.1, ?_⟩
    obtain ⟨b, hb⟩ := this.2
    simp [hb]
  | none =>
  cases h4 : matchNumber cs with
  | some v =>
    obtain ⟨m1, r1⟩ := v
    intro hsome
    injection hsome with hsome
    injection hsome with e1 e2
    injection e2 with e2 e3
    subst e2; subst e3
    exact matchNumber_split _ _ _ h4
  | none =>
  cases h5 : matchPunct cs with
  | some v =>
    obtain ⟨m1, r1⟩ := v
    intro hsome
    injection hsome with hsome
    injection hsome with e1 e2
    injection e2 with e2 e3
    subst e2; subst e3
    exact matchPunct_split _ _ _ h5
  | none => simp

/-- Every successful pattern match consumes at least one character. -/
theorem matchAt_rest_lt (cs : List Char) (k : TokKind) (m r : List Char) :
    matchAt cs = some (k, m, r) → r.length < cs.length := by
  intro h
  have := matchAt_split cs k m r h
  have hlen := congrArg List.length this.1
  simp only [List.length_append] at hlen
  have : 0 < m.length := List.length_pos.mpr this.2
  omega

/-- Any fuel at least the length of the remaining input gives the same
result, so the fuel counter is semantically invisible. -/
theorem tokenize_go_fuel_irrelevant (line_num : Nat) :
    ∀ (fuel1 fuel2 : Nat) (cs : List Char) (pos : Nat) (acc : List JsonToken),
      cs.length ≤ fuel1 → cs.length ≤ fuel2 →
      tokenize_go line_num fuel1 cs pos acc = tokenize_go line_num fuel2 cs pos acc
  | fuel1, fuel2, cs, pos, acc => by
    intro h1 h2
    rw [tokenize_go, tokenize_go]
    cases hm : matchAt cs with
    | none => rfl
    | some v =>
      obtain ⟨k, m, r⟩ := v
      have hlt := matchAt_rest_lt cs k m r hm
      match fuel1, fuel2 with
      | 0, _ => omega
      | _ + 1, 0 => omega
      | f1 + 1, f2 + 1 =>
        exact tokenize_go_fuel_irrelevant line_num f1 f2 r (pos + m.length) _
          (by omega) (by omega)

-- Small algebra of `addDepth` ---------------------------------------------

theorem addDepth_zero (g : CompleteObjectTokenGroup) : addDepth 0 g = g := rfl

theorem map_addDepth_zero (gs : List CompleteObjectTokenGroup) :
    gs.map (addDepth 0) = gs := by
  induction gs with
  | nil => rfl
  | cons g gs ih => simp [ih, addDepth_zero]

theorem map_addDepth_bump (k : Nat) (gs : List CompleteObjectTokenGroup) :
    (gs.map bumpDepth).map (addDepth k) = gs.map (addDepth (k + 1)) := by
  induction gs with
  | nil => rfl
  | cons g gs ih =>
    simp only [List.map_cons, List.cons.injEq]
    refine ⟨?_, ih⟩
    cases g
    simp [bumpDepth, addDepth]
    omega

/-- The new spans discovered by the rest of a grouping scan do not depend
on the spans already collected: the already-collected prefix is carried
through, receiving only a uniform depth increment `k` (one per empty-stack
closer the rest of the scan encounters). -/
theorem group_go_result_linear (tokens : List JsonToken) :
    ∀ (pairs : List (Nat × JsonToken)) (stack : List ObjectGroupStackFrame),
      ∃ k : Nat, ∀ result,
        group_go tokens pairs result stack =
          match group_go tokens pairs [] stack with
          | .error e => .error e
          | .ok (out, st) => .ok (result.map (addDepth k) ++ out, st) := by
  intro pairs
  induction pairs with
  | nil =>
    intro stack
    refine ⟨0, fun result => ?_⟩
    rw [group_go, group_go]
    simp [map_addDepth_zero]
  | cons p rest ih =>
    intro stack
    obtain ⟨i, t⟩ := p
    cases hdelim : t.isContainerDelim with
    | false =>
      have hstep : ∀ res, group_go tokens ((i, t) :: rest) res stack =
          group_go tokens rest res stack := fun res => by
        rw [group_go.eq_def]; dsimp only; simp [hdelim]
      obtain ⟨k, hk⟩ := ih stack
      refine ⟨k, fun result => ?_⟩
      rw [hstep result, hstep [], hk result]
    | true =>
      cases hopen : t.isContainerOpen with
      | true =>
        have hstep : ∀ res, group_go tokens ((i, t) :: rest) res stack =
            group_go tokens rest res
              ({ first_token_idx := i, complete_children_groups := [] } :: stack) :=
          fun res => by rw [group_go.eq_def]; dsimp only; simp [hdelim, hopen]
        obtain ⟨k, hk⟩ :=
          ih ({ first_token_idx := i, complete_children_groups := [] } :: stack)
        refine ⟨k, fun result => ?_⟩
        rw [hstep result, hstep [], hk result]
      | false =>
        cases stack with
        | nil =>
          have hstep : ∀ res, group_go tokens ((i, t) :: rest) res [] =
              group_go tokens rest (res.map bumpDepth) [] := fun res => by
            rw [group_go]; simp [hdelim, hopen]
          obtain ⟨k, hk⟩ := ih []
          refine ⟨k + 1, fun result => ?_⟩
          rw [hstep result, hstep []]
          simp only [List.map_nil]
          rw [hk (result.map bumpDepth)]
          cases hbase : group_go tokens rest [] [] with
          | error e => rfl
          | ok v => cases v with
            | mk out st => rw [map_addDepth_bump]
        | cons top stack2 =>
          cases hmatch : t.isMatchingClose (tokens.getD top.first_token_idx defaultToken) with
          | false =>
            have hstep : ∀ res, group_go tokens ((i, t) :: rest) res (top :: stack2) =
                .error (.syntaxError t.line_num t.position) := fun res => by
              rw [group_go]
              simp only [List.getD_eq_getElem?_getD] at hmatch
              simp [hdelim, hopen, hmatch]
            refine ⟨0, fun result => ?_⟩
            rw [hstep result, hstep []]
          | true =>
            cases stack2 with
            | nil =>
              have hstep : ∀ res, group_go tokens ((i, t) :: rest) res [top] =
                  group_go tokens rest
                    (res ++ [{ first_token_idx := top.first_token_idx,
                               last_token_idx := i, relative_depth := 0 }]) [] :=
                fun res => by
                  rw [group_go]
                  simp only [List.getD_eq_getElem?_getD] at hmatch
                  simp [hdelim, hopen, hmatch]
              obtain ⟨k, hk⟩ := ih []
              refine ⟨k, fun result => ?_⟩
              rw [hstep result, hstep [], hk (result ++ _), hk ([] ++ _)]
              cases hbase : group_go tokens rest [] [] with
              | error e => rfl
              | ok v => cases v with
                | mk out st => simp
            | cons parent stack3 =>
              have hstep : ∀ res,
                  group_go tokens ((i, t) :: rest) res (top :: parent :: stack3) =
                  group_go tokens rest res
                    ({ parent with complete_children_groups :=
                        parent.complete_children_groups ++
                          [{ first_token_idx := top.first_token_idx,
                             last_token_idx := i,
                             relative_depth := stack3.length + 1 }] } :: stack3) :=
                fun res => by
                  rw [group_go]
                  simp only [List.getD_eq_getElem?_getD] at hmatch
                  simp [hdelim, hopen, hmatch]
              obtain ⟨k, hk⟩ := ih _
              refine ⟨k, fun result => ?_⟩
              rw [hstep result, hstep [], hk result]

-- Node and token structural lemmas ----------------------------------------

theorem pushChild_node_type (n c : RainbowJsonNode) :
    (n.pushChild c).node_type = n.node_type := by cases n; rfl

theorem pushChild_children (n c : RainbowJsonNode) :
    (n.pushChild c).children = n.children ++ [c] := by cases n; rfl

theorem withEnd_node_type (n : RainbowJsonNode) (p : Position) :
    (n.withEndPosition p).node_type = n.node_type := by cases n; rfl

theorem withEnd_children (n : RainbowJsonNode) (p : Position) :
    (n.withEndPosition p).children = n.children := by cases n; rfl

theorem closedOkList_append (l1 l2 : List RainbowJsonNode) :
    closedOkList (l1 ++ l2) = (closedOkList l1 && closedOkList l2) := by
  induction l1 with
  | nil => simp [closedOkList]
  | cons n ns ih => simp [closedOkList, ih, Bool.and_assoc]

theorem closedOk_withEnd (n : RainbowJsonNode) (p : Position)
    (hnt : n.node_type ≠ NodeType.SCALAR) (hch : closedOkList n.children = true) :
    closedOk (n.withEndPosition p) = true := by
  cases n with
  | mk nt pk pkp pai sp ep ch v rd =>
    simp only [RainbowJsonNode.node_type] at hnt
    simp only [RainbowJsonNode.children] at hch
    rw [RainbowJsonNode.withEndPosition, closedOk.eq_def]
    dsimp only
    rw [if_neg hnt]
    simp [hch]

theorem delim_false_parts (t : JsonToken) (h : t.isContainerDelim = false) :
    t.brace_open = false ∧ t.brace_close = false ∧
    t.bracket_open = false ∧ t.bracket_close = false := by
  rw [JsonToken.isContainerDelim] at h
  simp only [Bool.or_eq_false_iff] at h
  exact ⟨h.1.1.1, h.1.1.2, h.1.2, h.2⟩

theorem flags_of_opener (t : JsonToken) (hflag : flagsOk t = true)
    (hopen : t.isContainerOpen = true) :
    t.string = false ∧ t.number = false ∧ t.constant = false ∧ t.colon = false ∧
    t.comma = false ∧ t.brace_close = false ∧ t.bracket_close = false ∧
    (t.brace_open = true ∨ t.bracket_open = true) := by
  rw [JsonToken.isContainerOpen, Bool.or_eq_true] at hopen
  have hdelim : t.isContainerDelim = true := by
    rw [JsonToken.isContainerDelim]
    rcases hopen with h | h <;> simp [h]
  rw [flagsOk, hdelim] at hflag
  simp only [Bool.not_true, Bool.false_or, Bool.and_eq_true, Bool.not_eq_true'] at hflag
  have hval : t.value = ['{'] ∨ t.value = ['['] := by
    rcases hopen with h | h
    · left; rw [JsonToken.brace_open] at h; exact beq_iff_eq.mp h
    · right; rw [JsonToken.bracket_open] at h; exact beq_iff_eq.mp h
  refine ⟨hflag.1.1, hflag.1.2, hflag.2, ?_, ?_, ?_, ?_, hopen⟩ <;>
    (rcases hval with h | h <;>
      simp [JsonToken.colon, JsonToken.comma, JsonToken.brace_close,
        JsonToken.bracket_close, h])

theorem flags_of_closer (t : JsonToken) (hflag : flagsOk t = true)
    (hclose : t.isContainerClose = true) :
    t.string = false ∧ t.number = false ∧ t.constant = false ∧ t.colon = false ∧
    t.comma = false ∧ t.brace_open = false ∧ t.bracket_open = false ∧
    (t.brace_close = true ∨ t.bracket_close = true) := by
  rw [JsonToken.isContainerClose, Bool.or_eq_true] at hclose
  have hdelim : t.isContainerDelim = true := by
    rw [JsonToken.isContainerDelim]
    rcases hclose with h | h <;> simp [h]
  rw [flagsOk, hdelim] at hflag
  simp only [Bool.not_true, Bool.false_or, Bool.and_eq_true, Bool.not_eq_true'] at hflag
  have hval : t.value = ['}'] ∨ t.value = [']'] := by
    rcases hclose with h | h
    · left; rw [JsonToken.brace_close] at h; exact beq_iff_eq.mp h
    · right; rw [JsonToken.bracket_close] at h; exact beq_iff_eq.mp h
  refine ⟨hflag.1.1, hflag.1.2, hflag.2, ?_, ?_, ?_, ?_, hclose⟩ <;>
    (rcases hval with h | h <;>
      simp [JsonToken.colon, JsonToken.comma, JsonToken.brace_open,
        JsonToken.bracket_open, h])

theorem closedOk_scalar (k : Option (List Char)) (kp : Option Position) (ix : Option Nat)
    (ln pos : Nat) (v : List Char) :
    closedOk (RainbowJsonNode.mk NodeType.SCALAR k kp ix ⟨ln, pos⟩
      (some ⟨ln, pos + v.length⟩) [] (some v) none) = true := by
  rw [closedOk.eq_def]
  dsimp only
  rw [if_pos rfl]
  simp [closedOkList]

/-- The result of trying a state list is rejection or the result of the
first accepting state. -/
theorem tryStates_cases :
    ∀ (states : List PState) (top : PDAFrame) (rest : List PDAFrame) (t : JsonToken),
      tryStates states top rest t = .reject ∨
      ∃ s ∈ states, tryStates states top rest t = runState s top rest t ∧
        runState s top rest t ≠ .reject := by
  intro states
  induction states with
  | nil => intro top rest t; left; rfl
  | cons s more ih =>
    intro top rest t
    cases hr : runState s top rest t with
    | reject =>
      rcases ih top rest t with h | ⟨s2, hs2, heq, hne⟩
      · left; rw [tryStates, hr]; exact h
      · right; exact ⟨s2, List.mem_cons_of_mem _ hs2, by rw [tryStates, hr]; exact heq, hne⟩
    | cont top2 rest2 =>
      right
      exact ⟨s, List.mem_cons_self _ _, by rw [tryStates, hr], by rw [hr]; simp⟩
    | complete root =>
      right
      exact ⟨s, List.mem_cons_self _ _, by rw [tryStates, hr], by rw [hr]; simp⟩

/-- A non-bracket token never pushes or pops: any accepting handler keeps
the rest of the stack and the top node's type, and preserves closedness of
the top node's children. -/
theorem runState_plain (s : PState) (top : PDAFrame) (rest : List PDAFrame) (t : JsonToken)
    (hdelim : t.isContainerDelim = false) :
    runState s top rest t = .reject ∨
    ∃ top2, runState s top rest t = .cont top2 rest ∧
      top2.node.node_type = top.node.node_type ∧
      (closedOkList top.node.children = true → closedOkList top2.node.children = true) := by
  obtain ⟨hbo, hbc, hko, hkc⟩ := delim_false_parts t hdelim
  cases s with
  | expect_key =>
    rw [runState, handle_key_token]
    cases hs : t.string with
    | false => left; rw [if_pos (by simp [hs])]
    | true =>
      right
      rw [if_neg (by simp [hs])]
      exact ⟨_, rfl, rfl, fun h => h⟩
  | expect_colon =>
    rw [runState, handle_colon_token]
    cases hs : t.colon with
    | false => left; rw [if_pos (by simp [hs])]
    | true =>
      right
      rw [if_neg (by simp [hs])]
      exact ⟨_, rfl, rfl, fun h => h⟩
  | expect_value =>
    rw [runState, handle_value, handle_scalar_value]
    cases hguard : (!t.string && !t.number && !t.constant) with
    | true =>
      left
      rw [if_pos rfl]
      dsimp only
      rw [handle_open_brace, if_pos (by simp [hbo])]
      dsimp only
      rw [handle_open_bracket, if_pos (by simp [hko])]
    | false =>
      right
      rw [if_neg (by simp)]
      dsimp only
      refine ⟨_, rfl, pushChild_node_type _ _, fun h => ?_⟩
      rw [pushChild_children, closedOkList_append, h]
      simp [closedOkList, closedOk_scalar]
  | expect_comma =>
    rw [runState, handle_comma]
    cases hs : t.comma with
    | false => left; rw [if_pos (by simp [hs])]
    | true =>
      rw [if_neg (by simp [hs])]
      by_cases ho : top.node.node_type = NodeType.OBJECT
      · right
        rw [if_pos ho]
        exact ⟨_, rfl, rfl, fun h => h⟩
      · right
        rw [if_neg ho]
        exact ⟨_, rfl, rfl, fun h => h⟩
  | expect_object_end =>
    left
    rw [runState, handle_object_end, if_pos (by simp [hbc])]
  | expect_array_end =>
    left
    rw [runState, handle_array_end, if_pos (by simp [hkc])]

/-- An opening bracket token, with consistent flags, is either rejected or
pushes one new child frame of its own bracket kind, leaving the node of the
frame below it untouched. -/
theorem runState_opener (s : PState) (top : PDAFrame) (rest : List PDAFrame) (t : JsonToken)
    (hflag : flagsOk t = true) (hopen : t.isContainerOpen = true) :
    runState s top rest t = .reject ∨
    ∃ parent child, runState s top rest t = .cont child (parent :: rest) ∧
      parent.node = top.node ∧ child.node.children = [] ∧
      ((t.brace_open = true ∧ child.node.node_type = NodeType.OBJECT) ∨
       (t.bracket_open = true ∧ child.node.node_type = NodeType.ARRAY)) := by
  obtain ⟨hstr, hnum, hcon, hcolon, hcomma, hbc, hkc, hbrk⟩ := flags_of_opener t hflag hopen
  cases s with
  | expect_key => left; rw [runState, handle_key_token, if_pos (by simp [hstr])]
  | expect_colon => left; rw [runState, handle_colon_token, if_pos (by simp [hcolon])]
  | expect_value =>
    rw [runState, handle_value, handle_scalar_value,
      if_pos (by simp [hstr, hnum, hcon])]
    dsimp only
    rw [handle_open_brace]
    cases hb : t.brace_open with
    | true =>
      right
      rw [if_neg (by simp [hb])]
      dsimp only
      exact ⟨_, _, rfl, rfl, rfl, Or.inl ⟨rfl, rfl⟩⟩
    | false =>
      rw [if_pos (by simp [hb])]
      rcases hbrk with h | h
      · rw [h] at hb; cases hb
      · right
        rw [handle_open_bracket, if_neg (by simp [h])]
        dsimp only
        exact ⟨_, _, rfl, rfl, rfl, Or.inr ⟨h, rfl⟩⟩
  | expect_comma => left; rw [runState, handle_comma, if_pos (by simp [hcomma])]
  | expect_object_end => left; rw [runState, handle_object_end, if_pos (by simp [hbc])]
  | expect_array_end => left; rw [runState, handle_array_end, if_pos (by simp [hkc])]

/-- A closing bracket token, with consistent flags, is either rejected or
pops the top frame — and then only when the frame's container kind matches
the bracket kind. -/
theorem runState_closer (s : PState) (top : PDAFrame) (rest : List PDAFrame) (t : JsonToken)
    (hflag : flagsOk t = true) (hclose : t.isContainerClose = true) :
    runState s top rest t = .reject ∨
    (((t.brace_close = true ∧ top.node.node_type = NodeType.OBJECT) ∨
      (t.bracket_close = true ∧ top.node.node_type = NodeType.ARRAY)) ∧
     runState s top rest t = popStep top rest t) := by
  obtain ⟨hstr, hnum, hcon, hcolon, hcomma, hbo, hko, hbrk⟩ := flags_of_closer t hflag hclose
  cases s with
  | expect_key => left; rw [runState, handle_key_token, if_pos (by simp [hstr])]
  | expect_colon => left; rw [runState, handle_colon_token, if_pos (by simp [hcolon])]
  | expect_value =>
    left
    rw [runState, handle_value, handle_scalar_value,
      if_pos (by simp [hstr, hnum, hcon])]
    dsimp only
    rw [handle_open_brace, if_pos (by simp [hbo]), handle_open_bracket,
      if_pos (by simp [hko])]
  | expect_comma => left; rw [runState, handle_comma, if_pos (by simp [hcomma])]
  | expect_object_end =>
    rw [runState, handle_object_end]
    cases hb : t.brace_close with
    | false => left; rw [if_pos (by simp [hb])]
    | true =>
      rw [if_neg (by simp [hb])]
      by_cases ho : top.node.node_type = NodeType.OBJECT
      · right
        refine ⟨Or.inl ⟨rfl, ho⟩, ?_⟩
        rw [if_neg (by simp [ho])]
        dsimp only
        rw [popStep.eq_def]
      · left
        rw [if_pos (by simp [ho])]
  | expect_array_end =>
    rw [runState, handle_array_end]
    cases hb : t.bracket_close with
    | false => left; rw [if_pos (by simp [hb])]
    | true =>
      rw [if_neg (by simp [hb])]
      by_cases ho : top.node.node_type = NodeType.ARRAY
      · right
        refine ⟨Or.inr ⟨rfl, ho⟩, ?_⟩
        rw [if_neg (by simp [ho])]
        dsimp only
        rw [popStep.eq_def]
      · left
        rw [if_pos (by simp [ho])]

theorem tryStates_plain (states : List PState) (top : PDAFrame) (rest : List PDAFrame)
    (t : JsonToken) (hdelim : t.isContainerDelim = false) :
    tryStates states top rest t = .reject ∨
    ∃ top2, tryStates states top rest t = .cont top2 rest ∧
      top2.node.node_type = top.node.node_type ∧
      (closedOkList top.node.children = true → closedOkList top2.node.children = true) := by
  rcases tryStates_cases states top rest t with h | ⟨s, _, heq, hne⟩
  · left; exact h
  · rcases runState_plain s top rest t hdelim with h | ⟨top2, h2, hnt, hcl⟩
    · exact absurd h hne
    · right; exact ⟨top2, heq.trans h2, hnt, hcl⟩

theorem tryStates_opener (states : List PState) (top : PDAFrame) (rest : List PDAFrame)
    (t : JsonToken) (hflag : flagsOk t = true) (hopen : t.isContainerOpen = true) :
    tryStates states top rest t = .reject ∨
    ∃ parent child, tryStates states top rest t = .cont child (parent :: rest) ∧
      parent.node = top.node ∧ child.node.children = [] ∧
      ((t.brace_open = true ∧ child.node.node_type = NodeType.OBJECT) ∨
       (t.bracket_open = true ∧ child.node.node_type = NodeType.ARRAY)) := by
  rcases tryStates_cases states top rest t with h | ⟨s, _, heq, hne⟩
  · left; exact h
  · rcases runState_opener s top rest t hflag hopen with h | ⟨parent, child, h2, hp, hch, hk⟩
    · exact absurd h hne
    · right; exact ⟨parent, child, heq.trans h2, hp, hch, hk⟩

theorem tryStates_closer (states : List PState) (top : PDAFrame) (rest : List PDAFrame)
    (t : JsonToken) (hflag : flagsOk t = true) (hclose : t.isContainerClose = true) :
    tryStates states top rest t = .reject ∨
    (((t.brace_close = true ∧ top.node.node_type = NodeType.OBJECT) ∨
      (t.bracket_close = true ∧ top.node.node_type = NodeType.ARRAY)) ∧
     tryStates states top rest t = popStep top rest t) := by
  rcases tryStates_cases states top rest t with h | ⟨s, _, heq, hne⟩
  · left; exact h
  · rcases runState_closer s top rest t hflag hclose with h | ⟨hk, h2⟩
    · exact absurd h hne
    · right; exact ⟨hk, heq.trans h2⟩

/-- The automaton run over a balanced interior segment with consistent
flags: either a syntax error is raised inside the segment, or the run
arrives exactly at the end of the segment with the same stack below the
top frame, the top frame's container kind unchanged, and closedness of its
children preserved.  In particular the run never consumes past the
segment and never raises `JsonIncompleteError` inside it. -/
theorem consume_inner (mid : List JsonToken) (hInner : Inner mid) :
    (∀ t ∈ mid, flagsOk t = true) →
    ∀ (after : List JsonToken) (idx : Nat) (top : PDAFrame) (rest : List PDAFrame),
      (∃ ln pos, consume_loop (mid ++ after) idx top rest = .error (.syntaxError ln pos)) ∨
      (∃ top2, consume_loop (mid ++ after) idx top rest =
          consume_loop after (idx + mid.length) top2 rest ∧
        top2.node.node_type = top.node.node_type ∧
        (closedOkList top.node.children = true → closedOkList top2.node.children = true)) := by
  induction hInner with
  | nil =>
    intro _ after idx top rest
    right
    exact ⟨top, rfl, rfl, fun h => h⟩
  | plain t ts hdelim hts ih =>
    intro hflags after idx top rest
    rcases tryStates_plain top.current_nfa_states top rest t hdelim with
      hrej | ⟨top2, hacc, hnt, hcl⟩
    · left
      exact ⟨t.line_num, t.position, by rw [List.cons_append, consume_loop, hrej]⟩
    · have hflags_ts : ∀ u ∈ ts, flagsOk u = true :=
        fun u hu => hflags u (List.mem_cons_of_mem _ hu)
      rcases ih hflags_ts after (idx + 1) top2 rest with
        ⟨ln, pos, herr⟩ | ⟨top3, heq3, hnt3, hcl3⟩
      · left
        refine ⟨ln, pos, ?_⟩
        rw [List.cons_append, consume_loop, hacc]
        exact herr
      · right
        refine ⟨top3, ?_, hnt3.trans hnt, fun h => hcl3 (hcl h)⟩
        have harith : idx + 1 + ts.length = idx + (t :: ts).length := by
          simp [List.length_cons]
          omega
        rw [List.cons_append, consume_loop, hacc]
        dsimp only
        rw [heq3, harith]
  | grp o mid2 c ts ho hc hmid hts ihmid ihts =>
    intro hflags after idx top rest
    have hflag_o : flagsOk o = true := hflags o (List.mem_cons_self _ _)
    have hflag_c : flagsOk c = true := hflags c (by simp)
    have hflags_mid2 : ∀ u ∈ mid2, flagsOk u = true := fun u hu => hflags u (by simp [hu])
    have hflags_ts : ∀ u ∈ ts, flagsOk u = true := fun u hu => hflags u (by simp [hu])
    have hclose_c : c.isContainerClose = true := by
      rw [JsonToken.isMatchingClose] at hc
      rw [JsonToken.isContainerClose]
      cases hbcc : c.brace_close with
      | true => simp [hbcc]
      | false =>
        cases hkcc : c.bracket_close with
        | true => simp [hkcc]
        | false => rw [hbcc, hkcc] at hc; simp at hc
    have hshape : (o :: (mid2 ++ c :: ts)) ++ after = o :: (mid2 ++ (c :: (ts ++ after))) := by
      simp
    rw [hshape]
    rcases tryStates_opener top.current_nfa_states top rest o hflag_o ho with
      hrej | ⟨parent, child, hacc, hpnode, hchld, hkind⟩
    · left
      exact ⟨o.line_num, o.position, by rw [consume_loop, hrej]⟩
    · rcases ihmid hflags_mid2 (c :: (ts ++ after)) (idx + 1) child (parent :: rest) with
        ⟨ln, pos, herr⟩ | ⟨child2, heq2, hnt2, hcl2⟩
      · left
        refine ⟨ln, pos, ?_⟩
        rw [consume_loop, hacc]
        exact herr
      · rcases tryStates_closer child2.current_nfa_states child2 (parent :: rest) c
            hflag_c hclose_c with hrej2 | ⟨hkind2, hpop⟩
        · left
          refine ⟨c.line_num, c.position, ?_⟩
          rw [consume_loop, hacc]
          dsimp only
          rw [heq2, consume_loop, hrej2]
        · have hpop2 : tryStates child2.current_nfa_states child2 (parent :: rest) c =
              .cont { parent with node := parent.node.pushChild (child2.node.withEndPosition ⟨c.line_num, c.position⟩) } rest := by
            rw [hpop, popStep]
          have hchildClosed :
              closedOk (child2.node.withEndPosition ⟨c.line_num, c.position⟩) = true := by
            apply closedOk_withEnd
            · rw [hnt2]
              rcases hkind with ⟨_, h⟩ | ⟨_, h⟩ <;> rw [h] <;> simp
            · apply hcl2
              rw [hchld]
              rfl
          rcases ihts hflags_ts after (idx + 1 + mid2.length + 1)
              { parent with node := parent.node.pushChild (child2.node.withEndPosition ⟨c.line_num, c.position⟩) } rest with
            ⟨ln, pos, herr⟩ | ⟨top4, heq4, hnt4, hcl4⟩
          · left
            refine ⟨ln, pos, ?_⟩
            rw [consume_loop, hacc]
            dsimp only
            rw [heq2, consume_loop, hpop2]
            exact herr
          · right
            refine ⟨top4, ?_, ?_, ?_⟩
            · have harith : idx + 1 + mid2.length + 1 + ts.length =
                  idx + (o :: (mid2 ++ c :: ts)).length := by
                simp [List.length_cons, List.length_append]
                omega
              rw [consume_loop, hacc]
              dsimp only
              rw [heq2, consume_loop, hpop2]
              dsimp only
              rw [heq4, harith]
            · rw [hnt4]
              calc ({ parent with node := parent.node.pushChild (child2.node.withEndPosition ⟨c.line_num, c.position⟩) } : PDAFrame).node.node_type
                  = parent.node.node_type := pushChild_node_type _ _
                _ = top.node.node_type := by rw [hpnode]
            · intro h
              apply hcl4
              show closedOkList (parent.node.pushChild
                (child2.node.withEndPosition ⟨c.line_num, c.position⟩)).children = true
              rw [pushChild_children, closedOkList_append, hpnode, h]
              simp [closedOkList, hchildClosed]

theorem drop_cons_facts (tokens : List JsonToken) (i : Nat) (t : JsonToken)
    (X : List JsonToken) (h : tokens.drop i = t :: X) :
    tokens[i]? = some t ∧ tokens.drop (i + 1) = X ∧ i < tokens.length := by
  have hlen := congrArg List.length h
  simp only [List.length_drop, List.length_cons] at hlen
  have hi : i < tokens.length := by omega
  refine ⟨?_, ?_, hi⟩
  · have h0 := congrArg (fun l => l[0]?) h
    simp only [List.getElem?_drop, Nat.add_zero] at h0
    simpa using h0
  · have ht := congrArg List.tail h
    simpa [List.tail_drop] using ht

theorem getElem?_some_get (tokens : List JsonToken) (i : Nat) (t : JsonToken)
    (h : tokens[i]? = some t) (hi : i < tokens.length) :
    tokens.get ⟨i, hi⟩ = t := by
  rw [List.getElem?_eq_getElem hi] at h
  simpa using h

theorem isMatchingClose_isClose (c o : JsonToken) (h : c.isMatchingClose o = true) :
    c.isContainerClose = true := by
  rw [JsonToken.isMatchingClose] at h
  rw [JsonToken.isContainerClose]
  cases hbcc : c.brace_close with
  | true => simp [hbcc]
  | false =>
    cases hkcc : c.bracket_close with
    | true => simp [hkcc]
    | false => rw [hbcc, hkcc] at h; simp at h

/-- Soundness of the structural parser on a well-formed complete span with
consistent flags: either a syntax error, or exactly the span is consumed —
the returned next index is the group's last token index plus one, and the
returned record is some fully closed tree.  It never raises
`JsonIncompleteError` and never stops at any other index. -/
theorem consume_good_group (tokens : List JsonToken)
    (hflags : ∀ t ∈ tokens, flagsOk t = true)
    (g : CompleteObjectTokenGroup) (hg : GoodGroup tokens g) :
    (∃ ln pos, consume_json_record tokens g.first_token_idx =
      .error (.syntaxError ln pos)) ∨
    (∃ root, consume_json_record tokens g.first_token_idx =
        .ok (some root, g.last_token_idx + 1) ∧ closedOk root = true) := by
  obtain ⟨o, mid, c, hdrop, hlast, ho, hc, hmid⟩ := hg
  obtain ⟨hgetO, hdrop1, hlt⟩ := drop_cons_facts tokens _ _ _ hdrop
  have hmidmem : ∀ u ∈ mid, u ∈ tokens := by
    intro u hu
    apply List.mem_of_mem_drop (n := g.first_token_idx)
    rw [hdrop]
    simp [hu]
  have hcmem : c ∈ tokens := by
    apply List.mem_of_mem_drop (n := g.first_token_idx)
    rw [hdrop]
    simp
  have hflags_mid : ∀ u ∈ mid, flagsOk u = true := fun u hu => hflags u (hmidmem u hu)
  have hflag_c : flagsOk c = true := hflags c hcmem
  have hstart := getElem?_some_get tokens _ _ hgetO hlt
  rw [consume_json_record, dif_pos hlt]
  dsimp only
  rw [hstart, if_neg (by simp [ho]), hdrop1]
  rcases consume_inner mid hmid hflags_mid (c :: tokens.drop (g.last_token_idx + 1))
      (g.first_token_idx + 1)
      { node := RainbowJsonNode.mk
          (if o.brace_open then NodeType.OBJECT else NodeType.ARRAY) none none none
          ⟨o.line_num, o.position⟩ none [] none none,
        current_nfa_states :=
          if o.brace_open then [PState.expect_key, PState.expect_object_end]
          else [PState.expect_value, PState.expect_array_end],
        current_array_index := 0, current_key := none, current_key_position := none }
      [] with ⟨ln, pos, herr⟩ | ⟨top2, heq2, hnt2, hcl2⟩
  · left
    refine ⟨ln, pos, ?_⟩
    rw [herr]
  · rw [heq2]
    have hclose_c := isMatchingClose_isClose c o hc
    rcases tryStates_closer top2.current_nfa_states top2 [] c hflag_c hclose_c with
      hrej2 | ⟨_, hpop⟩
    · left
      refine ⟨c.line_num, c.position, ?_⟩
      rw [consume_loop, hrej2]
    · right
      have hpop2 : tryStates top2.current_nfa_states top2 [] c =
          .complete (top2.node.withEndPosition ⟨c.line_num, c.position⟩) := by
        rw [hpop, popStep]
      refine ⟨top2.node.withEndPosition ⟨c.line_num, c.position⟩, ?_, ?_⟩
      · rw [consume_loop, hpop2]
        dsimp only
        have : g.first_token_idx + 1 + mid.length + 1 = g.last_token_idx + 1 := by
          omega
        rw [this]
      · apply closedOk_withEnd
        · rw [hnt2]
          show (RainbowJsonNode.mk
            (if o.brace_open then NodeType.OBJECT else NodeType.ARRAY) none none none
            ⟨o.line_num, o.position⟩ none [] none none).node_type ≠ NodeType.SCALAR
          rw [RainbowJsonNode.node_type]
          cases ho2 : o.brace_open <;> simp
        · exact hcl2 rfl

-- Grouping-pass invariants ------------------------------------------------

theorem Inner_append (a b : List JsonToken) (ha : Inner a) (hb : Inner b) :
    Inner (a ++ b) := by
  induction ha with
  | nil => simpa using hb
  | plain t ts hdelim _ ih => exact Inner.plain t _ hdelim ih
  | grp o mid c ts ho hc hm _ ihm ih =>
    have : o :: (mid ++ c :: (ts ++ b)) = (o :: (mid ++ c :: ts)) ++ b := by simp
    rw [← this]
    exact Inner.grp o mid c (ts ++ b) ho hc hm ih

theorem Between_single (tokens : List JsonToken) (n : Nat) (t : JsonToken)
    (h : tokens[n]? = some t) : Between tokens n (n + 1) [t] := by
  constructor
  · have hn : n < tokens.length := by
      by_contra hcon
      rw [List.getElem?_eq_none (by omega)] at h
      cases h
    rw [List.drop_eq_getElem_cons hn]
    have := getElem?_some_get tokens n t h hn
    simp at this
    simp [this]
  · simp

theorem Between_trans (tokens : List JsonToken) (i j k : Nat)
    (a b : List JsonToken) (hab : Between tokens i j a) (hbc : Between tokens j k b) :
    Between tokens i k (a ++ b) := by
  obtain ⟨ha1, ha2⟩ := hab
  obtain ⟨hb1, hb2⟩ := hbc
  constructor
  · rw [ha1, hb1, List.append_assoc]
  · simp only [List.length_append]
    omega

theorem getElem?_drop_cons (tokens : List JsonToken) (i : Nat) (t : JsonToken)
    (h : tokens[i]? = some t) : tokens.drop i = t :: tokens.drop (i + 1) := by
  have hn : i < tokens.length := by
    by_contra hcon
    rw [List.getElem?_eq_none (by omega)] at h
    cases h
  rw [List.drop_eq_getElem_cons hn]
  have := getElem?_some_get tokens i t h hn
  simp at this
  simp [this]

theorem getElem?_lt (tokens : List JsonToken) (i : Nat) (t : JsonToken)
    (h : tokens[i]? = some t) : i < tokens.length := by
  by_contra hcon
  rw [List.getElem?_eq_none (by omega)] at h
  cases h

theorem stackLowBound_cons (f : ObjectGroupStackFrame) (fs : List ObjectGroupStackFrame)
    (d : Nat) : stackLowBound (f :: fs) d = stackLowBound fs f.first_token_idx := by
  cases fs with
  | nil => rfl
  | cons g gs =>
    rw [stackLowBound, stackLowBound, List.getLast?_cons_cons]
    cases h : (g :: gs).getLast? with
    | some x => rfl
    | none => exfalso; rw [List.getLast?_eq_none_iff] at h; cases h

theorem spanBounds_mono (lo hi hi2 : Nat) (gs : List CompleteObjectTokenGroup)
    (h : SpanBounds lo hi gs) (hle : hi ≤ hi2) : SpanBounds lo hi2 gs := by
  intro g hg
  obtain ⟨h1, h2, h3⟩ := h g hg
  exact ⟨h1, h2, by omega⟩

theorem between_first_lt (tokens : List JsonToken) (i hi : Nat) (seg : List JsonToken)
    (h : Between tokens (i + 1) hi seg) : i < hi := by
  obtain ⟨_, h2⟩ := h
  omega

theorem stackInv_all_lt (tokens : List JsonToken) :
    ∀ (hi : Nat) (fs : List ObjectGroupStackFrame), StackInv tokens hi fs →
      ∀ f ∈ fs, f.first_token_idx < hi := by
  intro hi fs h
  induction h with
  | nil => intro f hf; cases hf
  | cons hi f fs o seg htok hopen hbetween hinner hord hbounds hgood hrest ih =>
    intro f2 hf2
    rcases List.mem_cons.mp hf2 with rfl | hmem
    · exact between_first_lt tokens _ _ _ hbetween
    · exact lt_trans (ih f2 hmem) (between_first_lt tokens _ _ _ hbetween)

theorem stackInv_hi_le (tokens : List JsonToken) (hi : Nat)
    (fs : List ObjectGroupStackFrame) (h : StackInv tokens hi fs) : hi ≤ tokens.length := by
  cases h with
  | nil hi hle => exact hle
  | cons hi f fs o seg htok hopen hbetween hinner hord hbounds hgood hrest =>
    obtain ⟨h1, h2⟩ := hbetween
    have hfl : f.first_token_idx < tokens.length := getElem?_lt tokens _ _ htok
    have hlen := congrArg List.length h1
    simp only [List.length_drop, List.length_append] at hlen
    omega

theorem flushList_cons (f : ObjectGroupStackFrame) (fs : List ObjectGroupStackFrame) :
    flushList (f :: fs) = flushList fs ++ f.complete_children_groups := by
  rw [flushList, flushList]
  simp

theorem groupInv_step_plain (tokens : List JsonToken) (n : Nat)
    (result : List CompleteObjectTokenGroup) (stack : List ObjectGroupStackFrame)
    (t : JsonToken) (hinv : GroupInv tokens n result stack)
    (htok : tokens[n]? = some t) (hdelim : t.isContainerDelim = false) :
    GroupInv tokens (n + 1) result stack := by
  obtain ⟨hord, hbounds, hgood, hstack, hle⟩ := hinv
  have hn : n < tokens.length := getElem?_lt tokens n t htok
  refine ⟨hord, ?_, hgood, ?_, by omega⟩
  · apply spanBounds_mono 0 (stackLowBound stack n) _ _ hbounds
    cases stack with
    | nil => show n ≤ n + 1; omega
    | cons f fs => rw [stackLowBound_cons, stackLowBound_cons]
  · cases hstack with
    | nil _ _ => exact StackInv.nil _ (by omega)
    | cons _ f fs o seg htokf hopenf hb hinner hordf hboundsf hgoodf hrest =>
      refine StackInv.cons _ f fs o (seg ++ [t]) htokf hopenf ?_ ?_ hordf ?_ hgoodf hrest
      · exact Between_trans tokens _ n _ seg [t] hb (Between_single tokens n t htok)
      · exact Inner_append seg [t] hinner (Inner.plain t [] hdelim Inner.nil)
      · exact spanBounds_mono _ n _ _ hboundsf (by omega)

theorem groupInv_step_open (tokens : List JsonToken) (n : Nat)
    (result : List CompleteObjectTokenGroup) (stack : List ObjectGroupStackFrame)
    (t : JsonToken) (hinv : GroupInv tokens n result stack)
    (htok : tokens[n]? = some t) (hopen : t.isContainerOpen = true) :
    GroupInv tokens (n + 1) result
      ({ first_token_idx := n, complete_children_groups := [] } :: stack) := by
  obtain ⟨hord, hbounds, hgood, hstack, hle⟩ := hinv
  have hn : n < tokens.length := getElem?_lt tokens n t htok
  refine ⟨hord, ?_, hgood, ?_, by omega⟩
  · rw [stackLowBound_cons]
    exact hbounds
  · exact StackInv.cons _ _ stack t [] htok hopen ⟨by simp, by simp⟩ Inner.nil
      List.Pairwise.nil (fun g hg => absurd hg (List.not_mem_nil g))
      (fun g hg => absurd hg (List.not_mem_nil g)) hstack

theorem groupInv_step_bump (tokens : List JsonToken) (n : Nat)
    (result : List CompleteObjectTokenGroup) (t : JsonToken)
    (hinv : GroupInv tokens n result []) (htok : tokens[n]? = some t) :
    GroupInv tokens (n + 1) (result.map bumpDepth) [] := by
  obtain ⟨hord, hbounds, hgood, hstack, hle⟩ := hinv
  have hn : n < tokens.length := getElem?_lt tokens n t htok
  refine ⟨?_, ?_, ?_, StackInv.nil _ (by omega), by omega⟩
  · rw [SpanOrd, List.pairwise_map]
    exact hord
  · intro g hg
    obtain ⟨g0, hg0, rfl⟩ := List.mem_map.mp hg
    obtain ⟨h1, h2, h3⟩ := hbounds g0 hg0
    have h3' : g0.last_token_idx < n := h3
    refine ⟨h1, h2, ?_⟩
    show g0.last_token_idx < n + 1
    omega
  · intro g hg
    obtain ⟨g0, hg0, rfl⟩ := List.mem_map.mp hg
    exact hgood g0 hg0

theorem groupInv_step_close_top (tokens : List JsonToken) (n : Nat)
    (result : List CompleteObjectTokenGroup) (top : ObjectGroupStackFrame) (t : JsonToken)
    (hinv : GroupInv tokens n result [top]) (htok : tokens[n]? = some t)
    (hmatch : t.isMatchingClose (tokens.getD top.first_token_idx defaultToken) = true) :
    GroupInv tokens (n + 1)
      (result ++ [{ first_token_idx := top.first_token_idx, last_token_idx := n, relative_depth := 0 }]) [] := by
  obtain ⟨hord, hbounds, hgood, hstack, hle⟩ := hinv
  cases hstack with
  | cons _ f fs o seg htokf hopenf hb hinner hordf hboundsf hgoodf hrest =>
    have hn : n < tokens.length := getElem?_lt tokens n t htok
    have hgetD : tokens.getD top.first_token_idx defaultToken = o := by
      rw [List.getD_eq_getElem?_getD, htokf]
      rfl
    rw [hgetD] at hmatch
    have hflt : top.first_token_idx < n := between_first_lt tokens _ _ _ hb
    have hgg : GoodGroup tokens
        { first_token_idx := top.first_token_idx, last_token_idx := n, relative_depth := 0 } := by
      refine ⟨o, seg, t, ?_, ?_, hopenf, hmatch, hinner⟩
      · rw [getElem?_drop_cons tokens _ o htokf]
        obtain ⟨hb1, _⟩ := hb
        rw [hb1, getElem?_drop_cons tokens n t htok]
      · obtain ⟨_, hb2⟩ := hb
        show n = top.first_token_idx + seg.length + 1
        omega
    refine ⟨?_, ?_, ?_, StackInv.nil _ (by omega), by omega⟩
    · rw [SpanOrd, List.pairwise_append]
      refine ⟨hord, List.pairwise_singleton _ _, ?_⟩
      intro a ha b hb2
      obtain ⟨_, _, h3⟩ := hbounds a ha
      have h3' : a.last_token_idx < top.first_token_idx := h3
      rcases List.mem_singleton.mp hb2 with rfl
      exact h3'
    · intro g hg
      rcases List.mem_append.mp hg with hg | hg
      · obtain ⟨h1, h2, h3⟩ := hbounds g hg
        have h3' : g.last_token_idx < top.first_token_idx := h3
        refine ⟨h1, h2, ?_⟩
        show g.last_token_idx < n + 1
        omega
      · rcases List.mem_singleton.mp hg with rfl
        refine ⟨Nat.zero_le _, ?_, ?_⟩
        · show top.first_token_idx < n
          omega
        · show n < n + 1
          omega
    · intro g hg
      rcases List.mem_append.mp hg with hg | hg
      · exact hgood g hg
      · rcases List.mem_singleton.mp hg with rfl
        exact hgg

theorem groupInv_step_close_mid (tokens : List JsonToken) (n : Nat)
    (result : List CompleteObjectTokenGroup) (top parent : ObjectGroupStackFrame)
    (stack3 : List ObjectGroupStackFrame) (t : JsonToken)
    (hinv : GroupInv tokens n result (top :: parent :: stack3))
    (htok : tokens[n]? = some t)
    (hmatch : t.isMatchingClose (tokens.getD top.first_token_idx defaultToken) = true) :
    GroupInv tokens (n + 1) result
      ({ parent with complete_children_groups := parent.complete_children_groups ++
          [{ first_token_idx := top.first_token_idx, last_token_idx := n, relative_depth := stack3.length + 1 }] } :: stack3) := by
  obtain ⟨hord, hbounds, hgood, hstack, hle⟩ := hinv
  cases hstack with
  | cons _ f fs o seg htokf hopenf hb hinner hordf hboundsf hgoodf hrest =>
    cases hrest with
    | cons _ f2 fs2 op segp htokp hopenp hbp hinnerp hordp hboundsp hgoodp hrestp =>
      have hn : n < tokens.length := getElem?_lt tokens n t htok
      have hgetD : tokens.getD top.first_token_idx defaultToken = o := by
        rw [List.getD_eq_getElem?_getD, htokf]
        rfl
      rw [hgetD] at hmatch
      have hflt : top.first_token_idx < n := between_first_lt tokens _ _ _ hb
      have hplt : parent.first_token_idx < top.first_token_idx :=
        between_first_lt tokens _ _ _ hbp
      have hgg : GoodGroup tokens
          { first_token_idx := top.first_token_idx, last_token_idx := n, relative_depth := stack3.length + 1 } := by
        refine ⟨o, seg, t, ?_, ?_, hopenf, hmatch, hinner⟩
        · rw [getElem?_drop_cons tokens _ o htokf]
          obtain ⟨hb1, _⟩ := hb
          rw [hb1, getElem?_drop_cons tokens n t htok]
        · obtain ⟨_, hb2⟩ := hb
          show n = top.first_token_idx + seg.length + 1
          omega
      refine ⟨hord, ?_, hgood, ?_, by omega⟩
      · rw [stackLowBound_cons]
        rw [stackLowBound_cons, stackLowBound_cons] at hbounds
        exact hbounds
      · refine StackInv.cons _ _ _ op (segp ++ (o :: (seg ++ [t]))) htokp hopenp ?_ ?_ ?_ ?_ ?_ hrestp
        · apply Between_trans tokens _ top.first_token_idx _ segp _ hbp
          have h1 : Between tokens top.first_token_idx (top.first_token_idx + 1) [o] :=
            Between_single _ _ _ htokf
          have h3 : Between tokens n (n + 1) [t] := Between_single _ _ _ htok
          have := Between_trans _ _ _ _ _ _ (Between_trans _ _ _ _ _ _ h1 hb) h3
          simpa using this
        · exact Inner_append _ _ hinnerp (Inner.grp o seg t [] hopenf hmatch hinner Inner.nil)
        · rw [SpanOrd, List.pairwise_append]
          refine ⟨hordp, List.pairwise_singleton _ _, ?_⟩
          intro a ha b hb2
          obtain ⟨_, _, h3⟩ := hboundsp a ha
          have h3' : a.last_token_idx < top.first_token_idx := h3
          rcases List.mem_singleton.mp hb2 with rfl
          exact h3'
        · intro g hg
          rcases List.mem_append.mp hg with hg | hg
          · obtain ⟨h1, h2, h3⟩ := hboundsp g hg
            have h3' : g.last_token_idx < top.first_token_idx := h3
            refine ⟨h1, h2, ?_⟩
            show g.last_token_idx < n + 1
            omega
          · rcases List.mem_singleton.mp hg with rfl
            obtain ⟨_, hbp2⟩ := hbp
            refine ⟨?_, ?_, ?_⟩
            · show parent.first_token_idx + 1 ≤ top.first_token_idx
              omega
            · show top.first_token_idx < n
              omega
            · show n < n + 1
              omega
        · intro g hg
          rcases List.mem_append.mp hg with hg | hg
          · exact hgoodp g hg
          · rcases List.mem_singleton.mp hg with rfl
            exact hgg

/-- The grouping invariant is preserved by the whole scan. -/
theorem group_go_inv (tokens : List JsonToken) :
    ∀ (rem : List JsonToken) (n : Nat), tokens.drop n = rem →
      ∀ (result : List CompleteObjectTokenGroup) (stack : List ObjectGroupStackFrame)
        (out : List CompleteObjectTokenGroup) (stFinal : List ObjectGroupStackFrame),
        GroupInv tokens n result stack →
        group_go tokens (List.enumFrom n rem) result stack = .ok (out, stFinal) →
        GroupInv tokens tokens.length out stFinal := by
  intro rem
  induction rem with
  | nil =>
    intro n hdrop result stack out stFinal hinv hrun
    rw [show List.enumFrom n ([] : List JsonToken) = [] from rfl, group_go] at hrun
    injection hrun with hrun
    injection hrun with h1 h2
    subst h1
    subst h2
    have hlen := congrArg List.length hdrop
    simp only [List.length_drop, List.length_nil] at hlen
    have hn : n = tokens.length := by
      obtain ⟨_, _, _, _, hle⟩ := hinv
      omega
    rw [← hn]
    exact hinv
  | cons t rem2 ih =>
    intro n hdrop result stack out stFinal hinv hrun
    obtain ⟨htok, hdrop1, hn⟩ := drop_cons_facts tokens n t rem2 hdrop
    rw [show List.enumFrom n (t :: rem2) = (n, t) :: List.enumFrom (n + 1) rem2 from rfl,
      group_go.eq_def] at hrun
    dsimp only at hrun
    cases hdelim : t.isContainerDelim with
    | false =>
      rw [if_pos (by rw [hdelim]; rfl)] at hrun
      exact ih (n + 1) hdrop1 result stack out stFinal
        (groupInv_step_plain tokens n result stack t hinv htok hdelim) hrun
    | true =>
      rw [if_neg (by rw [hdelim]; simp)] at hrun
      cases hopen : t.isContainerOpen with
      | true =>
        rw [if_pos (by rw [hopen])] at hrun
        exact ih (n + 1) hdrop1 _ _ out stFinal
          (groupInv_step_open tokens n result stack t hinv htok hopen) hrun
      | false =>
        rw [if_neg (by rw [hopen]; simp)] at hrun
        cases stack with
        | nil =>
          dsimp only at hrun
          exact ih (n + 1) hdrop1 _ _ out stFinal
            (groupInv_step_bump tokens n result t hinv htok) hrun
        | cons top stack2 =>
          dsimp only at hrun
          cases hmatch : t.isMatchingClose (tokens.getD top.first_token_idx defaultToken) with
          | false =>
            rw [if_pos (by rw [hmatch]; rfl)] at hrun
            cases hrun
          | true =>
            rw [if_neg (by rw [hmatch]; simp)] at hrun
            cases stack2 with
            | nil =>
              dsimp only at hrun
              exact ih (n + 1) hdrop1 _ _ out stFinal
                (groupInv_step_close_top tokens n result top t hinv htok hmatch) hrun
            | cons parent stack3 =>
              dsimp only at hrun
              exact ih (n + 1) hdrop1 _ _ out stFinal
                (groupInv_step_close_mid tokens n result top parent stack3 t hinv htok hmatch)
                hrun

/-- Flushed accumulator groups of a valid stack are well-formed ordered
spans strictly inside the stack's span. -/
theorem stackInv_flush (tokens : List JsonToken) :
    ∀ (hi : Nat) (fs : List ObjectGroupStackFrame), StackInv tokens hi fs →
      SpanOrd (flushList fs) ∧
      (∀ g ∈ flushList fs, GoodGroup tokens g ∧ g.last_token_idx < hi ∧
        stackLowBound fs 0 < g.first_token_idx) := by
  intro hi fs h
  induction h with
  | nil _ _ =>
    exact ⟨List.Pairwise.nil, fun g hg => absurd hg (by simp [flushList])⟩
  | cons hi f fs o seg htok hopen hb hinner hord hbounds hgood hrest ih =>
    obtain ⟨ihord, ihprops⟩ := ih
    have hflt : f.first_token_idx < hi := between_first_lt tokens _ _ _ hb
    have halllt := stackInv_all_lt tokens _ _ hrest
    constructor
    · rw [flushList_cons, SpanOrd, List.pairwise_append]
      refine ⟨ihord, hord, ?_⟩
      intro a ha b hb2
      obtain ⟨_, halast, _⟩ := ihprops a ha
      obtain ⟨hblo, _, _⟩ := hbounds b hb2
      omega
    · intro g hg
      rw [flushList_cons] at hg
      rcases List.mem_append.mp hg with hg | hg
      · obtain ⟨hgood2, hlast, hlow⟩ := ihprops g hg
        refine ⟨hgood2, by omega, ?_⟩
        rw [stackLowBound_cons]
        cases fs with
        | nil => simp [flushList] at hg
        | cons f2 fs2 =>
          have heq2 : stackLowBound (f2 :: fs2) f.first_token_idx =
              stackLowBound (f2 :: fs2) 0 := by
            rw [stackLowBound, stackLowBound]
            cases hgl : (f2 :: fs2).getLast? with
            | some x => rfl
            | none => exfalso; rw [List.getLast?_eq_none_iff] at hgl; cases hgl
          rw [heq2]
          exact hlow
      · obtain ⟨hlo, hfl2, hlast⟩ := hbounds g hg
        refine ⟨hgood g hg, by omega, ?_⟩
        rw [stackLowBound_cons]
        cases fs with
        | nil =>
          show f.first_token_idx < g.first_token_idx
          omega
        | cons f2 fs2 =>
          have hmem : (f2 :: fs2).getLast (by simp) ∈ (f2 :: fs2) := List.getLast_mem _
          have hltf := halllt _ hmem
          have hsome : (f2 :: fs2).getLast? = some ((f2 :: fs2).getLast (by simp)) :=
            List.getLast?_eq_getLast _ _
          rw [stackLowBound, hsome]
          show ((f2 :: fs2).getLast (by simp)).first_token_idx < g.first_token_idx
          omega

/-- Every group returned by the grouping pass is a well-formed complete
span, and the returned groups appear in source order without overlap. -/
theorem group_tokens_sound (tokens : List JsonToken) (gs : List CompleteObjectTokenGroup)
    (h : group_tokens_into_full_object_groups tokens = .ok gs) :
    (∀ g ∈ gs, GoodGroup tokens g) ∧ SpanOrd gs := by
  rw [group_tokens_into_full_object_groups] at h
  cases hrun : group_go tokens (List.enumFrom 0 tokens) [] [] with
  | error e => rw [hrun] at h; cases h
  | ok v =>
    obtain ⟨result, stack⟩ := v
    rw [hrun] at h
    injection h with h
    subst h
    have hinv0 : GroupInv tokens 0 [] [] :=
      ⟨List.Pairwise.nil, fun g hg => absurd hg (List.not_mem_nil g),
       fun g hg => absurd hg (List.not_mem_nil g), StackInv.nil 0 (by omega), by omega⟩
    have hinv := group_go_inv tokens tokens 0 (by simp) [] [] result stack hinv0 hrun
    obtain ⟨hord, hbounds, hgood, hstack, _⟩ := hinv
    obtain ⟨hford, hfprops⟩ := stackInv_flush tokens _ _ hstack
    constructor
    · intro g hg
      rcases List.mem_append.mp hg with hg | hg
      · exact hgood g hg
      · exact (hfprops g hg).1
    · rw [SpanOrd, List.pairwise_append]
      refine ⟨hord, hford, ?_⟩
      intro a ha b hb2
      obtain ⟨_, _, halast⟩ := hbounds a ha
      obtain ⟨_, _, hblow⟩ := hfprops b hb2
      cases stack with
      | nil => simp [flushList] at hb2
      | cons f fs =>
        have heq2 : stackLowBound (f :: fs) tokens.length = stackLowBound (f :: fs) 0 := by
          rw [stackLowBound, stackLowBound]
          cases hgl : (f :: fs).getLast? with
          | some x => rfl
          | none => exfalso; rw [List.getLast?_eq_none_iff] at hgl; cases hgl
        rw [heq2] at halast
        omega

-- Tokenizer output facts --------------------------------------------------

theorem matchAt_inv (cs : List Char) (k : TokKind) (m r : List Char)
    (h : matchAt cs = some (k, m, r)) :
    (k = TokKind.ws ∧ matchWhitespace cs = some (m, r)) ∨
    (k = TokKind.const ∧ matchConstant cs = some (m, r)) ∨
    (k = TokKind.str ∧ matchString cs = some (m, r)) ∨
    (k = TokKind.num ∧ matchNumber cs = some (m, r)) ∨
    (k = TokKind.punct ∧ matchPunct cs = some (m, r)) := by
  rw [matchAt] at h
  cases h1 : matchWhitespace cs with
  | some v =>
    obtain ⟨m1, r1⟩ := v
    rw [h1] at h
    simp only [Option.some.injEq, Prod.mk.injEq] at h
    obtain ⟨hk, hm2, hr2⟩ := h
    subst hk; subst hm2; subst hr2
    exact Or.inl ⟨rfl, rfl⟩
  | none =>
  rw [h1] at h
  cases h2 : matchConstant cs with
  | some v =>
    obtain ⟨m1, r1⟩ := v
    rw [h2] at h
    simp only [Option.some.injEq, Prod.mk.injEq] at h
    obtain ⟨hk, hm2, hr2⟩ := h
    subst hk; subst hm2; subst hr2
    exact Or.inr (Or.inl ⟨rfl, rfl⟩)
  | none =>
  rw [h2] at h
  cases h3 : matchString cs with
  | some v =>
    obtain ⟨m1, r1⟩ := v
    rw [h3] at h
    simp only [Option.some.injEq, Prod.mk.injEq] at h
    obtain ⟨hk, hm2, hr2⟩ := h
    subst hk; subst hm2; subst hr2
    exact Or.inr (Or.inr (Or.inl ⟨rfl, rfl⟩))
  | none =>
  rw [h3] at h
  cases h4 : matchNumber cs with
  | some v =>
    obtain ⟨m1, r1⟩ := v
    rw [h4] at h
    simp only [Option.some.injEq, Prod.mk.injEq] at h
    obtain ⟨hk, hm2, hr2⟩ := h
    subst hk; subst hm2; subst hr2
    exact Or.inr (Or.inr (Or.inr (Or.inl ⟨rfl, rfl⟩)))
  | none =>
  rw [h4] at h
  cases h5 : matchPunct cs with
  | some v =>
    obtain ⟨m1, r1⟩ := v
    rw [h5] at h
    simp only [Option.some.injEq, Prod.mk.injEq] at h
    obtain ⟨hk, hm2, hr2⟩ := h
    subst hk; subst hm2; subst hr2
    exact Or.inr (Or.inr (Or.inr (Or.inr ⟨rfl, rfl⟩)))
  | none => rw [h5] at h; cases h

theorem matchNumber_not_bracket (cs m r : List Char) (h : matchNumber cs = some (m, r)) :
    m ≠ ['{'] ∧ m ≠ ['}'] ∧ m ≠ ['['] ∧ m ≠ [']'] := by
  have hsplit := matchNumber_split cs m r h
  refine ⟨?_, ?_, ?_, ?_⟩ <;> intro hcon <;> subst hcon <;>
    rw [hsplit.1] at h <;> exact Option.noConfusion h

theorem matchString_head (cs m r : List Char) (h : matchString cs = some (m, r)) :
    ∃ b, m = '"' :: b := (matchString_split cs m r h).2

/-- Every token the tokenizer emits has consistent flags: bracket-valued
tokens are exactly the punctuation matches, which carry no scalar flags. -/
theorem mkToken_flagsOk (cs : List Char) (k : TokKind) (m r : List Char)
    (ln pos : Nat) (hAt : matchAt cs = some (k, m, r)) :
    flagsOk (mkToken k m ln pos) = true := by
  rcases matchAt_inv cs k m r hAt with
    ⟨hk, hm⟩ | ⟨hk, hm⟩ | ⟨hk, hm⟩ | ⟨hk, hm⟩ | ⟨hk, hm⟩ <;> subst hk
  · rw [flagsOk]
    cases hdelim : (mkToken TokKind.ws m ln pos).isContainerDelim
    · rfl
    · rfl
  · rcases (matchConstant_split cs m r hm).2 with h | h | h <;> subst h <;> rfl
  · obtain ⟨b, hb⟩ := matchString_head cs m r hm
    subst hb
    rfl
  · obtain ⟨hb1, hb2, hb3, hb4⟩ := matchNumber_not_bracket cs m r hm
    rw [flagsOk]
    have hd : (mkToken TokKind.num m ln pos).isContainerDelim = false := by
      rw [JsonToken.isContainerDelim, JsonToken.brace_open, JsonToken.brace_close,
        JsonToken.bracket_open, JsonToken.bracket_close]
      have e1 : (mkToken TokKind.num m ln pos).value = m := rfl
      rw [e1]
      simp only [Bool.or_eq_false_iff, beq_eq_false_iff_ne]
      exact ⟨⟨⟨hb1, hb2⟩, hb3⟩, hb4⟩
    rw [hd]
    rfl
  · rw [flagsOk]
    cases hdelim : (mkToken TokKind.punct m ln pos).isContainerDelim
    · rfl
    · rfl

/-- Classification of the tokenizer loop with adequate fuel: success with
all emitted tokens flag-consistent, or a tokenizer error. -/
theorem tokenize_go_spec (line_num : Nat) :
    ∀ (fuel : Nat) (cs : List Char) (pos : Nat) (acc : List JsonToken),
      cs.length ≤ fuel → (∀ t ∈ acc, flagsOk t = true) →
      (∃ out, tokenize_go line_num fuel cs pos acc = .ok out ∧
        ∀ t ∈ out, flagsOk t = true) ∨
      (∃ ln p, tokenize_go line_num fuel cs pos acc = .error (.tokenizerError ln p)) := by
  intro fuel
  induction fuel with
  | zero =>
    intro cs pos acc hlen hacc
    have hcs : cs = [] := by
      cases cs with
      | nil => rfl
      | cons c cs => simp at hlen
    subst hcs
    left
    exact ⟨acc, rfl, hacc⟩
  | succ f ihf =>
    intro cs pos acc hlen hacc
    rw [tokenize_go]
    cases hAt : matchAt cs with
    | none =>
      cases cs with
      | nil => left; exact ⟨acc, rfl, hacc⟩
      | cons c cs2 => right; exact ⟨line_num, pos, rfl⟩
    | some v =>
      obtain ⟨k, m, r⟩ := v
      have hrl := matchAt_rest_lt cs k m r hAt
      apply ihf r (pos + m.length)
      · omega
      · intro t ht
        by_cases hk : k = TokKind.ws
        · rw [if_pos hk] at ht
          exact hacc t ht
        · rw [if_neg hk] at ht
          rcases List.mem_append.mp ht with ht | ht
          · exact hacc t ht
          · rcases List.mem_singleton.mp ht with rfl
            exact mkToken_flagsOk cs k m r line_num pos hAt

/-- Classification of the line loop of `parse_json_objects`. -/
theorem tokenize_lines_spec :
    ∀ (pairs : List (List Char × Nat)) (acc : List JsonToken),
      (∀ t ∈ acc, flagsOk t = true) →
      (∃ out, tokenize_lines pairs acc = .ok out ∧ ∀ t ∈ out, flagsOk t = true) ∨
      (∃ ln p, tokenize_lines pairs acc = .error (.tokenizerError ln p)) := by
  intro pairs
  induction pairs with
  | nil =>
    intro acc hacc
    left
    exact ⟨acc, rfl, hacc⟩
  | cons p rest ih =>
    intro acc hacc
    obtain ⟨line, ln⟩ := p
    rw [tokenize_lines]
    rcases tokenize_go_spec ln line.length line 0 acc (by omega) hacc with
      ⟨out, hok, hout⟩ | ⟨ln2, p2, herr⟩
    · rw [show tokenize_json_line_in_place line ln acc =
          tokenize_go ln line.length line 0 acc from rfl, hok]
      exact ih out hout
    · rw [show tokenize_json_line_in_place line ln acc =
          tokenize_go ln line.length line 0 acc from rfl, herr]
      right
      exact ⟨ln2, p2, rfl⟩

/-- The grouping pass only ever raises syntax errors. -/
theorem group_go_errors (tokens : List JsonToken) :
    ∀ (pairs : List (Nat × JsonToken)) (result : List CompleteObjectTokenGroup)
      (stack : List ObjectGroupStackFrame) (e : JsonError),
      group_go tokens pairs result stack = .error e → ∃ ln p, e = .syntaxError ln p := by
  intro pairs
  induction pairs with
  | nil =>
    intro result stack e h
    rw [group_go] at h
    cases h
  | cons p rest ih =>
    intro result stack e h
    obtain ⟨i, t⟩ := p
    rw [group_go.eq_def] at h
    dsimp only at h
    split at h
    · exact ih _ _ _ h
    · split at h
      · exact ih _ _ _ h
      · split at h
        · exact ih _ _ _ h
        · split at h
          · injection h with h
            exact ⟨t.line_num, t.position, h.symm⟩
          · split at h
            · exact ih _ _ _ h
            · exact ih _ _ _ h

theorem group_tokens_errors (tokens : List JsonToken) (e : JsonError)
    (h : group_tokens_into_full_object_groups tokens = .error e) :
    ∃ ln p, e = .syntaxError ln p := by
  rw [group_tokens_into_full_object_groups] at h
  cases hrun : group_go tokens (List.enumFrom 0 tokens) [] [] with
  | error e2 =>
    rw [hrun] at h
    injection h with h
    subst h
    exact group_go_errors tokens _ _ _ _ hrun
  | ok v =>
    rw [hrun] at h
    cases h

theorem closedOk_withRelativeDepth (r : RainbowJsonNode) (d : Nat) :
    closedOk (r.withRelativeDepth d) = closedOk r := by
  cases r
  rfl

/-- Classification of the record loop of `parse_json_objects` over a list
of well-formed groups: all records closed, or a syntax error; in
particular the stop-position assertion always passes. -/
theorem parse_records_spec (tokens : List JsonToken)
    (hflags : ∀ t ∈ tokens, flagsOk t = true) :
    ∀ (groups : List CompleteObjectTokenGroup) (records : List RainbowJsonNode),
      (∀ g ∈ groups, GoodGroup tokens g) →
      (∀ r ∈ records, closedOk r = true) →
      (∃ out, parse_records tokens groups records = .ok out ∧
        ∀ r ∈ out, closedOk r = true) ∨
      (∃ ln p, parse_records tokens groups records = .error (.syntaxError ln p)) := by
  intro groups
  induction groups with
  | nil =>
    intro records _ hrec
    left
    exact ⟨records, rfl, hrec⟩
  | cons g rest ih =>
    intro records hgood hrec
    rw [parse_records]
    rcases consume_good_group tokens hflags g (hgood g (List.mem_cons_self g rest)) with
      ⟨ln, p, herr⟩ | ⟨root, hok, hclosed⟩
    · rw [herr]
      right
      exact ⟨ln, p, rfl⟩
    · rw [hok]
      dsimp only
      rw [if_pos rfl]
      apply ih
      · intro g2 hg2
        exact hgood g2 (List.mem_cons_of_mem g hg2)
      · intro r hr
        rcases List.mem_append.mp hr with hr | hr
        · exact hrec r hr
        · rcases List.mem_singleton.mp hr with rfl
          rw [closedOk_withRelativeDepth]
          exact hclosed

-- Tokenizer runs over document streams -------------------------------

theorem isDigitChar_toNat (d : Char) (h : isDigitChar d = true) :
    48 ≤ d.toNat ∧ d.toNat ≤ 57 := by
  rw [isDigitChar, Bool.and_eq_true, decide_eq_true_iff, decide_eq_true_iff] at h
  exact ⟨h.1, h.2⟩

theorem digit_ne (d : Char) (hd : isDigitChar d = true) (c : Char)
    (hc : isDigitChar c = false) : d ≠ c := by
  intro he
  subst he
  rw [hd] at hc
  cases hc

theorem digit_not_ws (d : Char) (h : isDigitChar d = true) :
    isJsWhitespace d = false := by
  obtain ⟨h1, h2⟩ := isDigitChar_toNat d h
  simp only [isJsWhitespace, Bool.or_eq_false_iff, decide_eq_false_iff_not,
    Bool.and_eq_false_iff, decide_eq_false_iff_not]
  omega

theorem takeWhile_append_stop (p : Char → Bool) :
    ∀ (xs ys : List Char), (∀ x ∈ xs, p x = true) →
      (∀ y, ys.head? = some y → p y = false) →
      (xs ++ ys).takeWhile p = xs ∧ (xs ++ ys).dropWhile p = ys := by
  intro xs
  induction xs with
  | nil =>
    intro ys _ hys
    cases ys with
    | nil => exact ⟨rfl, rfl⟩
    | cons y ys2 =>
      rw [List.nil_append, List.takeWhile, List.dropWhile, hys y rfl]
      exact ⟨rfl, rfl⟩
  | cons x xs2 ih =>
    intro ys hxs hys
    rw [List.cons_append, List.takeWhile, List.dropWhile,
      hxs x (List.mem_cons_self x xs2)]
    obtain ⟨h1, h2⟩ := ih ys (fun a ha => hxs a (List.mem_cons_of_mem x ha)) hys
    rw [h1, h2]
    exact ⟨rfl, rfl⟩

theorem matchWhitespace_head_ne (c : Char) (cs : List Char)
    (hc : isJsWhitespace c = false) : matchWhitespace (c :: cs) = none := by
  rw [matchWhitespace, if_neg]
  simp [hc]

theorem matchLit_head_ne (l0 : Char) (lit2 : List Char) (c : Char) (cs : List Char)
    (hne : c ≠ l0) : matchLit (l0 :: lit2) (c :: cs) = none := by
  rw [matchLit, if_neg]
  intro h
  rw [List.length_cons, List.take_succ_cons] at h
  injection h with h1 _
  exact hne h1

theorem matchConstant_head_ne (c : Char) (cs : List Char)
    (ht : c ≠ 't') (hf : c ≠ 'f') (hn : c ≠ 'n') :
    matchConstant (c :: cs) = none := by
  rw [matchConstant]
  rw [show ("true".toList) = 't' :: ['r', 'u', 'e'] from rfl,
    matchLit_head_ne 't' _ c cs ht,
    show ("false".toList) = 'f' :: ['a', 'l', 's', 'e'] from rfl,
    matchLit_head_ne 'f' _ c cs hf,
    show ("null".toList) = 'n' :: ['u', 'l', 'l'] from rfl,
    matchLit_head_ne 'n' _ c cs hn]

theorem matchString_head_ne (c : Char) (cs : List Char) (hc : c ≠ '"') :
    matchString (c :: cs) = none := by
  rw [matchString.eq_def]
  split
  · rename_i rest heq
    injection heq with h1 _
    exact absurd h1 hc
  · rfl

theorem matchIntPart_append (i s : List Char) (hi : intDigitsOk i = true)
    (hs : ∀ y, s.head? = some y → isDigitChar y = false) :
    matchIntPart (i ++ s) = some (i, s) := by
  rw [intDigitsOk.eq_def, Bool.or_eq_true] at hi
  rcases hi with h0 | h19
  · rw [beq_iff_eq.mp h0]
    rfl
  · cases i with
    | nil => dsimp only at h19; cases h19
    | cons c rest =>
      dsimp only at h19
      rw [Bool.and_eq_true] at h19
      obtain ⟨h19a, hrest⟩ := h19
      have hc0 : ¬ c = '0' := by
        intro hc
        subst hc
        exact absurd h19a (by decide)
      rw [List.cons_append, matchIntPart, if_neg hc0, if_pos h19a]
      obtain ⟨htw, hdw⟩ := takeWhile_append_stop isDigitChar rest s
        (fun a ha => by
          have := List.all_eq_true.mp hrest a ha
          exact this) hs
      rw [htw, hdw]

theorem matchFracPart_none (s : List Char)
    (hs : ∀ y, s.head? = some y → y ≠ '.') : matchFracPart s = ([], s) := by
  cases s with
  | nil => rfl
  | cons c s2 =>
    rw [matchFracPart.eq_def]
    split
    · rename_i cs heq
      injection heq with h1 _
      exact absurd h1 (hs c rfl)
    · rfl

theorem matchFracPart_some (f s : List Char) (hf : f.all isDigitChar = true)
    (hne : f ≠ []) (hs : ∀ y, s.head? = some y → isDigitChar y = false) :
    matchFracPart ('.' :: (f ++ s)) = ('.' :: f, s) := by
  obtain ⟨d, f2, rfl⟩ : ∃ d f2, f = d :: f2 := by
    cases f with
    | nil => exact absurd rfl hne
    | cons d f2 => exact ⟨d, f2, rfl⟩
  rw [matchFracPart.eq_def]
  split
  · rename_i cs heq
    injection heq with _ h2
    subst h2
    obtain ⟨htw, hdw⟩ := takeWhile_append_stop isDigitChar (d :: f2) s
      (fun a ha => List.all_eq_true.mp hf a ha) hs
    rw [htw, hdw]
  · rename_i hno
    exact absurd rfl (hno (d :: f2 ++ s))

theorem matchExpPart_none (s : List Char)
    (hs1 : ∀ y, s.head? = some y → y ≠ 'e')
    (hs2 : ∀ y, s.head? = some y → y ≠ 'E') : matchExpPart s = ([], s) := by
  cases s with
  | nil => rfl
  | cons e cs =>
    rw [matchExpPart.eq_def]
    dsimp only
    rw [if_neg]
    simp only [Bool.or_eq_true, decide_eq_true_iff, not_or]
    exact ⟨hs1 e rfl, hs2 e rfl⟩

theorem matchExpDigits_run (e : Char) (sign ds s orig : List Char)
    (hds : ds.all isDigitChar = true) (hne : ds ≠ [])
    (hs : ∀ y, s.head? = some y → isDigitChar y = false) :
    matchExpDigits e sign (ds ++ s) orig = (e :: (sign ++ ds), s) := by
  obtain ⟨d, ds2, rfl⟩ : ∃ d ds2, ds = d :: ds2 := by
    cases ds with
    | nil => exact absurd rfl hne
    | cons d ds2 => exact ⟨d, ds2, rfl⟩
  rw [matchExpDigits]
  obtain ⟨htw, hdw⟩ := takeWhile_append_stop isDigitChar (d :: ds2) s
    (fun a ha => List.all_eq_true.mp hds a ha) hs
  rw [htw, hdw]

theorem expOk_parts (ex : ExpLit) (h : expOk ex = true) :
    (ex.echar = 'e' ∨ ex.echar = 'E') ∧
    (ex.sign = [] ∨ ex.sign = ['+'] ∨ ex.sign = ['-']) ∧
    ex.digits ≠ [] ∧ ex.digits.all isDigitChar = true := by
  rw [expOk, Bool.and_eq_true, Bool.and_eq_true, Bool.and_eq_true] at h
  obtain ⟨⟨⟨he, hsgn⟩, hne⟩, hds⟩ := h
  refine ⟨?_, ?_, ?_, hds⟩
  · rw [Bool.or_eq_true] at he
    rcases he with h | h
    · exact Or.inl (beq_iff_eq.mp h)
    · exact Or.inr (beq_iff_eq.mp h)
  · rw [Bool.or_eq_true, Bool.or_eq_true] at hsgn
    rcases hsgn with (h | h) | h
    · exact Or.inl (beq_iff_eq.mp h)
    · exact Or.inr (Or.inl (beq_iff_eq.mp h))
    · exact Or.inr (Or.inr (beq_iff_eq.mp h))
  · intro hcon
    rw [hcon] at hne
    cases hne

theorem matchExpPart_some (ex : ExpLit) (s : List Char) (hex : expOk ex = true)
    (hs : ∀ y, s.head? = some y → isDigitChar y = false) :
    matchExpPart (ex.echar :: (ex.sign ++ ex.digits ++ s)) =
      (ex.echar :: (ex.sign ++ ex.digits), s) := by
  obtain ⟨he, hsgn, hne, hds⟩ := expOk_parts ex hex
  obtain ⟨e, sign, ds⟩ := ex
  dsimp only at he hsgn hne hds ⊢
  obtain ⟨d, ds2, rfl⟩ : ∃ d ds2, ds = d :: ds2 := by
    cases ds with
    | nil => exact absurd rfl hne
    | cons d ds2 => exact ⟨d, ds2, rfl⟩
  have hcond : (decide (e = 'e') || decide (e = 'E')) = true := by
    rcases he with rfl | rfl <;> decide
  rcases hsgn with rfl | rfl | rfl
  · rw [List.nil_append, List.cons_append, matchExpPart.eq_def]
    dsimp only
    rw [if_pos hcond, if_neg]
    · exact matchExpDigits_run e [] (d :: ds2) s _ hds (by simp) hs
    · simp only [Bool.or_eq_true, decide_eq_true_iff, not_or]
      exact ⟨digit_ne d (List.all_eq_true.mp hds d (by simp)) '+' (by decide),
        digit_ne d (List.all_eq_true.mp hds d (by simp)) '-' (by decide)⟩
  · rw [show ['+'] ++ (d :: ds2) ++ s = '+' :: ((d :: ds2) ++ s) from rfl,
      matchExpPart.eq_def]
    dsimp only
    rw [if_pos hcond, if_pos (by decide)]
    exact matchExpDigits_run e ['+'] (d :: ds2) s _ hds (by simp) hs
  · rw [show ['-'] ++ (d :: ds2) ++ s = '-' :: ((d :: ds2) ++ s) from rfl,
      matchExpPart.eq_def]
    dsimp only
    rw [if_pos hcond, if_pos (by decide)]
    exact matchExpDigits_run e ['-'] (d :: ds2) s _ hds (by simp) hs

theorem matchNumber_of_parts (i fr er s : List Char)
    (hi0 : i ≠ [])
    (hhead : ∀ c t, i = c :: t → isDigitChar c = true)
    (hint : matchIntPart (i ++ (fr ++ (er ++ s))) = some (i, fr ++ (er ++ s)))
    (hfrac : matchFracPart (fr ++ (er ++ s)) = (fr, er ++ s))
    (hexp : matchExpPart (er ++ s) = (er, s)) :
    matchNumber ((i ++ (fr ++ er)) ++ s) = some (i ++ (fr ++ er), s) ∧
    matchNumber ('-' :: ((i ++ (fr ++ er)) ++ s)) =
      some ('-' :: (i ++ (fr ++ er)), s) := by
  have hassoc : (i ++ (fr ++ er)) ++ s = i ++ (fr ++ (er ++ s)) := by simp
  constructor
  · rw [hassoc, matchNumber.eq_def]
    split
    · rename_i cs2 heq
      obtain ⟨c, t, rfl⟩ : ∃ c t, i = c :: t := by
        cases i with
        | nil => exact absurd rfl hi0
        | cons c t => exact ⟨c, t, rfl⟩
      rw [List.cons_append] at heq
      injection heq with h1 _
      have hd := hhead c t rfl
      subst h1
      exact absurd hd (by decide)
    · rw [hint]
      dsimp only
      rw [hfrac]
      dsimp only
      rw [hexp]
      dsimp only
      simp only [List.append_assoc]
  · rw [matchNumber.eq_def]
    split
    · rename_i cs2 heq
      injection heq with _ h2
      subst h2
      rw [hassoc, hint]
      dsimp only
      rw [hfrac]
      dsimp only
      rw [hexp]
      dsimp only
      simp only [List.append_assoc]
    · rename_i hno
      exact absurd rfl (hno _)

theorem matchNumber_render (n : NumLit) (h : numOk n = true) (s : List Char)
    (hs : stopHead s) :
    matchNumber (renderNum n ++ s) = some (renderNum n, s) := by
  have hsd : ∀ y, s.head? = some y → isDigitChar y = false := by
    intro y hy
    rcases hs y hy with rfl | rfl | rfl <;> decide
  have hsdot : ∀ y, s.head? = some y → y ≠ '.' := by
    intro y hy
    rcases hs y hy with rfl | rfl | rfl <;> decide
  have hse : ∀ y, s.head? = some y → y ≠ 'e' := by
    intro y hy
    rcases hs y hy with rfl | rfl | rfl <;> decide
  have hsE : ∀ y, s.head? = some y → y ≠ 'E' := by
    intro y hy
    rcases hs y hy with rfl | rfl | rfl <;> decide
  obtain ⟨neg, i, f, ex⟩ := n
  rw [numOk] at h
  dsimp only at h
  rw [Bool.and_eq_true, Bool.and_eq_true] at h
  obtain ⟨⟨hi, hf⟩, hex⟩ := h
  have hhead : ∀ c t, i = c :: t → isDigitChar c = true := by
    intro c t hct
    subst hct
    rw [intDigitsOk.eq_def, Bool.or_eq_true] at hi
    rcases hi with h0 | h19
    · have h0 := beq_iff_eq.mp h0
      injection h0 with h1 _
      subst h1
      decide
    · dsimp only at h19
      rw [Bool.and_eq_true] at h19
      obtain ⟨h1, _⟩ := h19
      rw [Bool.and_eq_true, decide_eq_true_iff, decide_eq_true_iff] at h1
      rw [isDigitChar, Bool.and_eq_true, decide_eq_true_iff, decide_eq_true_iff]
      exact ⟨le_trans (by decide) h1.1, h1.2⟩
  have hi0 : i ≠ [] := by
    intro hcon
    subst hcon
    exact absurd hi (by decide)
  rw [renderNum]
  dsimp only
  cases ex with
  | none =>
    cases f with
    | nil =>
      have hint := matchIntPart_append i s hi hsd
      have hfrac := matchFracPart_none s hsdot
      have hexp := matchExpPart_none s hse hsE
      have hmain := matchNumber_of_parts i [] [] s hi0 hhead
        (by simpa using hint) (by simpa using hfrac) (by simpa using hexp)
      cases neg with
      | false => simpa using hmain.1
      | true => simpa using hmain.2
    | cons d f2 =>
      have hfhead : ∀ y, (('.' :: (d :: f2)) ++ s).head? = some y →
          isDigitChar y = false := by
        intro y hy
        injection hy with hy
        subst hy
        decide
      have hfdot : (('.' :: (d :: f2)) ++ s) = '.' :: ((d :: f2) ++ s) := rfl
      have hint := matchIntPart_append i (('.' :: (d :: f2)) ++ s) hi hfhead
      have hfrac := matchFracPart_some (d :: f2) s hf (by simp) hsd
      have hexp := matchExpPart_none s hse hsE
      have hmain := matchNumber_of_parts i ('.' :: (d :: f2)) [] s hi0 hhead
        (by simpa using hint) (by simpa using hfrac) (by simpa using hexp)
      cases neg with
      | false => simpa using hmain.1
      | true => simpa using hmain.2
  | some e =>
    dsimp only at hex
    obtain ⟨hech, _, _, _⟩ := expOk_parts e hex
    have her : e.echar :: (e.sign ++ e.digits) ++ s =
        e.echar :: (e.sign ++ e.digits ++ s) := by simp
    have herhead : ∀ y, ((e.echar :: (e.sign ++ e.digits)) ++ s).head? = some y →
        isDigitChar y = false := by
      intro y hy
      injection hy with hy
      subst hy
      rcases hech with h | h <;> rw [h] <;> decide
    have herdot : ∀ y, ((e.echar :: (e.sign ++ e.digits)) ++ s).head? = some y →
        y ≠ '.' := by
      intro y hy
      injection hy with hy
      subst hy
      rcases hech with h | h <;> rw [h] <;> decide
    have hexp0 := matchExpPart_some e s hex hsd
    cases f with
    | nil =>
      have hint := matchIntPart_append i ((e.echar :: (e.sign ++ e.digits)) ++ s)
        hi herhead
      have hfrac := matchFracPart_none ((e.echar :: (e.sign ++ e.digits)) ++ s) herdot
      have hmain := matchNumber_of_parts i [] (e.echar :: (e.sign ++ e.digits)) s
        hi0 hhead (by simpa using hint) (by simpa using hfrac)
        (by simpa using hexp0)
      cases neg with
      | false => simpa using hmain.1
      | true => simpa using hmain.2
    | cons d f2 =>
      have hcomb : ∀ y, (('.' :: (d :: f2)) ++
          ((e.echar :: (e.sign ++ e.digits)) ++ s)).head? = some y →
          isDigitChar y = false := by
        intro y hy
        injection hy with hy
        subst hy
        decide
      have hint := matchIntPart_append i (('.' :: (d :: f2)) ++
        ((e.echar :: (e.sign ++ e.digits)) ++ s)) hi hcomb
      have hfrac := matchFracPart_some (d :: f2)
        ((e.echar :: (e.sign ++ e.digits)) ++ s) hf (by simp) herhead
      have hmain := matchNumber_of_parts i ('.' :: (d :: f2))
        (e.echar :: (e.sign ++ e.digits)) s hi0 hhead
        (by simpa using hint) (by simpa using hfrac) (by simpa using hexp0)
      cases neg with
      | false => simpa using hmain.1
      | true => simpa using hmain.2

theorem intDigitsOk_head (c : Char) (t : List Char)
    (h : intDigitsOk (c :: t) = true) : isDigitChar c = true := by
  rw [intDigitsOk.eq_def, Bool.or_eq_true] at h
  rcases h with h0 | h19
  · have h0 := beq_iff_eq.mp h0
    injection h0 with h1 _
    subst h1
    decide
  · dsimp only at h19
    rw [Bool.and_eq_true] at h19
    obtain ⟨h1, _⟩ := h19
    rw [Bool.and_eq_true, decide_eq_true_iff, decide_eq_true_iff] at h1
    rw [isDigitChar, Bool.and_eq_true, decide_eq_true_iff, decide_eq_true_iff]
    exact ⟨le_trans (by decide) h1.1, h1.2⟩

theorem renderNum_head (n : NumLit) (h : numOk n = true) :
    ∃ c t, renderNum n = c :: t ∧ (c = '-' ∨ isDigitChar c = true) := by
  obtain ⟨neg, i, f, ex⟩ := n
  rw [numOk] at h
  dsimp only at h
  rw [Bool.and_eq_true, Bool.and_eq_true] at h
  obtain ⟨⟨hi, _⟩, _⟩ := h
  obtain ⟨c, t, rfl⟩ : ∃ c t, i = c :: t := by
    cases i with
    | nil => exact absurd hi (by decide)
    | cons c t => exact ⟨c, t, rfl⟩
  have hcd := intDigitsOk_head c t hi
  cases ex with
  | none =>
    cases neg with
    | true =>
      exact ⟨'-', (c :: t) ++ ((if f.isEmpty then [] else '.' :: f) ++ []),
        by simp [renderNum], Or.inl rfl⟩
    | false =>
      exact ⟨c, t ++ ((if f.isEmpty then [] else '.' :: f) ++ []),
        by simp [renderNum], Or.inr hcd⟩
  | some e =>
    cases neg with
    | true =>
      exact ⟨'-', (c :: t) ++ ((if f.isEmpty then [] else '.' :: f) ++
        (e.echar :: (e.sign ++ e.digits))), by simp [renderNum], Or.inl rfl⟩
    | false =>
      exact ⟨c, t ++ ((if f.isEmpty then [] else '.' :: f) ++
        (e.echar :: (e.sign ++ e.digits))), by simp [renderNum], Or.inr hcd⟩

theorem scanStringBody_render (items : List StrItem)
    (hok : items.all strItemOk = true) :
    ∀ rest, scanStringBody (bodyChars items ++ ('"' :: rest)) =
      some (bodyChars items ++ ['"'], rest) := by
  induction items with
  | nil =>
    intro rest
    have hb : bodyChars ([] : List StrItem) = [] := by simp [bodyChars]
    rw [hb, List.nil_append, scanStringBody.eq_def]
    dsimp only
    rw [if_pos rfl]
    rfl
  | cons it items2 ih =>
    intro rest
    rw [List.all_cons, Bool.and_eq_true] at hok
    obtain ⟨hit, hrest⟩ := hok
    cases it with
    | norm c =>
      rw [strItemOk, Bool.and_eq_true, Bool.and_eq_true] at hit
      obtain ⟨⟨hq, hbs⟩, _⟩ := hit
      have hbody : bodyChars (StrItem.norm c :: items2) = c :: bodyChars items2 := by
        simp [bodyChars, itemChars]
      rw [hbody, List.cons_append, scanStringBody.eq_def]
      dsimp only
      rw [if_neg (beq_eq_false_iff_ne.mp (by simpa using hq)),
        if_neg (beq_eq_false_iff_ne.mp (by simpa using hbs)), ih hrest rest]
      rfl
    | esc c =>
      rw [strItemOk] at hit
      have hlt : isLineTerminator c = false := by
        cases hl : isLineTerminator c with
        | false => rfl
        | true => rw [hl] at hit; cases hit
      have hbody : bodyChars (StrItem.esc c :: items2) =
          '\\' :: (c :: bodyChars items2) := by
        simp [bodyChars, itemChars]
      rw [hbody, List.cons_append, List.cons_append, scanStringBody.eq_def]
      dsimp only
      rw [if_neg (by decide), if_pos rfl, hlt, if_neg (by decide), ih hrest rest]
      rfl

theorem matchAt_openBrace (rest : List Char) :
    matchAt ('{' :: rest) = some (TokKind.punct, ['{'], rest) := rfl

theorem matchAt_closeBrace (rest : List Char) :
    matchAt ('}' :: rest) = some (TokKind.punct, ['}'], rest) := rfl

theorem matchAt_openBracket (rest : List Char) :
    matchAt ('[' :: rest) = some (TokKind.punct, ['['], rest) := rfl

theorem matchAt_closeBracket (rest : List Char) :
    matchAt (']' :: rest) = some (TokKind.punct, [']'], rest) := rfl

theorem matchAt_colon (rest : List Char) :
    matchAt (':' :: rest) = some (TokKind.punct, [':'], rest) := rfl

theorem matchAt_comma (rest : List Char) :
    matchAt (',' :: rest) = some (TokKind.punct, [','], rest) := rfl

theorem matchAt_true (rest : List Char) :
    matchAt ("true".toList ++ rest) = some (TokKind.const, "true".toList, rest) := rfl

theorem matchAt_false (rest : List Char) :
    matchAt ("false".toList ++ rest) = some (TokKind.const, "false".toList, rest) := rfl

theorem matchAt_null (rest : List Char) :
    matchAt ("null".toList ++ rest) = some (TokKind.const, "null".toList, rest) := rfl

theorem matchAt_str (items : List StrItem) (hok : items.all strItemOk = true)
    (rest : List Char) :
    matchAt (('"' :: (bodyChars items ++ ['"'])) ++ rest) =
      some (TokKind.str, '"' :: (bodyChars items ++ ['"']), rest) := by
  have hsh : ('"' :: (bodyChars items ++ ['"'])) ++ rest =
      '"' :: (bodyChars items ++ ('"' :: rest)) := by simp
  have hms : matchString ('"' :: (bodyChars items ++ ('"' :: rest))) =
      some ('"' :: (bodyChars items ++ ['"']), rest) := by
    rw [matchString.eq_def]
    split
    · rename_i rest2 heq
      injection heq with _ h2
      subst h2
      rw [scanStringBody_render items hok rest]
    · rename_i hno
      exact absurd rfl (hno _)
  rw [hsh, matchAt,
    matchWhitespace_head_ne '"' _ (by decide),
    matchConstant_head_ne '"' _ (by decide) (by decide) (by decide), hms]

theorem matchAt_num (n : NumLit) (h : numOk n = true) (s : List Char)
    (hs : stopHead s) :
    matchAt (renderNum n ++ s) = some (TokKind.num, renderNum n, s) := by
  obtain ⟨c, t, hct, hcd⟩ := renderNum_head n h
  have hws : isJsWhitespace c = false := by
    rcases hcd with rfl | hd
    · decide
    · exact digit_not_ws c hd
  have hconst : matchConstant (c :: (t ++ s)) = none := by
    rcases hcd with rfl | hd
    · exact matchConstant_head_ne '-' _ (by decide) (by decide) (by decide)
    · exact matchConstant_head_ne c _ (digit_ne c hd 't' (by decide))
        (digit_ne c hd 'f' (by decide)) (digit_ne c hd 'n' (by decide))
  have hstr : matchString (c :: (t ++ s)) = none := by
    rcases hcd with rfl | hd
    · exact matchString_head_ne '-' _ (by decide)
    · exact matchString_head_ne c _ (digit_ne c hd '"' (by decide))
  have hm := matchNumber_render n h s hs
  rw [hct, List.cons_append] at hm ⊢
  rw [matchAt, matchWhitespace_head_ne c _ hws, hconst, hstr, hm]

theorem catTexts_append (a b : List (TokKind × List Char)) :
    catTexts (a ++ b) = catTexts a ++ catTexts b := by
  induction a with
  | nil => rfl
  | cons p a2 ih =>
    obtain ⟨k, s⟩ := p
    rw [List.cons_append, catTexts, catTexts, ih, List.append_assoc]

theorem emitToks_append (ln : Nat) (a b : List (TokKind × List Char)) :
    ∀ pos, emitToks ln (a ++ b) pos =
      emitToks ln a pos ++ emitToks ln b (pos + (catTexts a).length) := by
  induction a with
  | nil => intro pos; simp [emitToks, catTexts]
  | cons p a2 ih =>
    intro pos
    obtain ⟨k, s⟩ := p
    rw [List.cons_append, emitToks, emitToks, ih (pos + s.length), List.cons_append]
    have : pos + s.length + (catTexts a2).length =
        pos + (catTexts ((k, s) :: a2)).length := by
      rw [catTexts, List.length_append]
      omega
    rw [this]

theorem emitToks_length (ln : Nat) (ps : List (TokKind × List Char)) :
    ∀ pos, (emitToks ln ps pos).length = ps.length := by
  induction ps with
  | nil => intro pos; rfl
  | cons p ps2 ih =>
    intro pos
    obtain ⟨k, s⟩ := p
    rw [emitToks, List.length_cons, List.length_cons, ih]

theorem TokStreamRel_append (a b : List (TokKind × List Char)) (out : List Char)
    (hb : TokStreamRel b out) :
    TokStreamRel a (catTexts b ++ out) → TokStreamRel (a ++ b) out := by
  induction a with
  | nil => intro _; exact hb
  | cons p a2 ih =>
    intro ha
    obtain ⟨k, s⟩ := p
    obtain ⟨h1, h2, h3, h4⟩ := ha
    refine ⟨h1, h2, ?_, ih h4⟩
    show matchAt (s ++ (catTexts (a2 ++ b) ++ out)) =
      some (k, s, catTexts (a2 ++ b) ++ out)
    rw [catTexts_append, List.append_assoc]
    exact h3

mutual

theorem valTexts_stream : ∀ (v : JVal), wfVal v = true →
    ∀ out, stopHead out → TokStreamRel (valTexts v) out
  | .jstr items, hwf, out, _ => by
    rw [wfVal] at hwf
    exact ⟨by simp, by decide, matchAt_str items hwf out, trivial⟩
  | .jnum nl, hwf, out, ho => by
    rw [wfVal] at hwf
    obtain ⟨c, t, hct, _⟩ := renderNum_head nl hwf
    exact ⟨by rw [hct]; simp, by decide, matchAt_num nl hwf out ho, trivial⟩
  | .jtrue, _, out, _ => ⟨by decide, by decide, matchAt_true out, trivial⟩
  | .jfalse, _, out, _ => ⟨by decide, by decide, matchAt_false out, trivial⟩
  | .jnull, _, out, _ => ⟨by decide, by decide, matchAt_null out, trivial⟩
  | .jobj es, hwf, out, ho => by
    rw [wfVal] at hwf
    refine ⟨by simp, by decide, matchAt_openBrace _, ?_⟩
    refine TokStreamRel_append (entriesTexts es) [(TokKind.punct, ['}'])] out
      ⟨by simp, by decide, matchAt_closeBrace _, trivial⟩ ?_
    apply entriesTexts_stream es hwf
    intro y hy
    injection hy with hy
    exact Or.inr (Or.inl hy.symm)
  | .jarr vs, hwf, out, ho => by
    rw [wfVal] at hwf
    refine ⟨by simp, by decide, matchAt_openBracket _, ?_⟩
    refine TokStreamRel_append (elemsTexts vs) [(TokKind.punct, [']'])] out
      ⟨by simp, by decide, matchAt_closeBracket _, trivial⟩ ?_
    apply elemsTexts_stream vs hwf
    intro y hy
    injection hy with hy
    exact Or.inr (Or.inr hy.symm)

theorem entriesTexts_stream : ∀ (es : JEntries), wfEntries es = true →
    ∀ out, stopHead out → TokStreamRel (entriesTexts es) out
  | .enil, _, out, _ => trivial
  | .econs k v rest, hwf, out, ho => by
    rw [wfEntries, Bool.and_eq_true, Bool.and_eq_true] at hwf
    obtain ⟨⟨hk, hv⟩, hrest⟩ := hwf
    refine ⟨by simp [keyText], by decide, matchAt_str k hk _, by decide,
      by decide, matchAt_colon _, ?_⟩
    cases rest with
    | enil =>
      simp only [show entriesTexts JEntries.enil = [] from rfl, List.append_nil]
      exact valTexts_stream v hv out ho
    | econs k2 v2 rest2 =>
      refine TokStreamRel_append (valTexts v ++ [(TokKind.punct, [','])])
        (entriesTexts (JEntries.econs k2 v2 rest2)) out
        (entriesTexts_stream (JEntries.econs k2 v2 rest2) hrest out ho) ?_
      refine TokStreamRel_append (valTexts v) [(TokKind.punct, [','])] _
        ⟨by simp, by decide, matchAt_comma _, trivial⟩ ?_
      apply valTexts_stream v hv
      intro y hy
      injection hy with hy
      exact Or.inl hy.symm

theorem elemsTexts_stream : ∀ (vs : JElems), wfElems vs = true →
    ∀ out, stopHead out → TokStreamRel (elemsTexts vs) out
  | .anil, _, out, _ => trivial
  | .acons v rest, hwf, out, ho => by
    rw [wfElems, Bool.and_eq_true] at hwf
    obtain ⟨hv, hrest⟩ := hwf
    cases rest with
    | anil =>
      show TokStreamRel ((valTexts v ++ []) ++ elemsTexts JElems.anil) out
      simp only [List.append_nil]
      show TokStreamRel (valTexts v ++ elemsTexts JElems.anil) out
      simp only [show elemsTexts JElems.anil = [] from rfl, List.append_nil]
      exact valTexts_stream v hv out ho
    | acons v2 rest2 =>
      refine TokStreamRel_append (valTexts v ++ [(TokKind.punct, [','])])
        (elemsTexts (JElems.acons v2 rest2)) out
        (elemsTexts_stream (JElems.acons v2 rest2) hrest out ho) ?_
      refine TokStreamRel_append (valTexts v) [(TokKind.punct, [','])] _
        ⟨by simp, by decide, matchAt_comma _, trivial⟩ ?_
      apply valTexts_stream v hv
      intro y hy
      injection hy with hy
      exact Or.inl hy.symm

end

theorem tokenize_go_stream (ln : Nat) :
    ∀ (ps : List (TokKind × List Char)), TokStreamRel ps [] →
      ∀ fuel pos acc, (catTexts ps).length ≤ fuel →
        tokenize_go ln fuel (catTexts ps) pos acc =
          .ok (acc ++ emitToks ln ps pos) := by
  intro ps
  induction ps with
  | nil =>
    intro _ fuel pos acc _
    have h1 : tokenize_go ln fuel [] pos acc = .ok acc := by
      rw [tokenize_go]
      rfl
    rw [show catTexts [] = [] from rfl, h1, show emitToks ln [] pos = [] from rfl,
      List.append_nil]
  | cons p ps2 ih =>
    intro h fuel pos acc hfuel
    obtain ⟨k, s⟩ := p
    obtain ⟨hne, hkw, hAt, hrest⟩ := h
    rw [List.append_nil] at hAt
    have hslen : 0 < s.length := List.length_pos.mpr hne
    have hlen : (catTexts ((k, s) :: ps2)).length =
        s.length + (catTexts ps2).length := by
      rw [catTexts, List.length_append]
    cases fuel with
    | zero =>
      exfalso
      rw [hlen] at hfuel
      omega
    | succ f =>
      rw [show catTexts ((k, s) :: ps2) = s ++ catTexts ps2 from rfl,
        tokenize_go, hAt]
      dsimp only
      rw [if_neg hkw, ih hrest f (pos + s.length) (acc ++ [mkToken k s ln pos])
        (by rw [hlen] at hfuel; omega)]
      rw [emitToks]
      simp

theorem tokenize_doc (v : JVal) (hwf : wfVal v = true) (ln : Nat) :
    tokenize_json_line_in_place (renderVal v) ln [] =
      .ok (emitToks ln (valTexts v) 0) := by
  rw [show tokenize_json_line_in_place (renderVal v) ln [] =
    tokenize_go ln (renderVal v).length (renderVal v) 0 [] from rfl]
  rw [show renderVal v = catTexts (valTexts v) from rfl]
  rw [tokenize_go_stream ln (valTexts v)
    (valTexts_stream v hwf [] (fun y hy => by cases hy))
    (catTexts (valTexts v)).length 0 [] (le_refl _)]
  rw [List.nil_append]

-- Grouping over document streams -------------------------------------

theorem close_delim (t : JsonToken) (h : t.isContainerClose = true) :
    t.isContainerDelim = true := by
  rw [JsonToken.isContainerClose, Bool.or_eq_true] at h
  rw [JsonToken.isContainerDelim]
  rcases h with h | h <;> simp [h]

theorem close_not_open (c : JsonToken) (h : c.isContainerClose = true) :
    c.isContainerOpen = false := by
  rw [JsonToken.isContainerClose, Bool.or_eq_true] at h
  rw [JsonToken.isContainerOpen, JsonToken.brace_open, JsonToken.bracket_open]
  rcases h with h | h
  · rw [JsonToken.brace_close] at h
    rw [beq_iff_eq.mp h]
    rfl
  · rw [JsonToken.bracket_close] at h
    rw [beq_iff_eq.mp h]
    rfl

theorem mkToken_num_delim (nl : NumLit) (h : numOk nl = true) (ln pos : Nat) :
    (mkToken TokKind.num (renderNum nl) ln pos).isContainerDelim = false := by
  obtain ⟨c, t, hct, hcd⟩ := renderNum_head nl h
  rw [JsonToken.isContainerDelim, JsonToken.brace_open, JsonToken.brace_close,
    JsonToken.bracket_open, JsonToken.bracket_close]
  have hv : (mkToken TokKind.num (renderNum nl) ln pos).value = renderNum nl := rfl
  rw [hv, hct]
  simp only [Bool.or_eq_false_iff, beq_eq_false_iff_ne]
  have hne : ∀ x : Char, c ≠ x → (c :: t) ≠ [x] := by
    intro x hx hcon
    injection hcon with h1 _
    exact hx h1
  rcases hcd with rfl | hd
  · exact ⟨⟨⟨hne '{' (by decide), hne '}' (by decide)⟩, hne '[' (by decide)⟩,
      hne ']' (by decide)⟩
  · exact ⟨⟨⟨hne '{' (digit_ne c hd '{' (by decide)),
      hne '}' (digit_ne c hd '}' (by decide))⟩,
      hne '[' (digit_ne c hd '[' (by decide))⟩,
      hne ']' (digit_ne c hd ']' (by decide))⟩

theorem emitToks_obj (es : JEntries) (ln pos : Nat) :
    emitToks ln (valTexts (.jobj es)) pos =
      mkToken TokKind.punct ['{'] ln pos ::
        (emitToks ln (entriesTexts es) (pos + 1) ++
         [mkToken TokKind.punct ['}'] ln
            (pos + 1 + (catTexts (entriesTexts es)).length)]) := by
  rw [show valTexts (JVal.jobj es) =
    (TokKind.punct, ['{']) :: (entriesTexts es ++ [(TokKind.punct, ['}'])]) from rfl]
  rw [emitToks, emitToks_append]
  rfl

theorem emitToks_arr (vs : JElems) (ln pos : Nat) :
    emitToks ln (valTexts (.jarr vs)) pos =
      mkToken TokKind.punct ['['] ln pos ::
        (emitToks ln (elemsTexts vs) (pos + 1) ++
         [mkToken TokKind.punct [']'] ln
            (pos + 1 + (catTexts (elemsTexts vs)).length)]) := by
  rw [show valTexts (JVal.jarr vs) =
    (TokKind.punct, ['[']) :: (elemsTexts vs ++ [(TokKind.punct, [']'])]) from rfl]
  rw [emitToks, emitToks_append]
  rfl

mutual

theorem valToks_inner : ∀ (v : JVal), wfVal v = true →
    ∀ (ln pos : Nat), Inner (emitToks ln (valTexts v) pos)
  | .jstr items, _, ln, pos => Inner.plain _ _ rfl Inner.nil
  | .jnum nl, hwf, ln, pos => by
    rw [wfVal] at hwf
    exact Inner.plain _ _ (mkToken_num_delim nl hwf ln pos) Inner.nil
  | .jtrue, _, ln, pos => Inner.plain _ _ rfl Inner.nil
  | .jfalse, _, ln, pos => Inner.plain _ _ rfl Inner.nil
  | .jnull, _, ln, pos => Inner.plain _ _ rfl Inner.nil
  | .jobj es, hwf, ln, pos => by
    rw [wfVal] at hwf
    rw [emitToks_obj es ln pos]
    exact Inner.grp _ _ _ [] rfl rfl (entriesToks_inner es hwf ln (pos + 1)) Inner.nil
  | .jarr vs, hwf, ln, pos => by
    rw [wfVal] at hwf
    rw [emitToks_arr vs ln pos]
    exact Inner.grp _ _ _ [] rfl rfl (elemsToks_inner vs hwf ln (pos + 1)) Inner.nil

theorem entriesToks_inner : ∀ (es : JEntries), wfEntries es = true →
    ∀ (ln pos : Nat), Inner (emitToks ln (entriesTexts es) pos)
  | .enil, _, _, _ => Inner.nil
  | .econs k v rest, hwf, ln, pos => by
    rw [wfEntries, Bool.and_eq_true, Bool.and_eq_true] at hwf
    obtain ⟨⟨_, hv⟩, hrest⟩ := hwf
    cases rest with
    | enil =>
      rw [show entriesTexts (JEntries.econs k v JEntries.enil) =
        (TokKind.str, keyText k) :: ((TokKind.punct, [':']) :: valTexts v) from by
          simp [entriesTexts]]
      rw [emitToks, emitToks]
      exact Inner.plain _ _ rfl (Inner.plain _ _ rfl (valToks_inner v hv ln _))
    | econs k2 v2 r2 =>
      rw [show entriesTexts (JEntries.econs k v (JEntries.econs k2 v2 r2)) =
        (TokKind.str, keyText k) :: ((TokKind.punct, [':']) ::
          ((valTexts v ++ [(TokKind.punct, [','])]) ++
            entriesTexts (JEntries.econs k2 v2 r2))) from by simp [entriesTexts]]
      rw [emitToks, emitToks, emitToks_append, emitToks_append]
      refine Inner.plain _ _ rfl (Inner.plain _ _ rfl ?_)
      refine Inner_append _ _ (Inner_append _ _ (valToks_inner v hv ln _) ?_)
        (entriesToks_inner (JEntries.econs k2 v2 r2) hrest ln _)
      exact Inner.plain _ _ rfl Inner.nil

theorem elemsToks_inner : ∀ (vs : JElems), wfElems vs = true →
    ∀ (ln pos : Nat), Inner (emitToks ln (elemsTexts vs) pos)
  | .anil, _, _, _ => Inner.nil
  | .acons v rest, hwf, ln, pos => by
    rw [wfElems, Bool.and_eq_true] at hwf
    obtain ⟨hv, hrest⟩ := hwf
    cases rest with
    | anil =>
      rw [show elemsTexts (JElems.acons v JElems.anil) = valTexts v from by
        simp [elemsTexts]]
      exact valToks_inner v hv ln pos
    | acons v2 r2 =>
      rw [show elemsTexts (JElems.acons v (JElems.acons v2 r2)) =
        (valTexts v ++ [(TokKind.punct, [','])]) ++
          elemsTexts (JElems.acons v2 r2) from by simp [elemsTexts]]
      rw [emitToks_append, emitToks_append]
      refine Inner_append _ _ (Inner_append _ _ (valToks_inner v hv ln _) ?_)
        (elemsToks_inner (JElems.acons v2 r2) hrest ln _)
      exact Inner.plain _ _ rfl Inner.nil

end

theorem drop_append_tail (tokens : List JsonToken) (j : Nat) (xs X : List JsonToken)
    (h : tokens.drop j = xs ++ X) : tokens.drop (j + xs.length) = X := by
  have h2 : tokens.drop (j + xs.length) = (tokens.drop j).drop xs.length := by
    rw [List.drop_drop, Nat.add_comm]
  rw [h2, h, List.drop_left]

/-- Running the grouping scan over a balanced interior segment from a
nonempty stack returns to the same stack shape: only the top frame's
accumulated child groups change. -/
theorem group_go_seg (tokens : List JsonToken) (seg : List JsonToken)
    (hInner : Inner seg) :
    ∀ (i : Nat), tokens.drop i = seg ++ tokens.drop (i + seg.length) →
    ∀ (rest : List (Nat × JsonToken)) (result : List CompleteObjectTokenGroup)
      (ff : Nat) (fc : List CompleteObjectTokenGroup)
      (stack : List ObjectGroupStackFrame),
      ∃ acc2, group_go tokens (List.enumFrom i seg ++ rest) result
          ((⟨ff, fc⟩ : ObjectGroupStackFrame) :: stack) =
        group_go tokens rest result
          ((⟨ff, acc2⟩ : ObjectGroupStackFrame) :: stack) := by
  induction hInner with
  | nil =>
    intro i _ rest result ff fc stack
    exact ⟨fc, rfl⟩
  | plain t ts hdelim _ ih =>
    intro i hdrop rest result ff fc stack
    rw [show List.enumFrom i (t :: ts) = (i, t) :: List.enumFrom (i + 1) ts from rfl,
      List.cons_append]
    have hstep : group_go tokens ((i, t) :: (List.enumFrom (i + 1) ts ++ rest)) result
        ((⟨ff, fc⟩ : ObjectGroupStackFrame) :: stack) =
        group_go tokens (List.enumFrom (i + 1) ts ++ rest) result
          ((⟨ff, fc⟩ : ObjectGroupStackFrame) :: stack) := by
      rw [group_go.eq_def]
      dsimp only
      rw [hdelim]
      rfl
    rw [hstep]
    have hdrop1 : tokens.drop i = t :: (ts ++ tokens.drop (i + (t :: ts).length)) := by
      rw [hdrop]
      rfl
    obtain ⟨_, hdrop2, _⟩ := drop_cons_facts tokens i t _ hdrop1
    have hdrop3 : tokens.drop (i + 1) = ts ++ tokens.drop (i + 1 + ts.length) := by
      rw [hdrop2]
      have : i + (t :: ts).length = i + 1 + ts.length := by
        rw [List.length_cons]
        omega
      rw [this]
    exact ih (i + 1) hdrop3 rest result ff fc stack
  | grp o mid c ts ho hc _ _ ihmid ihts =>
    intro i hdrop rest result ff fc stack
    rw [List.cons_append] at hdrop
    obtain ⟨hgeto, hdrop1, _⟩ := drop_cons_facts tokens i o _ hdrop
    have hdropmid : tokens.drop (i + 1) =
        mid ++ (c :: (ts ++ tokens.drop (i + (o :: (mid ++ c :: ts)).length))) := by
      rw [hdrop1]
      simp
    have hdropmid2 : tokens.drop (i + 1) =
        mid ++ tokens.drop (i + 1 + mid.length) := by
      rw [hdropmid, drop_append_tail tokens (i + 1) mid _ hdropmid]
    have hdropc : tokens.drop (i + 1 + mid.length) =
        c :: (ts ++ tokens.drop (i + (o :: (mid ++ c :: ts)).length)) :=
      drop_append_tail tokens (i + 1) mid _ hdropmid
    obtain ⟨hgetc, hdropts, _⟩ := drop_cons_facts tokens (i + 1 + mid.length) c _ hdropc
    have hdropts2 : tokens.drop (i + 1 + mid.length + 1) =
        ts ++ tokens.drop (i + 1 + mid.length + 1 + ts.length) := by
      rw [hdropts]
      have : i + (o :: (mid ++ c :: ts)).length =
          i + 1 + mid.length + 1 + ts.length := by
        simp [List.length_cons, List.length_append]
        omega
      rw [this]
    -- enumerate: (i, o) :: enumFrom (i+1) mid ++ (i+1+mid.length, c) :: enumFrom (...) ts
    have henum : List.enumFrom i (o :: (mid ++ c :: ts)) =
        (i, o) :: (List.enumFrom (i + 1) mid ++
          ((i + 1 + mid.length, c) :: List.enumFrom (i + 1 + mid.length + 1) ts)) := by
      rw [show List.enumFrom i (o :: (mid ++ c :: ts)) =
        (i, o) :: List.enumFrom (i + 1) (mid ++ c :: ts) from rfl]
      rw [List.enumFrom_append]
      rfl
    rw [henum, List.cons_append]
    -- step 1: opener pushes a fresh frame
    have hodelim : o.isContainerDelim = true := by
      rw [JsonToken.isContainerOpen, Bool.or_eq_true] at ho
      rw [JsonToken.isContainerDelim]
      rcases ho with h | h <;> simp [h]
    have hoopen : o.isContainerOpen = true := ho
    have hstep1 : group_go tokens ((i, o) :: ((List.enumFrom (i + 1) mid ++
          ((i + 1 + mid.length, c) :: List.enumFrom (i + 1 + mid.length + 1) ts)) ++ rest))
        result ((⟨ff, fc⟩ : ObjectGroupStackFrame) :: stack) =
        group_go tokens ((List.enumFrom (i + 1) mid ++
          ((i + 1 + mid.length, c) :: List.enumFrom (i + 1 + mid.length + 1) ts)) ++ rest)
        result ((⟨i, []⟩ : ObjectGroupStackFrame) ::
          ((⟨ff, fc⟩ : ObjectGroupStackFrame) :: stack)) := by
      rw [group_go.eq_def]
      dsimp only
      rw [hodelim, hoopen]
      rfl
    rw [hstep1, List.append_assoc]
    -- step 2: interior
    obtain ⟨accm, hmid2⟩ := ihmid (i + 1) hdropmid2
      (((i + 1 + mid.length, c) :: List.enumFrom (i + 1 + mid.length + 1) ts) ++ rest)
      result i []
      ((⟨ff, fc⟩ : ObjectGroupStackFrame) :: stack)
    rw [hmid2, List.cons_append]
    -- step 3: the closer pops back and appends the finished span
    have hcdelim : c.isContainerDelim = true :=
      close_delim c (isMatchingClose_isClose c o hc)
    have hcopen : c.isContainerOpen = false :=
      close_not_open c (isMatchingClose_isClose c o hc)
    have hgd : tokens.getD i defaultToken = o := by
      rw [List.getD_eq_getElem?_getD, hgeto]
      rfl
    have hstep3 : group_go tokens ((i + 1 + mid.length, c) ::
          (List.enumFrom (i + 1 + mid.length + 1) ts ++ rest)) result
        ((⟨i, accm⟩ : ObjectGroupStackFrame) ::
          ((⟨ff, fc⟩ : ObjectGroupStackFrame) :: stack)) =
        group_go tokens (List.enumFrom (i + 1 + mid.length + 1) ts ++ rest) result
        ((⟨ff, fc ++ [⟨i, i + 1 + mid.length, ((⟨ff, fc⟩ : ObjectGroupStackFrame) :: stack).length⟩]⟩ : ObjectGroupStackFrame)
          :: stack) := by
      rw [group_go.eq_def]
      dsimp only
      rw [hcdelim, hcopen]
      rw [hgd, hc]
      rfl
    rw [hstep3]
    exact ihts (i + 1 + mid.length + 1) hdropts2 rest result ff
      (fc ++ [⟨i, i + 1 + mid.length, ((⟨ff, fc⟩ : ObjectGroupStackFrame) :: stack).length⟩])
      stack

/-- A token list that is exactly one balanced group is grouped into the
single span covering the whole list at depth 0. -/
theorem group_tokens_single (o c : JsonToken) (mid : List JsonToken)
    (ho : o.isContainerOpen = true) (hc : c.isMatchingClose o = true)
    (hmid : Inner mid) :
    group_tokens_into_full_object_groups (o :: (mid ++ [c])) =
      .ok [⟨0, mid.length + 1, 0⟩] := by
  rw [group_tokens_into_full_object_groups]
  have henum : List.enumFrom 0 (o :: (mid ++ [c])) =
      (0, o) :: (List.enumFrom 1 mid ++ [(1 + mid.length, c)]) := by
    rw [show List.enumFrom 0 (o :: (mid ++ [c])) =
      (0, o) :: List.enumFrom 1 (mid ++ [c]) from rfl]
    rw [List.enumFrom_append]
    rfl
  have hodelim : o.isContainerDelim = true := by
    rw [JsonToken.isContainerOpen, Bool.or_eq_true] at ho
    rw [JsonToken.isContainerDelim]
    rcases ho with h | h <;> simp [h]
  have hstep1 : group_go (o :: (mid ++ [c]))
      ((0, o) :: (List.enumFrom 1 mid ++ [(1 + mid.length, c)])) [] [] =
      group_go (o :: (mid ++ [c])) (List.enumFrom 1 mid ++ [(1 + mid.length, c)]) []
        [(⟨0, []⟩ : ObjectGroupStackFrame)] := by
    rw [group_go.eq_def]
    dsimp only
    rw [hodelim, ho]
    rfl
  have hdropmid : (o :: (mid ++ [c])).drop 1 = mid ++ (o :: (mid ++ [c])).drop (1 + mid.length) := by
    rw [show (o :: (mid ++ [c])).drop 1 = mid ++ [c] from rfl]
    have : (o :: (mid ++ [c])).drop (1 + mid.length) = [c] :=
      drop_append_tail (o :: (mid ++ [c])) 1 mid [c] rfl
    rw [this]
  obtain ⟨accm, hmid2⟩ := group_go_seg (o :: (mid ++ [c])) mid hmid 1 hdropmid
    [(1 + mid.length, c)] [] 0 [] []
  have hcdelim : c.isContainerDelim = true :=
    close_delim c (isMatchingClose_isClose c o hc)
  have hcopen : c.isContainerOpen = false :=
    close_not_open c (isMatchingClose_isClose c o hc)
  have hgd : (o :: (mid ++ [c])).getD 0 defaultToken = o := rfl
  have hstep3 : group_go (o :: (mid ++ [c])) [(1 + mid.length, c)] []
      [(⟨0, accm⟩ : ObjectGroupStackFrame)] =
      .ok ([⟨0, 1 + mid.length, 0⟩], []) := by
    rw [group_go.eq_def]
    dsimp only
    rw [hcdelim, hcopen]
    rw [hgd, hc]
    rfl
  rw [henum, hstep1, hmid2, hstep3]
  rw [show mid.length + 1 = 1 + mid.length from by omega]
  rfl

-- The automaton run over document streams ----------------------------

theorem node_type_mk (nt : NodeType) (k : Option (List Char)) (kp : Option Position)
    (aidx : Option Nat) (sp : Position) (ep : Option Position)
    (ch : List RainbowJsonNode) (v : Option (List Char)) (rd : Option Nat) :
    (RainbowJsonNode.mk nt k kp aidx sp ep ch v rd).node_type = nt := rfl

theorem pushChild_mk (nt : NodeType) (k : Option (List Char)) (kp : Option Position)
    (aidx : Option Nat) (sp : Position) (ep : Option Position)
    (ch : List RainbowJsonNode) (v : Option (List Char)) (rd : Option Nat)
    (c : RainbowJsonNode) :
    (RainbowJsonNode.mk nt k kp aidx sp ep ch v rd).pushChild c =
      .mk nt k kp aidx sp ep (ch ++ [c]) v rd := rfl

theorem afterValueStates_obj :
    afterValueStates NodeType.OBJECT = [PState.expect_comma, PState.expect_object_end] := rfl

theorem afterValueStates_arr :
    afterValueStates NodeType.ARRAY = [PState.expect_comma, PState.expect_array_end] := rfl

theorem cKey_obj (ck : Option (List Char)) : cKey NodeType.OBJECT ck = ck := rfl

theorem cKey_arr (ck : Option (List Char)) : cKey NodeType.ARRAY ck = none := rfl

theorem cKeyPos_obj (ckp : Option Position) : cKeyPos NodeType.OBJECT ckp = ckp := rfl

theorem cKeyPos_arr (ckp : Option Position) : cKeyPos NodeType.ARRAY ckp = none := rfl

theorem cIdx_obj (ai : Nat) : cIdx NodeType.OBJECT ai = none := rfl

theorem cIdx_arr (ai : Nat) : cIdx NodeType.ARRAY ai = some ai := rfl

theorem step_key (s : List Char) (ln pos idx : Nat) (after : List JsonToken)
    (krest : List PState) (node : RainbowJsonNode) (ai : Nat)
    (ck : Option (List Char)) (ckp : Option Position) (stack : List PDAFrame) :
    consume_loop (mkToken TokKind.str s ln pos :: after) idx
      ⟨node, PState.expect_key :: krest, ai, ck, ckp⟩ stack =
    consume_loop after (idx + 1)
      ⟨node, [PState.expect_colon], ai, some s, some ⟨ln, pos⟩⟩ stack := rfl

theorem step_colon (ln pos idx : Nat) (after : List JsonToken)
    (node : RainbowJsonNode) (ai : Nat)
    (ck : Option (List Char)) (ckp : Option Position) (stack : List PDAFrame) :
    consume_loop (mkToken TokKind.punct [':'] ln pos :: after) idx
      ⟨node, [PState.expect_colon], ai, ck, ckp⟩ stack =
    consume_loop after (idx + 1)
      ⟨node, [PState.expect_value], ai, ck, ckp⟩ stack := rfl

theorem step_open_brace (ln pos idx : Nat) (after : List JsonToken)
    (srest : List PState) (node : RainbowJsonNode) (ai : Nat)
    (ck : Option (List Char)) (ckp : Option Position) (stack : List PDAFrame) :
    consume_loop (mkToken TokKind.punct ['{'] ln pos :: after) idx
      ⟨node, PState.expect_value :: srest, ai, ck, ckp⟩ stack =
    consume_loop after (idx + 1)
      ⟨RainbowJsonNode.mk NodeType.OBJECT (cKey node.node_type ck)
          (cKeyPos node.node_type ckp) (cIdx node.node_type ai) ⟨ln, pos⟩ none [] none none,
        [PState.expect_key, PState.expect_object_end], 0, none, none⟩
      (⟨node, afterValueStates node.node_type, ai, ck, ckp⟩ :: stack) := rfl

theorem step_open_bracket (ln pos idx : Nat) (after : List JsonToken)
    (srest : List PState) (node : RainbowJsonNode) (ai : Nat)
    (ck : Option (List Char)) (ckp : Option Position) (stack : List PDAFrame) :
    consume_loop (mkToken TokKind.punct ['['] ln pos :: after) idx
      ⟨node, PState.expect_value :: srest, ai, ck, ckp⟩ stack =
    consume_loop after (idx + 1)
      ⟨RainbowJsonNode.mk NodeType.ARRAY (cKey node.node_type ck)
          (cKeyPos node.node_type ckp) (cIdx node.node_type ai) ⟨ln, pos⟩ none [] none none,
        [PState.expect_value, PState.expect_array_end], 0, none, none⟩
      (⟨node, afterValueStates node.node_type, ai, ck, ckp⟩ :: stack) := rfl

theorem step_comma_obj (ln pos idx : Nat) (after : List JsonToken)
    (k : Option (List Char)) (kp : Option Position) (aidx : Option Nat) (sp : Position)
    (ep : Option Position) (ch : List RainbowJsonNode) (v : Option (List Char))
    (rd : Option Nat) (ai : Nat) (ck : Option (List Char)) (ckp : Option Position)
    (stack : List PDAFrame) :
    consume_loop (mkToken TokKind.punct [','] ln pos :: after) idx
      ⟨RainbowJsonNode.mk NodeType.OBJECT k kp aidx sp ep ch v rd,
        [PState.expect_comma, PState.expect_object_end], ai, ck, ckp⟩ stack =
    consume_loop after (idx + 1)
      ⟨RainbowJsonNode.mk NodeType.OBJECT k kp aidx sp ep ch v rd,
        [PState.expect_key], ai, ck, ckp⟩ stack := rfl

theorem step_comma_arr (ln pos idx : Nat) (after : List JsonToken)
    (k : Option (List Char)) (kp : Option Position) (aidx : Option Nat) (sp : Position)
    (ep : Option Position) (ch : List RainbowJsonNode) (v : Option (List Char))
    (rd : Option Nat) (ai : Nat) (ck : Option (List Char)) (ckp : Option Position)
    (stack : List PDAFrame) :
    consume_loop (mkToken TokKind.punct [','] ln pos :: after) idx
      ⟨RainbowJsonNode.mk NodeType.ARRAY k kp aidx sp ep ch v rd,
        [PState.expect_comma, PState.expect_array_end], ai, ck, ckp⟩ stack =
    consume_loop after (idx + 1)
      ⟨RainbowJsonNode.mk NodeType.ARRAY k kp aidx sp ep ch v rd,
        [PState.expect_value], ai + 1, ck, ckp⟩ stack := rfl

theorem step_close_brace_key (ln pos idx : Nat) (after : List JsonToken)
    (k : Option (List Char)) (kp : Option Position) (aidx : Option Nat) (sp : Position)
    (ch : List RainbowJsonNode) (v : Option (List Char)) (rd : Option Nat)
    (ai : Nat) (ck : Option (List Char)) (ckp : Option Position)
    (parent : PDAFrame) (stack : List PDAFrame) :
    consume_loop (mkToken TokKind.punct ['}'] ln pos :: after) idx
      ⟨RainbowJsonNode.mk NodeType.OBJECT k kp aidx sp none ch v rd,
        [PState.expect_key, PState.expect_object_end], ai, ck, ckp⟩ (parent :: stack) =
    consume_loop after (idx + 1)
      ⟨parent.node.pushChild
          (RainbowJsonNode.mk NodeType.OBJECT k kp aidx sp (some ⟨ln, pos⟩) ch v rd),
        parent.current_nfa_states, parent.current_array_index, parent.current_key,
        parent.current_key_position⟩ stack := rfl

theorem step_close_brace_comma (ln pos idx : Nat) (after : List JsonToken)
    (k : Option (List Char)) (kp : Option Position) (aidx : Option Nat) (sp : Position)
    (ch : List RainbowJsonNode) (v : Option (List Char)) (rd : Option Nat)
    (ai : Nat) (ck : Option (List Char)) (ckp : Option Position)
    (parent : PDAFrame) (stack : List PDAFrame) :
    consume_loop (mkToken TokKind.punct ['}'] ln pos :: after) idx
      ⟨RainbowJsonNode.mk NodeType.OBJECT k kp aidx sp none ch v rd,
        [PState.expect_comma, PState.expect_object_end], ai, ck, ckp⟩ (parent :: stack) =
    consume_loop after (idx + 1)
      ⟨parent.node.pushChild
          (RainbowJsonNode.mk NodeType.OBJECT k kp aidx sp (some ⟨ln, pos⟩) ch v rd),
        parent.current_nfa_states, parent.current_array_index, parent.current_key,
        parent.current_key_position⟩ stack := rfl

theorem step_close_bracket_value (ln pos idx : Nat) (after : List JsonToken)
    (k : Option (List Char)) (kp : Option Position) (aidx : Option Nat) (sp : Position)
    (ch : List RainbowJsonNode) (v : Option (List Char)) (rd : Option Nat)
    (ai : Nat) (ck : Option (List Char)) (ckp : Option Position)
    (parent : PDAFrame) (stack : List PDAFrame) :
    consume_loop (mkToken TokKind.punct [']'] ln pos :: after) idx
      ⟨RainbowJsonNode.mk NodeType.ARRAY k kp aidx sp none ch v rd,
        [PState.expect_value, PState.expect_array_end], ai, ck, ckp⟩ (parent :: stack) =
    consume_loop after (idx + 1)
      ⟨parent.node.pushChild
          (RainbowJsonNode.mk NodeType.ARRAY k kp aidx sp (some ⟨ln, pos⟩) ch v rd),
        parent.current_nfa_states, parent.current_array_index, parent.current_key,
        parent.current_key_position⟩ stack := rfl

theorem step_close_bracket_comma (ln pos idx : Nat) (after : List JsonToken)
    (k : Option (List Char)) (kp : Option Position) (aidx : Option Nat) (sp : Position)
    (ch : List RainbowJsonNode) (v : Option (List Char)) (rd : Option Nat)
    (ai : Nat) (ck : Option (List Char)) (ckp : Option Position)
    (parent : PDAFrame) (stack : List PDAFrame) :
    consume_loop (mkToken TokKind.punct [']'] ln pos :: after) idx
      ⟨RainbowJsonNode.mk NodeType.ARRAY k kp aidx sp none ch v rd,
        [PState.expect_comma, PState.expect_array_end], ai, ck, ckp⟩ (parent :: stack) =
    consume_loop after (idx + 1)
      ⟨parent.node.pushChild
          (RainbowJsonNode.mk NodeType.ARRAY k kp aidx sp (some ⟨ln, pos⟩) ch v rd),
        parent.current_nfa_states, parent.current_array_index, parent.current_key,
        parent.current_key_position⟩ stack := rfl

theorem step_close_brace_key_root (ln pos idx : Nat) (after : List JsonToken)
    (k : Option (List Char)) (kp : Option Position) (aidx : Option Nat) (sp : Position)
    (ch : List RainbowJsonNode) (v : Option (List Char)) (rd : Option Nat)
    (ai : Nat) (ck : Option (List Char)) (ckp : Option Position) :
    consume_loop (mkToken TokKind.punct ['}'] ln pos :: after) idx
      ⟨RainbowJsonNode.mk NodeType.OBJECT k kp aidx sp none ch v rd,
        [PState.expect_key, PState.expect_object_end], ai, ck, ckp⟩ [] =
    .ok (RainbowJsonNode.mk NodeType.OBJECT k kp aidx sp (some ⟨ln, pos⟩) ch v rd,
      idx + 1) := rfl

theorem step_close_brace_comma_root (ln pos idx : Nat) (after : List JsonToken)
    (k : Option (List Char)) (kp : Option Position) (aidx : Option Nat) (sp : Position)
    (ch : List RainbowJsonNode) (v : Option (List Char)) (rd : Option Nat)
    (ai : Nat) (ck : Option (List Char)) (ckp : Option Position) :
    consume_loop (mkToken TokKind.punct ['}'] ln pos :: after) idx
      ⟨RainbowJsonNode.mk NodeType.OBJECT k kp aidx sp none ch v rd,
        [PState.expect_comma, PState.expect_object_end], ai, ck, ckp⟩ [] =
    .ok (RainbowJsonNode.mk NodeType.OBJECT k kp aidx sp (some ⟨ln, pos⟩) ch v rd,
      idx + 1) := rfl

theorem step_close_bracket_value_root (ln pos idx : Nat) (after : List JsonToken)
    (k : Option (List Char)) (kp : Option Position) (aidx : Option Nat) (sp : Position)
    (ch : List RainbowJsonNode) (v : Option (List Char)) (rd : Option Nat)
    (ai : Nat) (ck : Option (List Char)) (ckp : Option Position) :
    consume_loop (mkToken TokKind.punct [']'] ln pos :: after) idx
      ⟨RainbowJsonNode.mk NodeType.ARRAY k kp aidx sp none ch v rd,
        [PState.expect_value, PState.expect_array_end], ai, ck, ckp⟩ [] =
    .ok (RainbowJsonNode.mk NodeType.ARRAY k kp aidx sp (some ⟨ln, pos⟩) ch v rd,
      idx + 1) := rfl

theorem step_close_bracket_comma_root (ln pos idx : Nat) (after : List JsonToken)
    (k : Option (List Char)) (kp : Option Position) (aidx : Option Nat) (sp : Position)
    (ch : List RainbowJsonNode) (v : Option (List Char)) (rd : Option Nat)
    (ai : Nat) (ck : Option (List Char)) (ckp : Option Position) :
    consume_loop (mkToken TokKind.punct [']'] ln pos :: after) idx
      ⟨RainbowJsonNode.mk NodeType.ARRAY k kp aidx sp none ch v rd,
        [PState.expect_comma, PState.expect_array_end], ai, ck, ckp⟩ [] =
    .ok (RainbowJsonNode.mk NodeType.ARRAY k kp aidx sp (some ⟨ln, pos⟩) ch v rd,
      idx + 1) := rfl

theorem emitToks_entries_last (k : List StrItem) (v : JVal) (ln pos : Nat) :
    emitToks ln (entriesTexts (.econs k v .enil)) pos =
      mkToken TokKind.str (keyText k) ln pos ::
      mkToken TokKind.punct [':'] ln (pos + (keyText k).length) ::
      emitToks ln (valTexts v) (pos + (keyText k).length + 1) := by
  rw [show entriesTexts (JEntries.econs k v JEntries.enil) =
    (TokKind.str, keyText k) :: ((TokKind.punct, [':']) :: valTexts v) from by
      simp [entriesTexts]]
  rw [emitToks, emitToks, show ([':'] : List Char).length = 1 from rfl]

theorem emitToks_entries_more (k : List StrItem) (v : JVal) (k2 : List StrItem)
    (v2 : JVal) (r2 : JEntries) (ln pos : Nat) :
    emitToks ln (entriesTexts (.econs k v (.econs k2 v2 r2))) pos =
      mkToken TokKind.str (keyText k) ln pos ::
      mkToken TokKind.punct [':'] ln (pos + (keyText k).length) ::
      (emitToks ln (valTexts v) (pos + (keyText k).length + 1) ++
       (mkToken TokKind.punct [','] ln
          (pos + (keyText k).length + 1 + (catTexts (valTexts v)).length) ::
        emitToks ln (entriesTexts (.econs k2 v2 r2))
          (pos + (keyText k).length + 1 + (catTexts (valTexts v)).length + 1))) := by
  rw [show entriesTexts (JEntries.econs k v (JEntries.econs k2 v2 r2)) =
    (TokKind.str, keyText k) :: ((TokKind.punct, [':']) ::
      ((valTexts v ++ [(TokKind.punct, [','])]) ++
        entriesTexts (JEntries.econs k2 v2 r2))) from by simp [entriesTexts]]
  rw [emitToks, emitToks, emitToks_append, emitToks_append]
  rw [catTexts_append, List.length_append,
    show ([':'] : List Char).length = 1 from rfl,
    show (catTexts [(TokKind.punct, [','])]).length = 1 from rfl]
  simp only [List.append_assoc]
  rfl

theorem emitToks_elems_last (v : JVal) (ln pos : Nat) :
    emitToks ln (elemsTexts (.acons v .anil)) pos = emitToks ln (valTexts v) pos := by
  rw [show elemsTexts (JElems.acons v JElems.anil) = valTexts v from by
    simp [elemsTexts]]

theorem emitToks_elems_more (v v2 : JVal) (r2 : JElems) (ln pos : Nat) :
    emitToks ln (elemsTexts (.acons v (.acons v2 r2))) pos =
      emitToks ln (valTexts v) pos ++
      (mkToken TokKind.punct [','] ln (pos + (catTexts (valTexts v)).length) ::
       emitToks ln (elemsTexts (.acons v2 r2))
         (pos + (catTexts (valTexts v)).length + 1)) := by
  rw [show elemsTexts (JElems.acons v (JElems.acons v2 r2)) =
    (valTexts v ++ [(TokKind.punct, [','])]) ++
      elemsTexts (JElems.acons v2 r2) from by simp [elemsTexts]]
  rw [emitToks_append, emitToks_append]
  rw [catTexts_append, List.length_append,
    show (catTexts [(TokKind.punct, [','])]).length = 1 from rfl]
  simp only [List.append_assoc]
  rfl

mutual

theorem run_val : ∀ (v : JVal), wfVal v = true →
    ∀ (ln pos : Nat) (after : List JsonToken) (idx : Nat) (srest : List PState)
      (node : RainbowJsonNode) (ai : Nat) (ck : Option (List Char))
      (ckp : Option Position) (stack : List PDAFrame),
      consume_loop (emitToks ln (valTexts v) pos ++ after) idx
        ⟨node, PState.expect_value :: srest, ai, ck, ckp⟩ stack =
      consume_loop after (idx + (valTexts v).length)
        ⟨node.pushChild (valNode v ln pos (cKey node.node_type ck)
            (cKeyPos node.node_type ckp) (cIdx node.node_type ai)),
          afterValueStates node.node_type, ai, ck, ckp⟩ stack
  | .jstr items, _, ln, pos, after, idx, srest, node, ai, ck, ckp, stack => rfl
  | .jnum nl, _, ln, pos, after, idx, srest, node, ai, ck, ckp, stack => rfl
  | .jtrue, _, ln, pos, after, idx, srest, node, ai, ck, ckp, stack => rfl
  | .jfalse, _, ln, pos, after, idx, srest, node, ai, ck, ckp, stack => rfl
  | .jnull, _, ln, pos, after, idx, srest, node, ai, ck, ckp, stack => rfl
  | .jobj es, hwf, ln, pos, after, idx, srest, node, ai, ck, ckp, stack => by
    rw [wfVal] at hwf
    rw [emitToks_obj es ln pos, List.cons_append, step_open_brace,
      List.append_assoc, List.singleton_append]
    obtain ⟨ck2, ckp2, hrun⟩ := run_entries es hwf ln (pos + 1)
      (mkToken TokKind.punct ['}'] ln
        (pos + 1 + (catTexts (entriesTexts es)).length) :: after)
      (idx + 1) [PState.expect_object_end]
      (cKey node.node_type ck) (cKeyPos node.node_type ckp) (cIdx node.node_type ai)
      ⟨ln, pos⟩ [] 0 none none
      (⟨node, afterValueStates node.node_type, ai, ck, ckp⟩ :: stack)
    rw [hrun]
    cases es with
    | enil =>
      rw [show entriesOutStates JEntries.enil [PState.expect_object_end] =
        [PState.expect_key, PState.expect_object_end] from rfl]
      rw [step_close_brace_key]
      rfl
    | econs k1 v1 r1 =>
      rw [show entriesOutStates (JEntries.econs k1 v1 r1) [PState.expect_object_end] =
        [PState.expect_comma, PState.expect_object_end] from rfl]
      rw [step_close_brace_comma]
      have hidx : idx + (valTexts (JVal.jobj (JEntries.econs k1 v1 r1))).length =
          idx + 1 + (entriesTexts (JEntries.econs k1 v1 r1)).length + 1 := by
        simp [valTexts]
        omega
      rw [hidx]
      rfl
  | .jarr vs, hwf, ln, pos, after, idx, srest, node, ai, ck, ckp, stack => by
    rw [wfVal] at hwf
    rw [emitToks_arr vs ln pos, List.cons_append, step_open_bracket,
      List.append_assoc, List.singleton_append]
    obtain ⟨ai2, hrun⟩ := run_elems vs hwf ln (pos + 1)
      (mkToken TokKind.punct [']'] ln
        (pos + 1 + (catTexts (elemsTexts vs)).length) :: after)
      (idx + 1) [PState.expect_array_end]
      (cKey node.node_type ck) (cKeyPos node.node_type ckp) (cIdx node.node_type ai)
      ⟨ln, pos⟩ [] 0 none none
      (⟨node, afterValueStates node.node_type, ai, ck, ckp⟩ :: stack)
    rw [hrun]
    cases vs with
    | anil =>
      rw [show elemsOutStates JElems.anil [PState.expect_array_end] =
        [PState.expect_value, PState.expect_array_end] from rfl]
      rw [step_close_bracket_value]
      rfl
    | acons v1 r1 =>
      rw [show elemsOutStates (JElems.acons v1 r1) [PState.expect_array_end] =
        [PState.expect_comma, PState.expect_array_end] from rfl]
      rw [step_close_bracket_comma]
      have hidx : idx + (valTexts (JVal.jarr (JElems.acons v1 r1))).length =
          idx + 1 + (elemsTexts (JElems.acons v1 r1)).length + 1 := by
        simp [valTexts]
        omega
      rw [hidx]
      rfl

theorem run_entries : ∀ (es : JEntries), wfEntries es = true →
    ∀ (ln pos : Nat) (after : List JsonToken) (idx : Nat) (krest : List PState)
      (k : Option (List Char)) (kp : Option Position) (aidx : Option Nat)
      (sp : Position) (ch : List RainbowJsonNode) (ai : Nat)
      (ck : Option (List Char)) (ckp : Option Position) (stack : List PDAFrame),
      ∃ ck2 ckp2,
        consume_loop (emitToks ln (entriesTexts es) pos ++ after) idx
          ⟨.mk NodeType.OBJECT k kp aidx sp none ch none none,
            PState.expect_key :: krest, ai, ck, ckp⟩ stack =
        consume_loop after (idx + (entriesTexts es).length)
          ⟨.mk NodeType.OBJECT k kp aidx sp none (ch ++ entriesNodes es ln pos) none none,
            entriesOutStates es krest, ai, ck2, ckp2⟩ stack
  | .enil, _, ln, pos, after, idx, krest, k, kp, aidx, sp, ch, ai, ck, ckp, stack =>
    ⟨ck, ckp, by
      rw [show entriesNodes JEntries.enil ln pos = [] from rfl, List.append_nil]
      rfl⟩
  | .econs kk v rest, hwf, ln, pos, after, idx, krest, k, kp, aidx, sp, ch, ai,
      ck, ckp, stack => by
    rw [wfEntries, Bool.and_eq_true, Bool.and_eq_true] at hwf
    obtain ⟨⟨_, hv⟩, hrest⟩ := hwf
    cases rest with
    | enil =>
      refine ⟨some (keyText kk), some ⟨ln, pos⟩, ?_⟩
      rw [emitToks_entries_last, List.cons_append, List.cons_append, step_key,
        step_colon, run_val v hv]
      simp only [node_type_mk, cKey_obj, cKeyPos_obj, cIdx_obj,
        afterValueStates_obj, pushChild_mk]
      have hidx : idx + (entriesTexts (JEntries.econs kk v JEntries.enil)).length =
          idx + 1 + 1 + (valTexts v).length := by
        simp [entriesTexts]
        omega
      rw [hidx]
      rw [show entriesNodes (JEntries.econs kk v JEntries.enil) ln pos =
        [valNode v ln (pos + (keyText kk).length + 1) (some (keyText kk))
          (some ⟨ln, pos⟩) none] from by simp [entriesNodes]]
      rw [show entriesOutStates (JEntries.econs kk v JEntries.enil) krest =
        [PState.expect_comma, PState.expect_object_end] from rfl]
    | econs kk2 v2 r2 =>
      obtain ⟨ck2, ckp2, hih⟩ := run_entries (JEntries.econs kk2 v2 r2) hrest ln
        (pos + (keyText kk).length + 1 + (catTexts (valTexts v)).length + 1) after
        (idx + 1 + 1 + (valTexts v).length + 1) []
        k kp aidx sp
        (ch ++ [valNode v ln (pos + (keyText kk).length + 1)
          (some (keyText kk)) (some ⟨ln, pos⟩) none]) ai (some (keyText kk))
        (some ⟨ln, pos⟩) stack
      refine ⟨ck2, ckp2, ?_⟩
      rw [emitToks_entries_more, List.cons_append, List.cons_append, step_key,
        step_colon, List.append_assoc, List.cons_append, run_val v hv]
      simp only [node_type_mk, cKey_obj, cKeyPos_obj, cIdx_obj,
        afterValueStates_obj, pushChild_mk]
      rw [step_comma_obj, hih]
      have hidx : idx +
          (entriesTexts (JEntries.econs kk v (JEntries.econs kk2 v2 r2))).length =
          idx + 1 + 1 + (valTexts v).length + 1 +
            (entriesTexts (JEntries.econs kk2 v2 r2)).length := by
        simp [entriesTexts]
        omega
      rw [hidx]
      rw [show entriesOutStates (JEntries.econs kk v (JEntries.econs kk2 v2 r2)) krest =
        [PState.expect_comma, PState.expect_object_end] from rfl]
      rw [show entriesOutStates (JEntries.econs kk2 v2 r2) [] =
        [PState.expect_comma, PState.expect_object_end] from rfl]
      rw [show entriesNodes (JEntries.econs kk v (JEntries.econs kk2 v2 r2)) ln pos =
        valNode v ln (pos + (keyText kk).length + 1) (some (keyText kk))
          (some ⟨ln, pos⟩) none ::
        entriesNodes (JEntries.econs kk2 v2 r2) ln
          (pos + (keyText kk).length + 1 + (catTexts (valTexts v)).length + 1)
        from by simp [entriesNodes]]
      simp only [List.append_assoc, List.append_nil, List.nil_append,
        List.cons_append, List.singleton_append]

theorem run_elems : ∀ (vs : JElems), wfElems vs = true →
    ∀ (ln pos : Nat) (after : List JsonToken) (idx : Nat) (vrest : List PState)
      (k : Option (List Char)) (kp : Option Position) (aidx : Option Nat)
      (sp : Position) (ch : List RainbowJsonNode) (ai : Nat)
      (ck : Option (List Char)) (ckp : Option Position) (stack : List PDAFrame),
      ∃ ai2,
        consume_loop (emitToks ln (elemsTexts vs) pos ++ after) idx
          ⟨.mk NodeType.ARRAY k kp aidx sp none ch none none,
            PState.expect_value :: vrest, ai, ck, ckp⟩ stack =
        consume_loop after (idx + (elemsTexts vs).length)
          ⟨.mk NodeType.ARRAY k kp aidx sp none (ch ++ elemsNodes vs ln pos ai) none none,
            elemsOutStates vs vrest, ai2, ck, ckp⟩ stack
  | .anil, _, ln, pos, after, idx, vrest, k, kp, aidx, sp, ch, ai, ck, ckp, stack =>
    ⟨ai, by
      rw [show elemsNodes JElems.anil ln pos ai = [] from rfl, List.append_nil]
      rfl⟩
  | .acons v rest, hwf, ln, pos, after, idx, vrest, k, kp, aidx, sp, ch, ai,
      ck, ckp, stack => by
    rw [wfElems, Bool.and_eq_true] at hwf
    obtain ⟨hv, hrest⟩ := hwf
    cases rest with
    | anil =>
      refine ⟨ai, ?_⟩
      rw [emitToks_elems_last, run_val v hv]
      simp only [node_type_mk, cKey_arr, cKeyPos_arr, cIdx_arr,
        afterValueStates_arr, pushChild_mk]
      have hidx : idx + (elemsTexts (JElems.acons v JElems.anil)).length =
          idx + (valTexts v).length := by
        simp [elemsTexts]
      rw [hidx]
      rw [show elemsNodes (JElems.acons v JElems.anil) ln pos ai =
        [valNode v ln pos none none (some ai)] from by simp [elemsNodes]]
      rw [show elemsOutStates (JElems.acons v JElems.anil) vrest =
        [PState.expect_comma, PState.expect_array_end] from rfl]
    | acons v2 r2 =>
      obtain ⟨ai2, hih⟩ := run_elems (JElems.acons v2 r2) hrest ln
        (pos + (catTexts (valTexts v)).length + 1) after
        (idx + (valTexts v).length + 1) []
        k kp aidx sp (ch ++ [valNode v ln pos none none (some ai)]) (ai + 1)
        ck ckp stack
      refine ⟨ai2, ?_⟩
      rw [emitToks_elems_more, List.append_assoc, List.cons_append, run_val v hv]
      simp only [node_type_mk, cKey_arr, cKeyPos_arr, cIdx_arr,
        afterValueStates_arr, pushChild_mk]
      rw [step_comma_arr, hih]
      have hidx : idx + (elemsTexts (JElems.acons v (JElems.acons v2 r2))).length =
          idx + (valTexts v).length + 1 +
            (elemsTexts (JElems.acons v2 r2)).length := by
        simp [elemsTexts]
        omega
      rw [hidx]
      rw [show elemsOutStates (JElems.acons v (JElems.acons v2 r2)) vrest =
        [PState.expect_comma, PState.expect_array_end] from rfl]
      rw [show elemsOutStates (JElems.acons v2 r2) [] =
        [PState.expect_comma, PState.expect_array_end] from rfl]
      rw [show elemsNodes (JElems.acons v (JElems.acons v2 r2)) ln pos ai =
        valNode v ln pos none none (some ai) ::
        elemsNodes (JElems.acons v2 r2) ln
          (pos + (catTexts (valTexts v)).length + 1) (ai + 1)
        from by simp [elemsNodes]]
      simp only [List.append_assoc, List.append_nil, List.nil_append,
        List.cons_append, List.singleton_append]

end

/-- `consume_json_record` on the token stream of a container document
consumes every token and returns the expected tree. -/
theorem consume_doc (d : JVal) (hwf : wfVal d = true) (hc : isContainer d = true)
    (ln : Nat) :
    consume_json_record (emitToks ln (valTexts d) 0) 0 =
      .ok (some (valNode d ln 0 none none none), (valTexts d).length) := by
  cases d with
  | jstr items => exact Bool.noConfusion hc
  | jnum nl => exact Bool.noConfusion hc
  | jtrue => exact Bool.noConfusion hc
  | jfalse => exact Bool.noConfusion hc
  | jnull => exact Bool.noConfusion hc
  | jobj es =>
    rw [wfVal] at hwf
    obtain ⟨ck2, ckp2, hrun⟩ := run_entries es hwf ln (0 + 1)
      [mkToken TokKind.punct ['}'] ln (0 + 1 + (catTexts (entriesTexts es)).length)]
      (0 + 1) [PState.expect_object_end] none none none ⟨ln, 0⟩ [] 0 none none []
    have hfinal : consume_loop
        (emitToks ln (entriesTexts es) (0 + 1) ++
          [mkToken TokKind.punct ['}'] ln
            (0 + 1 + (catTexts (entriesTexts es)).length)]) (0 + 1)
        ⟨.mk NodeType.OBJECT none none none ⟨ln, 0⟩ none [] none none,
          [PState.expect_key, PState.expect_object_end], 0, none, none⟩ [] =
        .ok (valNode (JVal.jobj es) ln 0 none none none,
          (valTexts (JVal.jobj es)).length) := by
      rw [hrun]
      cases es with
      | enil =>
        rw [show entriesOutStates JEntries.enil [PState.expect_object_end] =
          [PState.expect_key, PState.expect_object_end] from rfl]
        rw [step_close_brace_key_root]
        rfl
      | econs k1 v1 r1 =>
        rw [show entriesOutStates (JEntries.econs k1 v1 r1) [PState.expect_object_end] =
          [PState.expect_comma, PState.expect_object_end] from rfl]
        rw [step_close_brace_comma_root]
        have hidx : (valTexts (JVal.jobj (JEntries.econs k1 v1 r1))).length =
            0 + 1 + (entriesTexts (JEntries.econs k1 v1 r1)).length + 1 := by
          simp [valTexts]
          omega
        rw [hidx]
        rfl
    rw [emitToks_obj es ln 0]
    have h0 : consume_json_record
        (mkToken TokKind.punct ['{'] ln 0 ::
          (emitToks ln (entriesTexts es) (0 + 1) ++
           [mkToken TokKind.punct ['}'] ln
             (0 + 1 + (catTexts (entriesTexts es)).length)])) 0 =
        (match consume_loop
            (emitToks ln (entriesTexts es) (0 + 1) ++
              [mkToken TokKind.punct ['}'] ln
                (0 + 1 + (catTexts (entriesTexts es)).length)]) (0 + 1)
            ⟨.mk NodeType.OBJECT none none none ⟨ln, 0⟩ none [] none none,
              [PState.expect_key, PState.expect_object_end], 0, none, none⟩ [] with
          | .ok (r, i) => Except.ok (some r, i)
          | .error e => Except.error e) := by
      rw [consume_json_record]
      rw [dif_pos (by simp)]
      rfl
    rw [h0, hfinal]
  | jarr vs =>
    rw [wfVal] at hwf
    obtain ⟨ai2, hrun⟩ := run_elems vs hwf ln (0 + 1)
      [mkToken TokKind.punct [']'] ln (0 + 1 + (catTexts (elemsTexts vs)).length)]
      (0 + 1) [PState.expect_array_end] none none none ⟨ln, 0⟩ [] 0 none none []
    have hfinal : consume_loop
        (emitToks ln (elemsTexts vs) (0 + 1) ++
          [mkToken TokKind.punct [']'] ln
            (0 + 1 + (catTexts (elemsTexts vs)).length)]) (0 + 1)
        ⟨.mk NodeType.ARRAY none none none ⟨ln, 0⟩ none [] none none,
          [PState.expect_value, PState.expect_array_end], 0, none, none⟩ [] =
        .ok (valNode (JVal.jarr vs) ln 0 none none none,
          (valTexts (JVal.jarr vs)).length) := by
      rw [hrun]
      cases vs with
      | anil =>
        rw [show elemsOutStates JElems.anil [PState.expect_array_end] =
          [PState.expect_value, PState.expect_array_end] from rfl]
        rw [step_close_bracket_value_root]
        rfl
      | acons v1 r1 =>
        rw [show elemsOutStates (JElems.acons v1 r1) [PState.expect_array_end] =
          [PState.expect_comma, PState.expect_array_end] from rfl]
        rw [step_close_bracket_comma_root]
        have hidx : (valTexts (JVal.jarr (JElems.acons v1 r1))).length =
            0 + 1 + (elemsTexts (JElems.acons v1 r1)).length + 1 := by
          simp [valTexts]
          omega
        rw [hidx]
        rfl
    rw [emitToks_arr vs ln 0]
    have h0 : consume_json_record
        (mkToken TokKind.punct ['['] ln 0 ::
          (emitToks ln (elemsTexts vs) (0 + 1) ++
           [mkToken TokKind.punct [']'] ln
             (0 + 1 + (catTexts (elemsTexts vs)).length)])) 0 =
        (match consume_loop
            (emitToks ln (elemsTexts vs) (0 + 1) ++
              [mkToken TokKind.punct [']'] ln
                (0 + 1 + (catTexts (elemsTexts vs)).length)]) (0 + 1)
            ⟨.mk NodeType.ARRAY none none none ⟨ln, 0⟩ none [] none none,
              [PState.expect_value, PState.expect_array_end], 0, none, none⟩ [] with
          | .ok (r, i) => Except.ok (some r, i)
          | .error e => Except.error e) := by
      rw [consume_json_record]
      rw [dif_pos (by simp)]
      rfl
    rw [h0, hfinal]

-- Round trip: rebuilding the text from the parsed tree ----------------

theorem valNode_parent_key (v : JVal) (ln pos : Nat) (key : Option (List Char))
    (kpos : Option Position) (aidx : Option Nat) :
    (valNode v ln pos key kpos aidx).parent_key = key := by
  cases v <;> rfl

theorem valNode_parent_array_index (v : JVal) (ln pos : Nat)
    (key : Option (List Char)) (kpos : Option Position) (aidx : Option Nat) :
    (valNode v ln pos key kpos aidx).parent_array_index = aidx := by
  cases v <;> rfl

theorem unparse_withRelativeDepth (r : RainbowJsonNode) (d : Nat) :
    unparse (r.withRelativeDepth d) = unparse r := by
  obtain ⟨nt, pk, pkp, pai, sp, ep, ch, v, rd⟩ := r
  cases nt <;> rfl

theorem unparseEntries_cons (c : RainbowJsonNode) (cs : List RainbowJsonNode) :
    unparseEntries (c :: cs) =
      (match c.parent_key, unparse c, unparseEntries cs with
       | some k, some s, some srest =>
         some (k ++ [':'] ++ s ++ (match cs with | [] => [] | _ :: _ => [',']) ++ srest)
       | _, _, _ => none) := rfl

theorem unparseElems_cons (c : RainbowJsonNode) (cs : List RainbowJsonNode) (i : Nat) :
    unparseElems (c :: cs) i =
      (if c.parent_array_index = some i then
        match unparse c, unparseElems cs (i + 1) with
        | some s, some srest =>
          some (s ++ (match cs with | [] => [] | _ :: _ => [',']) ++ srest)
        | _, _ => none
      else none) := rfl

mutual

theorem unparse_val : ∀ (v : JVal), wfVal v = true →
    ∀ (ln pos : Nat) (key : Option (List Char)) (kpos : Option Position)
      (aidx : Option Nat),
      unparse (valNode v ln pos key kpos aidx) = some (renderVal v)
  | .jstr items, _, ln, pos, key, kpos, aidx => by
    rw [show renderVal (JVal.jstr items) = '"' :: (bodyChars items ++ ['"'])
      from by simp [renderVal, valTexts, catTexts]]
    rfl
  | .jnum nl, _, ln, pos, key, kpos, aidx => by
    rw [show renderVal (JVal.jnum nl) = renderNum nl
      from by simp [renderVal, valTexts, catTexts]]
    rfl
  | .jtrue, _, ln, pos, key, kpos, aidx => by
    rw [show renderVal JVal.jtrue = "true".toList
      from by simp [renderVal, valTexts, catTexts]]
    rfl
  | .jfalse, _, ln, pos, key, kpos, aidx => by
    rw [show renderVal JVal.jfalse = "false".toList
      from by simp [renderVal, valTexts, catTexts]]
    rfl
  | .jnull, _, ln, pos, key, kpos, aidx => by
    rw [show renderVal JVal.jnull = "null".toList
      from by simp [renderVal, valTexts, catTexts]]
    rfl
  | .jobj es, hwf, ln, pos, key, kpos, aidx => by
    rw [wfVal] at hwf
    rw [show unparse (valNode (JVal.jobj es) ln pos key kpos aidx) =
      (match unparseEntries (entriesNodes es ln (pos + 1)) with
       | some s => some ('{' :: (s ++ ['}']))
       | none => none) from rfl]
    rw [unparse_entries es hwf ln (pos + 1)]
    rw [show renderVal (JVal.jobj es) =
      '{' :: (catTexts (entriesTexts es ++ [(TokKind.punct, ['}'])]))
      from by simp [renderVal, valTexts, catTexts]]
    rw [catTexts_append]
    rfl
  | .jarr vs, hwf, ln, pos, key, kpos, aidx => by
    rw [wfVal] at hwf
    rw [show unparse (valNode (JVal.jarr vs) ln pos key kpos aidx) =
      (match unparseElems (elemsNodes vs ln (pos + 1) 0) 0 with
       | some s => some ('[' :: (s ++ [']']))
       | none => none) from rfl]
    rw [unparse_elems vs hwf ln (pos + 1) 0]
    rw [show renderVal (JVal.jarr vs) =
      '[' :: (catTexts (elemsTexts vs ++ [(TokKind.punct, [']'])]))
      from by simp [renderVal, valTexts, catTexts]]
    rw [catTexts_append]
    rfl

theorem unparse_entries : ∀ (es : JEntries), wfEntries es = true →
    ∀ (ln pos : Nat),
      unparseEntries (entriesNodes es ln pos) = some (catTexts (entriesTexts es))
  | .enil, _, _, _ => rfl
  | .econs k v rest, hwf, ln, pos => by
    rw [wfEntries, Bool.and_eq_true, Bool.and_eq_true] at hwf
    obtain ⟨⟨_, hv⟩, hrest⟩ := hwf
    cases rest with
    | enil =>
      rw [show entriesNodes (JEntries.econs k v JEntries.enil) ln pos =
        [valNode v ln (pos + (keyText k).length + 1) (some (keyText k))
          (some ⟨ln, pos⟩) none] from by simp [entriesNodes]]
      rw [unparseEntries_cons]
      rw [valNode_parent_key, unparse_val v hv]
      rw [show unparseEntries [] = some [] from rfl]
      dsimp only
      rw [show catTexts (entriesTexts (JEntries.econs k v JEntries.enil)) =
        keyText k ++ ([':'] ++ (renderVal v ++ []))
        from by simp [entriesTexts, catTexts, catTexts_append, renderVal]]
      simp
    | econs k2 v2 r2 =>
      rw [show entriesNodes (JEntries.econs k v (JEntries.econs k2 v2 r2)) ln pos =
        valNode v ln (pos + (keyText k).length + 1) (some (keyText k))
          (some ⟨ln, pos⟩) none ::
        entriesNodes (JEntries.econs k2 v2 r2) ln
          (pos + (keyText k).length + 1 + (catTexts (valTexts v)).length + 1)
        from by simp [entriesNodes]]
      rw [unparseEntries_cons]
      rw [valNode_parent_key, unparse_val v hv,
        unparse_entries (JEntries.econs k2 v2 r2) hrest ln
          (pos + (keyText k).length + 1 + (catTexts (valTexts v)).length + 1)]
      dsimp only
      rw [show entriesNodes (JEntries.econs k2 v2 r2) ln
          (pos + (keyText k).length + 1 + (catTexts (valTexts v)).length + 1) =
        valNode v2 ln (pos + (keyText k).length + 1 + (catTexts (valTexts v)).length +
            1 + (keyText k2).length + 1) (some (keyText k2))
          (some ⟨ln, pos + (keyText k).length + 1 + (catTexts (valTexts v)).length + 1⟩)
          none ::
        entriesNodes r2 ln (pos + (keyText k).length + 1 +
          (catTexts (valTexts v)).length + 1 + (keyText k2).length + 1 +
          (catTexts (valTexts v2)).length +
          (match r2 with | .enil => 0 | .econs _ _ _ => 1))
        from by cases r2 <;> simp [entriesNodes]]
      rw [show catTexts (entriesTexts (JEntries.econs k v (JEntries.econs k2 v2 r2))) =
        keyText k ++ ([':'] ++ (renderVal v ++ ([','] ++
          catTexts (entriesTexts (JEntries.econs k2 v2 r2)))))
        from by simp [entriesTexts, catTexts, catTexts_append, renderVal]]
      simp

theorem unparse_elems : ∀ (vs : JElems), wfElems vs = true →
    ∀ (ln pos ai : Nat),
      unparseElems (elemsNodes vs ln pos ai) ai = some (catTexts (elemsTexts vs))
  | .anil, _, _, _, _ => rfl
  | .acons v rest, hwf, ln, pos, ai => by
    rw [wfElems, Bool.and_eq_true] at hwf
    obtain ⟨hv, hrest⟩ := hwf
    cases rest with
    | anil =>
      rw [show elemsNodes (JElems.acons v JElems.anil) ln pos ai =
        [valNode v ln pos none none (some ai)] from by simp [elemsNodes]]
      rw [unparseElems_cons]
      rw [valNode_parent_array_index, if_pos rfl, unparse_val v hv]
      rw [show unparseElems [] (ai + 1) = some [] from rfl]
      dsimp only
      rw [show catTexts (elemsTexts (JElems.acons v JElems.anil)) =
        renderVal v ++ [] from by simp [elemsTexts, catTexts, catTexts_append, renderVal]]
      simp
    | acons v2 r2 =>
      rw [show elemsNodes (JElems.acons v (JElems.acons v2 r2)) ln pos ai =
        valNode v ln pos none none (some ai) ::
        elemsNodes (JElems.acons v2 r2) ln
          (pos + (catTexts (valTexts v)).length + 1) (ai + 1)
        from by simp [elemsNodes]]
      rw [unparseElems_cons]
      rw [valNode_parent_array_index, if_pos rfl, unparse_val v hv,
        unparse_elems (JElems.acons v2 r2) hrest ln
          (pos + (catTexts (valTexts v)).length + 1) (ai + 1)]
      dsimp only
      rw [show elemsNodes (JElems.acons v2 r2) ln
          (pos + (catTexts (valTexts v)).length + 1) (ai + 1) =
        valNode v2 ln (pos + (catTexts (valTexts v)).length + 1) none none
          (some (ai + 1)) ::
        elemsNodes r2 ln (pos + (catTexts (valTexts v)).length + 1 +
          (catTexts (valTexts v2)).length +
          (match r2 with | .anil => 0 | .acons _ _ => 1)) (ai + 1 + 1)
        from by cases r2 <;> simp [elemsNodes]]
      rw [show catTexts (elemsTexts (JElems.acons v (JElems.acons v2 r2))) =
        renderVal v ++ ([','] ++ catTexts (elemsTexts (JElems.acons v2 r2)))
        from by simp [elemsTexts, catTexts, catTexts_append, renderVal]]
      simp

end

/-- Full pipeline on the canonical single-line rendering of a container
document. -/
theorem parse_doc (d : JVal) (hc : isContainer d = true) (hwf : wfVal d = true)
    (ln : Nat) :
    parse_json_objects [renderVal d] [ln] =
      .ok [(valNode d ln 0 none none none).withRelativeDepth 0] := by
  have htl : tokenize_lines ([renderVal d].zip [ln]) [] =
      .ok (emitToks ln (valTexts d) 0) := by
    rw [show [renderVal d].zip [ln] = [(renderVal d, ln)] from rfl]
    rw [tokenize_lines.eq_def]
    dsimp only
    rw [tokenize_doc d hwf ln]
    rfl
  rw [parse_json_objects, htl]
  dsimp only
  cases d with
  | jstr items => exact Bool.noConfusion hc
  | jnum nl => exact Bool.noConfusion hc
  | jtrue => exact Bool.noConfusion hc
  | jfalse => exact Bool.noConfusion hc
  | jnull => exact Bool.noConfusion hc
  | jobj es =>
    have hwf2 : wfEntries es = true := by rw [wfVal] at hwf; exact hwf
    have hgr : group_tokens_into_full_object_groups
        (emitToks ln (valTexts (JVal.jobj es)) 0) =
        .ok [⟨0, (emitToks ln (entriesTexts es) (0 + 1)).length + 1, 0⟩] := by
      rw [emitToks_obj es ln 0]
      exact group_tokens_single _ _ _ rfl rfl (entriesToks_inner es hwf2 ln (0 + 1))
    rw [hgr]
    dsimp only
    rw [parse_records, consume_doc (JVal.jobj es) hwf rfl ln]
    dsimp only
    rw [emitToks_length]
    rw [if_pos (show (valTexts (JVal.jobj es)).length =
      (entriesTexts es).length + 1 + 1 from by simp [valTexts])]
    rw [parse_records, List.nil_append]
  | jarr vs =>
    have hwf2 : wfElems vs = true := by rw [wfVal] at hwf; exact hwf
    have hgr : group_tokens_into_full_object_groups
        (emitToks ln (valTexts (JVal.jarr vs)) 0) =
        .ok [⟨0, (emitToks ln (elemsTexts vs) (0 + 1)).length + 1, 0⟩] := by
      rw [emitToks_arr vs ln 0]
      exact group_tokens_single _ _ _ rfl rfl (elemsToks_inner vs hwf2 ln (0 + 1))
    rw [hgr]
    dsimp only
    rw [parse_records, consume_doc (JVal.jarr vs) hwf rfl ln]
    dsimp only
    rw [emitToks_length]
    rw [if_pos (show (valTexts (JVal.jarr vs)).length =
      (elemsTexts vs).length + 1 + 1 from by simp [valTexts])]
    rw [parse_records, List.nil_append]

-- Claim theorems ----------------------------------------------------------

/-- C5: for the single input line `{"key": [1, 2}` with any supplied line
number `n`, `parse_json_objects` raises a syntax error whose reported
position is the closing brace token's position: line `n`, column 13 (the
closer's bracket kind does not match the `[` opener on top of the
grouping stack). -/
theorem claim_C5 (n : Nat) :
    parse_json_objects ["\x7b\"key\": [1, 2\x7d".toList] [n] =
      .error (.syntaxError n 13) := rfl

/-- C9: `parse_json_objects` is deterministic — it is a pure function of
its two arguments, so identical `lines`/`line_nums` inputs give
structurally identical results. -/
theorem claim_C9 (lines1 lines2 : List (List Char)) (nums1 nums2 : List Nat)
    (h1 : lines1 = lines2) (h2 : nums1 = nums2) :
    parse_json_objects lines1 nums1 = parse_json_objects lines2 nums2 := by
  rw [h1, h2]

/-- Witness for C9 at a concrete input. -/
theorem claim_C9_witness :
    parse_json_objects ["{}".toList] [4] = parse_json_objects ["{}".toList] [4] :=
  claim_C9 ["{}".toList] ["{}".toList] [4] [4] rfl rfl

/-- C8: when the scanning loop's cursor stands at a position of the line
where none of the five patterns (whitespace, constant, string, number,
punctuation) matches, tokenization fails with a `JsonTokenizerError`
carrying the offending line number and the offending column. -/
theorem claim_C8 (line : List Char) (line_num fuel pos : Nat) (acc : List JsonToken)
    (hpos : pos < line.length)
    (hws : matchWhitespace (line.drop pos) = none)
    (hconst : matchConstant (line.drop pos) = none)
    (hstr : matchString (line.drop pos) = none)
    (hnum : matchNumber (line.drop pos) = none)
    (hpunct : matchPunct (line.drop pos) = none) :
    tokenize_go line_num fuel (line.drop pos) pos acc =
      .error (.tokenizerError line_num pos) := by
  have hAt : matchAt (line.drop pos) = none := by
    rw [matchAt, hws, hconst, hstr, hnum, hpunct]
  have hlen : 0 < (line.drop pos).length := by
    simp only [List.length_drop]
    omega
  have hne : (line.drop pos).isEmpty = false := by
    cases hd : line.drop pos with
    | nil => rw [hd] at hlen; simp at hlen
    | cons a as => rfl
  rw [tokenize_go, hAt, hne]
  simp

/-- Witness for C8: the line `a@`, cursor at the `@`. -/
theorem claim_C8_witness :
    tokenize_go 3 9 (['a', '@'].drop 1) 1 [] = .error (.tokenizerError 3 1) :=
  claim_C8 ['a', '@'] 3 9 1 [] (by decide) rfl rfl rfl rfl rfl

/-- C3: when the grouping scan reads a closing bracket with an empty frame
stack, the `relative_depth` of every span already finalized into the
top-level result list is incremented by exactly 1 (first conjunct), and
the spans the rest of the scan discovers do not depend on the collected
prefix at all — they are the spans of the empty-prefix run, so they do not
receive that increment (second conjunct: the prefix only ever receives a
uniform further increment `k`). -/
theorem claim_C3 (tokens : List JsonToken) (token_idx : Nat) (token : JsonToken)
    (rest : List (Nat × JsonToken)) (result : List CompleteObjectTokenGroup)
    (hdelim : token.isContainerDelim = true) (hopen : token.isContainerOpen = false) :
    group_go tokens ((token_idx, token) :: rest) result [] =
      group_go tokens rest (result.map bumpDepth) [] ∧
    ∃ k, ∀ result2,
      group_go tokens rest result2 [] =
        match group_go tokens rest [] [] with
        | .error e => .error e
        | .ok (out, st) => .ok (result2.map (addDepth k) ++ out, st) := by
  constructor
  · rw [group_go]
    simp [hdelim, hopen]
  · exact group_go_result_linear tokens rest []

/-- Witness for C3 at a concrete closer and collected span. -/
theorem claim_C3_witness :
    group_go [punctTok ']' 0] [(0, punctTok ']' 0)]
        [⟨5, 6, 2⟩] [] =
      group_go [punctTok ']' 0] []
        ([(⟨5, 6, 2⟩ : CompleteObjectTokenGroup)].map bumpDepth) [] ∧
    ∃ k, ∀ result2,
      group_go [punctTok ']' 0] [] result2 [] =
        match group_go [punctTok ']' 0] [] [] [] with
        | .error e => .error e
        | .ok (out, st) => .ok (result2.map (addDepth k) ++ out, st) :=
  claim_C3 [punctTok ']' 0] 0 (punctTok ']' 0) [] [⟨5, 6, 2⟩] (by decide) (by decide)

/-- C4 counterexample: on the token stream of `{{}}` the inner complete
group `⟨1, 2, 1⟩` is appended to the accumulator of the enclosing open
frame (state after scanning the first three tokens), that ancestor then
closes at token 3, and the final top-level result list is just
`[⟨0, 3, 0⟩]` — the accumulated child group is never folded into it. -/
theorem claim_C4_counterexample :
    group_go [punctTok '{' 0, punctTok '{' 1, punctTok '}' 2, punctTok '}' 3]
        [(0, punctTok '{' 0), (1, punctTok '{' 1), (2, punctTok '}' 2)] [] [] =
      .ok ([], [{ first_token_idx := 0,
                  complete_children_groups := [⟨1, 2, 1⟩] }]) ∧
    group_tokens_into_full_object_groups
        [punctTok '{' 0, punctTok '{' 1, punctTok '}' 2, punctTok '}' 3] =
      .ok [⟨0, 3, 0⟩] ∧
    (⟨1, 2, 1⟩ : CompleteObjectTokenGroup) ∉
      [(⟨0, 3, 0⟩ : CompleteObjectTokenGroup)] :=
  ⟨rfl, rfl, by decide⟩

/-- C4 (amended): a complete group appended to the accumulator of the
enclosing top-of-stack frame is folded into the top-level result list when
the scan ends with that ancestor frame still open; when the ancestor frame
closes, its accumulated child groups are discarded (they are interior to
the ancestor's own complete group, which is reported instead).  Stated: at
the end of the scan, the returned list is the collected results followed by
the flush of every still-open frame's accumulator, so every group still
accumulated in a frame at that moment is in the returned list. -/
theorem claim_C4 (tokens : List JsonToken) (res : List CompleteObjectTokenGroup)
    (st : List ObjectGroupStackFrame)
    (h : group_go tokens (List.enumFrom 0 tokens) [] [] = .ok (res, st)) :
    group_tokens_into_full_object_groups tokens = .ok (res ++ flushList st) ∧
    ∀ f ∈ st, ∀ g ∈ f.complete_children_groups, g ∈ res ++ flushList st := by
  constructor
  · rw [group_tokens_into_full_object_groups, h, flushList]
  · intro f hf g hg
    apply List.mem_append_right
    rw [flushList]
    apply List.mem_flatten.mpr
    exact ⟨f.complete_children_groups,
      List.mem_map_of_mem _ (List.mem_reverse.mpr hf), hg⟩

/-- Witness for C4 on `{ {}` (ancestor never closes): the accumulated inner
group is flushed into the result at the end of the scan. -/
theorem claim_C4_witness :
    group_tokens_into_full_object_groups
        [punctTok '{' 0, punctTok '{' 2, punctTok '}' 3] =
      .ok ([] ++ flushList [{ first_token_idx := 0,
                              complete_children_groups := [⟨1, 2, 1⟩] }]) ∧
    ∀ f ∈ [({ first_token_idx := 0,
              complete_children_groups := [⟨1, 2, 1⟩] } : ObjectGroupStackFrame)],
      ∀ g ∈ f.complete_children_groups,
        g ∈ [] ++ flushList [{ first_token_idx := 0,
                               complete_children_groups := [⟨1, 2, 1⟩] }] :=
  claim_C4 [punctTok '{' 0, punctTok '{' 2, punctTok '}' 3] []
    [{ first_token_idx := 0, complete_children_groups := [⟨1, 2, 1⟩] }] rfl

/-- C2 counterexample: a token stream (constructible with the source's
`JsonToken` class, though never produced by the tokenizer) containing a
token whose value is `}` but whose `string` flag is set.  The grouping
pass, which inspects values only, produces the group `⟨0, 1, 0⟩`; the
structural parser, whose key handler inspects the `string` flag, consumes
the `}` as an object key and then raises `JsonIncompleteError` — refuting
the claim for arbitrary token streams. -/
theorem claim_C2_counterexample :
    group_tokens_into_full_object_groups [punctTok '{' 0, strFlaggedCloseBrace] =
      .ok [⟨0, 1, 0⟩] ∧
    consume_json_record [punctTok '{' 0, strFlaggedCloseBrace] 0 =
      .error .incompleteError :=
  ⟨rfl, rfl⟩

/-- C2 (amended): for every token stream with consistent flags — in
particular every stream the tokenizer produces — each group identified by
the grouping pass either parses to a record with the structural parser
consuming exactly the group's token span (stopping at `last_token_idx + 1`),
or raises a `JsonSyntaxError`; it never raises `JsonIncompleteError`. -/
theorem claim_C2 (tokens : List JsonToken)
    (hflags : ∀ t ∈ tokens, flagsOk t = true)
    (gs : List CompleteObjectTokenGroup)
    (hgs : group_tokens_into_full_object_groups tokens = .ok gs)
    (g : CompleteObjectTokenGroup) (hg : g ∈ gs) :
    (∃ ln pos, consume_json_record tokens g.first_token_idx =
      .error (.syntaxError ln pos)) ∨
    (∃ root, consume_json_record tokens g.first_token_idx =
      .ok (some root, g.last_token_idx + 1)) := by
  have hgood := (group_tokens_sound tokens gs hgs).1 g hg
  rcases consume_good_group tokens hflags g hgood with ⟨ln, p, h⟩ | ⟨root, h, _⟩
  · exact Or.inl ⟨ln, p, h⟩
  · exact Or.inr ⟨root, h⟩

/-- Witness for C2 on the token stream of `{}`. -/
theorem claim_C2_witness :
    (∃ ln pos, consume_json_record [punctTok '{' 0, punctTok '}' 1]
        (⟨0, 1, 0⟩ : CompleteObjectTokenGroup).first_token_idx =
      .error (.syntaxError ln pos)) ∨
    (∃ root, consume_json_record [punctTok '{' 0, punctTok '}' 1]
        (⟨0, 1, 0⟩ : CompleteObjectTokenGroup).first_token_idx =
      .ok (some root, (⟨0, 1, 0⟩ : CompleteObjectTokenGroup).last_token_idx + 1)) :=
  claim_C2 [punctTok '{' 0, punctTok '}' 1] (by decide) [⟨0, 1, 0⟩] rfl
    ⟨0, 1, 0⟩ (by decide)

/-- C6: `parse_json_objects` either succeeds with a list of records, or
fails with a tokenizer error or a syntax error — it never surfaces the
incomplete, assertion or internal errors. -/
theorem claim_C6 (lines : List (List Char)) (line_nums : List Nat) :
    (∃ records, parse_json_objects lines line_nums = .ok records) ∨
    (∃ ln pos, parse_json_objects lines line_nums =
      .error (.tokenizerError ln pos)) ∨
    (∃ ln pos, parse_json_objects lines line_nums =
      .error (.syntaxError ln pos)) := by
  rw [parse_json_objects]
  rcases tokenize_lines_spec (lines.zip line_nums) []
      (fun t ht => absurd ht (List.not_mem_nil t)) with
    ⟨tokens, hok, hflags⟩ | ⟨ln, p, herr⟩
  · rw [hok]
    dsimp only
    cases hg : group_tokens_into_full_object_groups tokens with
    | error e =>
      dsimp only
      obtain ⟨ln, p, rfl⟩ := group_tokens_errors tokens e hg
      exact Or.inr (Or.inr ⟨ln, p, rfl⟩)
    | ok gs =>
      dsimp only
      have hgood := (group_tokens_sound tokens gs hg).1
      rcases parse_records_spec tokens hflags gs [] hgood
          (fun r hr => absurd hr (List.not_mem_nil r)) with
        ⟨out, hok2, _⟩ | ⟨ln, p, herr2⟩
      · exact Or.inl ⟨out, hok2⟩
      · exact Or.inr (Or.inr ⟨ln, p, herr2⟩)
  · rw [herr]
    dsimp only
    exact Or.inr (Or.inl ⟨ln, p, rfl⟩)

/-- C7: every record returned by a successful `parse_json_objects` run is a
closed tree: each node has its `end_position` set, scalars end exactly at
their start column plus literal length, and the same holds recursively for
all children. -/
theorem claim_C7 (lines : List (List Char)) (line_nums : List Nat)
    (records : List RainbowJsonNode)
    (h : parse_json_objects lines line_nums = .ok records) :
    ∀ r ∈ records, closedOk r = true := by
  rw [parse_json_objects] at h
  rcases tokenize_lines_spec (lines.zip line_nums) []
      (fun t ht => absurd ht (List.not_mem_nil t)) with
    ⟨tokens, hok, hflags⟩ | ⟨ln, p, herr⟩
  · rw [hok] at h
    dsimp only at h
    cases hg : group_tokens_into_full_object_groups tokens with
    | error e =>
      rw [hg] at h
      cases h
    | ok gs =>
      rw [hg] at h
      dsimp only at h
      have hgood := (group_tokens_sound tokens gs hg).1
      rcases parse_records_spec tokens hflags gs [] hgood
          (fun r hr => absurd hr (List.not_mem_nil r)) with
        ⟨out, hok2, hall⟩ | ⟨ln, p, herr2⟩
      · rw [hok2] at h
        injection h with h
        subst h
        exact hall
      · rw [herr2] at h
        cases h
  · rw [herr] at h
    dsimp only at h
    cases h

/-- Witness for C7 on the single line `{}`. -/
theorem claim_C7_witness :
    closedOk (RainbowJsonNode.mk NodeType.OBJECT none none none ⟨5, 0⟩
      (some ⟨5, 1⟩) [] none (some 0)) = true :=
  claim_C7 ["{}".toList] [5]
    [RainbowJsonNode.mk NodeType.OBJECT none none none ⟨5, 0⟩
      (some ⟨5, 1⟩) [] none (some 0)] rfl
    (RainbowJsonNode.mk NodeType.OBJECT none none none ⟨5, 0⟩
      (some ⟨5, 1⟩) [] none (some 0)) (List.mem_singleton.mpr rfl)

/-- C10: every group returned by the grouping pass spans a nondegenerate
index interval whose first token is a container opener and whose last token
is the matching closer, `relative_depth` is nonnegative, and distinct
groups in the returned list occupy disjoint index ranges. -/
theorem claim_C10 (tokens : List JsonToken) (gs : List CompleteObjectTokenGroup)
    (h : group_tokens_into_full_object_groups tokens = .ok gs) :
    (∀ g ∈ gs,
      g.first_token_idx ≤ g.last_token_idx ∧ 0 ≤ g.relative_depth ∧
      (∃ o c, tokens[g.first_token_idx]? = some o ∧
        tokens[g.last_token_idx]? = some c ∧
        o.isContainerOpen = true ∧ c.isMatchingClose o = true)) ∧
    gs.Pairwise (fun a b => a.last_token_idx < b.first_token_idx ∨
      b.last_token_idx < a.first_token_idx) := by
  obtain ⟨hgood, hord⟩ := group_tokens_sound tokens gs h
  constructor
  · intro g hg
    obtain ⟨o, mid, c, hdrop, hlast, ho, hc, _⟩ := hgood g hg
    obtain ⟨hgetO, hdrop1, _⟩ := drop_cons_facts tokens _ _ _ hdrop
    have hdl : tokens.drop g.last_token_idx =
        c :: tokens.drop (g.last_token_idx + 1) := by
      have h2 : (tokens.drop (g.first_token_idx + 1)).drop mid.length =
          c :: tokens.drop (g.last_token_idx + 1) := by
        rw [hdrop1]
        exact List.drop_left mid (c :: tokens.drop (g.last_token_idx + 1))
      rw [List.drop_drop] at h2
      have harith : g.last_token_idx = g.first_token_idx + 1 + mid.length := by
        omega
      rw [harith] at h2 ⊢
      exact h2
    refine ⟨by omega, Nat.zero_le _, o, c, hgetO, ?_, ho, hc⟩
    exact (drop_cons_facts tokens _ _ _ hdl).1
  · exact hord.imp (fun h2 => Or.inl h2)

/-- Witness for C10 on the token stream of `{}[]`. -/
theorem claim_C10_witness :
    (∀ g ∈ [(⟨0, 1, 0⟩ : CompleteObjectTokenGroup), ⟨2, 3, 0⟩],
      g.first_token_idx ≤ g.last_token_idx ∧ 0 ≤ g.relative_depth ∧
      (∃ o c,
        [punctTok '{' 0, punctTok '}' 1, punctTok '[' 2,
          punctTok ']' 3][g.first_token_idx]? = some o ∧
        [punctTok '{' 0, punctTok '}' 1, punctTok '[' 2,
          punctTok ']' 3][g.last_token_idx]? = some c ∧
        o.isContainerOpen = true ∧ c.isMatchingClose o = true)) ∧
    ([(⟨0, 1, 0⟩ : CompleteObjectTokenGroup), ⟨2, 3, 0⟩]).Pairwise
      (fun a b => a.last_token_idx < b.first_token_idx ∨
        b.last_token_idx < a.first_token_idx) :=
  claim_C10 [punctTok '{' 0, punctTok '}' 1, punctTok '[' 2, punctTok ']' 3]
    [⟨0, 1, 0⟩, ⟨2, 3, 0⟩] rfl

/-- C1: for every well-formed single-line JSON object or array document
(in the canonical whitespace-free serialization `renderVal`) with its line
number, `parse_json_objects` returns exactly one root node — the expected
tree for that document — and rebuilding the text from that tree alone
(node types, children order, object keys from `parent_key`, scalar literal
values, array indices checked against `parent_array_index`) reconstructs
the input exactly: keys, values and nesting round-trip. -/
theorem claim_C1 (d : JVal) (hc : isContainer d = true) (hwf : wfVal d = true)
    (ln : Nat) :
    parse_json_objects [renderVal d] [ln] =
      .ok [(valNode d ln 0 none none none).withRelativeDepth 0] ∧
    unparse ((valNode d ln 0 none none none).withRelativeDepth 0) =
      some (renderVal d) := by
  refine ⟨parse_doc d hc hwf ln, ?_⟩
  rw [unparse_withRelativeDepth]
  exact unparse_val d hwf ln 0 none none none

/-- Witness for C1 on the document `{"a":[1,null]}` at line 3. -/
theorem claim_C1_witness :
    parse_json_objects [renderVal (JVal.jobj (JEntries.econs [StrItem.norm 'a']
        (JVal.jarr (JElems.acons (JVal.jnum ⟨false, ['1'], [], none⟩)
          (JElems.acons JVal.jnull JElems.anil))) JEntries.enil))] [3] =
      .ok [(valNode (JVal.jobj (JEntries.econs [StrItem.norm 'a']
        (JVal.jarr (JElems.acons (JVal.jnum ⟨false, ['1'], [], none⟩)
          (JElems.acons JVal.jnull JElems.anil))) JEntries.enil)) 3 0
            none none none).withRelativeDepth 0] ∧
    unparse ((valNode (JVal.jobj (JEntries.econs [StrItem.norm 'a']
        (JVal.jarr (JElems.acons (JVal.jnum ⟨false, ['1'], [], none⟩)
          (JElems.acons JVal.jnull JElems.anil))) JEntries.enil)) 3 0
            none none none).withRelativeDepth 0) =
      some (renderVal (JVal.jobj (JEntries.econs [StrItem.norm 'a']
        (JVal.jarr (JElems.acons (JVal.jnum ⟨false, ['1'], [], none⟩)
          (JElems.acons JVal.jnull JElems.anil))) JEntries.enil))) :=
  claim_C1 (JVal.jobj (JEntries.econs [StrItem.norm 'a']
    (JVal.jarr (JElems.acons (JVal.jnum ⟨false, ['1'], [], none⟩)
      (JElems.acons JVal.jnull JElems.anil))) JEntries.enil)) rfl rfl 3

end RainbowJson
